import Mathlib

/-!
The file `lib/fs/fs.c` of libtransistor: path traversal and the working-directory stack

A shallow embedding of `trn_fs_traverse` and of the operations built on it
(`trn_fs_realpath`, `trn_fs_open`, `trn_fs_opendir`, `trn_fs_chdir`,
`trn_fs_stat`, `trn_fs_set_root`, `trn_fs_mount`).

Conventions of the embedding.

* A C string is the list of its bytes before the terminating NUL, so
  `segment[0] != 0` reads `segment ≠ []`.
* `int` counters are `Int` (they stay within `-1 .. 255`), `size_t max_len` is
  a `Nat` that is only decremented while positive.
* The arrays `cwd` and `traverse` are maps from an `Int` index to an entry.
* The backend (the `ops` tables of the inodes) and `malloc` are an explicit
  environment `Env σ` acting on a world state `σ`; every call made is also
  appended to a trace of `Event`s, the release calls together with the index
  of the entry they are applied to.
* The `while` loop of `trn_fs_traverse` is iterated with fuel
  `strlen(path) + 1`; `none` means the fuel ran out (it never does, see
  `trn_fs_traverse_total`).
-/

namespace Fs

/-- Modelled from the spec: the result codes of `libtransistor/err.h`, which is not
among the sources. `RESULT_OK` is the only code that tests false in `if(r)`;
`backend` stands for every backend-specific value passed through unchanged. -/
inductive result_t
  | RESULT_OK
  | LIBTRANSISTOR_ERR_FS_PATH_TOO_DEEP
  | LIBTRANSISTOR_ERR_OUT_OF_MEMORY
  | LIBTRANSISTOR_ERR_FS_NAME_TOO_LONG
  | LIBTRANSISTOR_ERR_FS_INTERNAL_ERROR
  | LIBTRANSISTOR_ERR_FS_NOT_FOUND
  | backend (code : Nat)
deriving DecidableEq, Repr

open result_t

/-- Modelled from the spec: `trn_inode_t` of `libtransistor/fs/inode.h` (not among the
sources), a backend-owned `data` value paired with an operation table, here the
identifier `ops` of that table. -/
structure trn_inode_t where
  ops : Nat
  data : Nat
deriving DecidableEq, Repr

/-- The struct `trn_traverse_t`: an inode and the name of the path segment that
led to it. -/
structure trn_traverse_t where
  inode : trn_inode_t
  name : List Char
deriving DecidableEq, Repr

/-- The constant `MAX_RECURSION`. -/
def MAX_RECURSION : Int := 256

/-- The constant `SIZE_MAX` of a 64-bit `size_t`. -/
def SIZE_MAX : Nat := 2 ^ 64 - 1

/-- The flag `O_CREAT` of `fcntl.h` (newlib value). -/
def O_CREAT : Nat := 0x200

/-- One call that leaves `fs.c`: an operation of an inode, or `malloc`. A release
is logged with the array index of the entry it is applied to. -/
inductive Event
  | lookup (dir : trn_inode_t) (name : List Char) (r : result_t) (out : trn_inode_t)
  | release (slot : Int) (inode : trn_inode_t)
  | malloc (size : Nat) (ok : Bool)
  | create_file (dir : trn_inode_t) (name : List Char) (r : result_t)
  | open_as_file (inode : trn_inode_t) (flags : Nat) (r : result_t)
  | open_as_dir (inode : trn_inode_t) (r : result_t)
  | is_dir (inode : trn_inode_t) (r : result_t) (out : Bool)
  | mount_fs (root : trn_inode_t) (name : List Char) (mount : trn_inode_t) (r : result_t)
deriving DecidableEq, Repr

/-- Modelled from the spec: the operations of an inode (`trn_inode_ops_t` of
`inode.h`, section 4.1 of the spec), `trn_rootfs_mount_fs` and `malloc`, as
functions of a world state. A call `inode.ops->f(inode.data, ...)` is
`E.f w inode ...`. `lookup` yields the result code and the content of its
`out` argument after the call; `malloc` tells whether it returned non-NULL. -/
structure Env (σ : Type) where
  lookup : σ → trn_inode_t → List Char → σ × result_t × trn_inode_t
  release : σ → trn_inode_t → σ
  create_file : σ → trn_inode_t → List Char → σ × result_t
  open_as_file : σ → trn_inode_t → Nat → σ × result_t × Int
  open_as_dir : σ → trn_inode_t → σ × result_t × Nat
  is_dir : σ → trn_inode_t → σ × result_t × Bool
  mount_fs : σ → trn_inode_t → List Char → trn_inode_t → σ × result_t
  malloc : σ → Nat → σ × Bool

/-- The world state and the calls made so far. -/
structure Run (σ : Type) where
  w : σ
  trace : List Event

/-- The call `arr[slot].inode.ops->release(arr[slot].inode.data)`. -/
def Run.release {σ : Type} (E : Env σ) (x : Run σ) (slot : Int) (inode : trn_inode_t) : Run σ :=
  ⟨E.release x.w inode, x.trace ++ [Event.release slot inode]⟩

/-- The loop `for(int i = lo + 1; i <= hi; i++) arr[i].inode.ops->release(arr[i].inode.data);`. -/
def release_range {σ : Type} (E : Env σ) (arr : Int → trn_traverse_t) (lo hi : Int)
    (x : Run σ) : Run σ :=
  (List.range (hi - lo).toNat).foldl
    (fun y (k : Nat) => y.release E (lo + 1 + (k : Int)) (arr (lo + 1 + (k : Int))).inode) x

/-- The local variables `traverse`, `borrowed_recursion`, `traverse_recursion` of
`trn_fs_traverse`, with the world. -/
structure Rec (σ : Type) where
  traverse : Int → trn_traverse_t
  borrowed_recursion : Int
  traverse_recursion : Int
  run : Run σ

/-- Outcome of a piece of `trn_fs_traverse`: carry on, or `goto fail` with `r`. -/
inductive Step (σ : Type)
  | cont (x : Rec σ)
  | fail (r : result_t) (x : Rec σ)

/-- The function `strncmp`, up to the sign of a nonzero result. -/
def strncmp (a b : List Char) (n : Nat) : Int :=
  if a.take n = b.take n then 0 else 1

/-- Lines 80-112 of `fs.c`: the treatment of one segment, the `seglen` first bytes
of `segment`. When `malloc` fails the name pointer is NULL, modelled by the
empty name (the record of a failed traversal is never read). -/
def trn_fs_traverse_segment {σ : Type} (E : Env σ) (segment : List Char) (seglen : Nat)
    (x : Rec σ) : Step σ :=
  let t := x.traverse_recursion
  let trv := x.traverse t
  if seglen = 2 ∧ strncmp ['.', '.'] segment seglen = 0 then
    if t > 0 then
      if t > x.borrowed_recursion then
        Step.cont { x with run := x.run.release E t trv.inode, traverse_recursion := t - 1 }
      else
        Step.cont { x with borrowed_recursion := x.borrowed_recursion - 1,
                           traverse_recursion := t - 1 }
    else Step.cont x
  else if seglen = 1 ∧ strncmp ['.'] segment seglen = 0 then Step.cont x
  else
    if t + 1 ≥ MAX_RECURSION then Step.fail LIBTRANSISTOR_ERR_FS_PATH_TOO_DEEP x
    else
      let l := E.lookup x.run.w trv.inode (segment.take seglen)
      let m := E.malloc l.1 (seglen + 1)
      let run2 : Run σ :=
        ⟨m.1, x.run.trace ++ [Event.lookup trv.inode (segment.take seglen) l.2.1 l.2.2,
                              Event.malloc (seglen + 1) m.2]⟩
      if m.2 = false then
        Step.fail LIBTRANSISTOR_ERR_OUT_OF_MEMORY
          { x with traverse := Function.update x.traverse (t + 1) ⟨l.2.2, []⟩, run := run2 }
      else
        let x2 : Rec σ :=
          { x with traverse := Function.update x.traverse (t + 1) ⟨l.2.2, segment.take seglen⟩,
                   run := run2 }
        if l.2.1 ≠ RESULT_OK then Step.fail l.2.1 x2
        else Step.cont { x2 with traverse_recursion := t + 1 }

/-- The loop `while(max_len > 0 && segment[0] == '/') { max_len--; segment++; }`:
the new `max_len` and `segment`. -/
def trim_slashes : Nat → List Char → Nat × List Char
  | max_len + 1, c :: rest =>
    if c = '/' then trim_slashes max_len rest else (max_len + 1, c :: rest)
  | max_len, segment => (max_len, segment)

/-- The loop `while(max_len > 0 && segment[seglen] != '/' && segment[seglen] != 0)
{ max_len--; seglen++; }`, on the bytes from `segment[seglen]` on: the new
`max_len` and `seglen`. -/
def scan_segment : Nat → List Char → Nat → Nat × Nat
  | max_len + 1, c :: rest, seglen =>
    if c ≠ '/' then scan_segment max_len rest (seglen + 1) else (max_len + 1, seglen)
  | max_len, _, seglen => (max_len, seglen)

/-- The variables of the `while` loop of `trn_fs_traverse`. -/
structure LoopState (σ : Type) where
  segment : List Char
  max_len : Nat
  x : Rec σ

/-- Outcome of one pass through the `while` loop: another pass, the loop is left
(its condition is false, or `break`), or `goto fail`. -/
inductive Iter (σ : Type)
  | next (s : LoopState σ)
  | done (x : Rec σ)
  | fail (r : result_t) (x : Rec σ)

/-- One pass through `while(segment[0] != 0) { ... }`, lines 65-116. -/
def trn_fs_traverse_body {σ : Type} (E : Env σ) (s : LoopState σ) : Iter σ :=
  match s.segment with
  | [] => Iter.done s.x
  | _ :: _ =>
    let a := trim_slashes s.max_len s.segment
    let b := scan_segment a.1 a.2 0
    if b.1 = 0 ∨ b.2 = 0 then Iter.done s.x
    else
      match trn_fs_traverse_segment E a.2 b.2 s.x with
      | Step.cont x => Iter.next ⟨a.2.drop b.2, b.1, x⟩
      | Step.fail r x => Iter.fail r x

/-- The `while` loop, at most `fuel` passes. -/
def trn_fs_traverse_loop {σ : Type} (E : Env σ) : Nat → LoopState σ → Option (Step σ)
  | 0, _ => none
  | fuel + 1, s =>
    match trn_fs_traverse_body E s with
    | Iter.next s1 => trn_fs_traverse_loop E fuel s1
    | Iter.done x => some (Step.cont x)
    | Iter.fail r x => some (Step.fail r x)

/-- The globals of `fs.c`: `root` (`none` is NULL), `cwd` and `cwd_recursion`. -/
structure Globals where
  root : Option trn_inode_t
  cwd : Int → trn_traverse_t
  cwd_recursion : Int

/-- Content of an array entry that was never written. -/
def uninit : trn_traverse_t := ⟨⟨0, 0⟩, []⟩

/-- Lines 53-63: the state in which the `while` loop is entered. -/
def traverse_start {σ : Type} (G : Globals) (w : σ) (path : List Char) (max_len : Nat) :
    LoopState σ :=
  let d : Int := if path.head? = some '/' then 0 else G.cwd_recursion
  ⟨path, max_len,
    ⟨fun i => if 0 ≤ i ∧ i ≤ G.cwd_recursion then G.cwd i else uninit, d, d, ⟨w, []⟩⟩⟩

/-- What `trn_fs_traverse` hands back: the result code and the record. After a
failure the counters are the ones the `fail:` loop ran over. -/
structure Out (σ : Type) where
  r : result_t
  x : Rec σ

/-- Lines 118-131: the two exits of `trn_fs_traverse`. -/
def traverse_exit {σ : Type} (E : Env σ) : Step σ → Out σ
  | Step.cont x => ⟨RESULT_OK, x⟩
  | Step.fail r x =>
    ⟨r, { x with run := release_range E x.traverse x.borrowed_recursion x.traverse_recursion x.run }⟩

/-- The function `trn_fs_traverse`, started in world `w` with an empty trace. -/
def trn_fs_traverse {σ : Type} (E : Env σ) (G : Globals) (w : σ) (path : List Char)
    (max_len : Nat) : Option (Out σ) :=
  (trn_fs_traverse_loop E (path.length + 1) (traverse_start G w path max_len)).map
    (traverse_exit E)

/-- An operation of the public interface hands back its result code, the value
stored through its out argument (`none` when nothing was stored), the
globals and the world. -/
structure Ret (σ : Type) (α : Type) where
  r : result_t
  out : Option α
  G : Globals
  run : Run σ

/-- A call of `trn_fs_traverse` made after the calls of `run`. -/
def traverse_from {σ : Type} (E : Env σ) (G : Globals) (run : Run σ) (path : List Char)
    (max_len : Nat) : Option (Out σ) :=
  (trn_fs_traverse E G run.w path max_len).map fun o =>
    { o with x := { o.x with run := ⟨o.x.run.w, run.trace ++ o.x.run.trace⟩ } }

/-- The first loop of `trn_fs_realpath`: `path_size += strlen(traverse[i].name) + 1`
for `i = 0 .. traverse_recursion`. -/
def realpath_size (traverse : Int → trn_traverse_t) (traverse_recursion : Int) : Nat :=
  (List.range (traverse_recursion + 1).toNat).foldl
    (fun path_size (i : Nat) => path_size + ((traverse (i : Int)).name.length + 1)) 0

/-- The second loop of `trn_fs_realpath` and the final
`(*resolved_path)[copy_offset-1] = 0`: the string left in the buffer. -/
def realpath_copy (traverse : Int → trn_traverse_t) (traverse_recursion : Int) : List Char :=
  ((List.range (traverse_recursion + 1).toNat).foldl
    (fun buf (i : Nat) => buf ++ (traverse (i : Int)).name ++ ['/']) []).dropLast

/-- The function `trn_fs_realpath`; `resolved_path` is the incoming `*resolved_path`
(`none` is NULL). The `printf` is not modelled. -/
def trn_fs_realpath {σ : Type} (E : Env σ) (G : Globals) (w : σ) (path : List Char)
    (resolved_path : Option (List Char)) : Option (Ret σ (List Char)) :=
  match trn_fs_traverse E G w path SIZE_MAX with
  | none => none
  | some o =>
    if o.r ≠ RESULT_OK then some ⟨o.r, resolved_path, G, o.x.run⟩
    else
      let b := o.x.borrowed_recursion
      let t := o.x.traverse_recursion
      let path_size := realpath_size o.x.traverse t
      if path_size > 256 then
        some ⟨LIBTRANSISTOR_ERR_FS_NAME_TOO_LONG, resolved_path, G,
          release_range E o.x.traverse b t o.x.run⟩
      else
        match resolved_path with
        | none =>
          let m := E.malloc o.x.run.w path_size
          let run1 : Run σ := ⟨m.1, o.x.run.trace ++ [Event.malloc path_size m.2]⟩
          if m.2 = false then
            some ⟨LIBTRANSISTOR_ERR_OUT_OF_MEMORY, none, G, release_range E o.x.traverse b t run1⟩
          else
            some ⟨RESULT_OK, some (realpath_copy o.x.traverse t), G,
              release_range E o.x.traverse b t run1⟩
        | some _ =>
          some ⟨RESULT_OK, some (realpath_copy o.x.traverse t), G,
            release_range E o.x.traverse b t o.x.run⟩

/-- The function `strrchr`: the index of the last occurrence of `c`. -/
def strrchr : List Char → Char → Option Nat
  | [], _ => none
  | x :: rest, c =>
    match strrchr rest c with
    | some i => some (i + 1)
    | none => if x = c then some 0 else none

/-- Lines 211-221 of `trn_fs_open`: the full traversal, `open_as_file` and the
release loop, after the calls of `run`. -/
def trn_fs_open_resolve {σ : Type} (E : Env σ) (G : Globals) (run : Run σ) (path : List Char)
    (flags : Nat) : Option (Ret σ Int) :=
  match traverse_from E G run path SIZE_MAX with
  | none => none
  | some o =>
    if o.r ≠ RESULT_OK then some ⟨o.r, none, G, o.x.run⟩
    else
      let inode := (o.x.traverse o.x.traverse_recursion).inode
      let f := E.open_as_file o.x.run.w inode flags
      let run1 : Run σ := ⟨f.1, o.x.run.trace ++ [Event.open_as_file inode flags f.2.1]⟩
      some ⟨f.2.1, some f.2.2, G,
        release_range E o.x.traverse o.x.borrowed_recursion o.x.traverse_recursion run1⟩

/-- The function `trn_fs_open`. -/
def trn_fs_open {σ : Type} (E : Env σ) (G : Globals) (w : σ) (path : List Char)
    (flags : Nat) : Option (Ret σ Int) :=
  if flags &&& O_CREAT ≠ 0 then
    match strrchr path '/' with
    | none => trn_fs_open_resolve E G ⟨w, []⟩ path flags
    | some last_component =>
      match trn_fs_traverse E G w path last_component with
      | none => none
      | some o =>
        if o.r ≠ RESULT_OK then some ⟨o.r, none, G, o.x.run⟩
        else
          let inode := (o.x.traverse o.x.traverse_recursion).inode
          let c := E.create_file o.x.run.w inode (path.drop (last_component + 1))
          let run1 : Run σ :=
            ⟨c.1, o.x.run.trace ++
              [Event.create_file inode (path.drop (last_component + 1)) c.2]⟩
          let run2 :=
            release_range E o.x.traverse o.x.borrowed_recursion o.x.traverse_recursion run1
          if c.2 ≠ RESULT_OK then some ⟨c.2, none, G, run2⟩
          else trn_fs_open_resolve E G run2 path flags
  else trn_fs_open_resolve E G ⟨w, []⟩ path flags

/-- The function `trn_fs_opendir`. -/
def trn_fs_opendir {σ : Type} (E : Env σ) (G : Globals) (w : σ) (path : List Char) :
    Option (Ret σ Nat) :=
  match trn_fs_traverse E G w path SIZE_MAX with
  | none => none
  | some o =>
    if o.r ≠ RESULT_OK then some ⟨o.r, none, G, o.x.run⟩
    else
      let inode := (o.x.traverse o.x.traverse_recursion).inode
      let f := E.open_as_dir o.x.run.w inode
      let run1 : Run σ := ⟨f.1, o.x.run.trace ++ [Event.open_as_dir inode f.2.1]⟩
      some ⟨f.2.1, some f.2.2, G,
        release_range E o.x.traverse o.x.borrowed_recursion o.x.traverse_recursion run1⟩

/-- The function `trn_fs_chdir`. The `printf` is not modelled. -/
def trn_fs_chdir {σ : Type} (E : Env σ) (G : Globals) (w : σ) (path : List Char) :
    Option (Ret σ Unit) :=
  match trn_fs_traverse E G w path SIZE_MAX with
  | none => none
  | some o =>
    if o.r ≠ RESULT_OK then some ⟨o.r, none, G, o.x.run⟩
    else
      let run1 := release_range E G.cwd o.x.borrowed_recursion G.cwd_recursion o.x.run
      let cwd_recursion := o.x.traverse_recursion
      some ⟨RESULT_OK, none,
        ⟨G.root, fun i => if 0 ≤ i ∧ i ≤ cwd_recursion then o.x.traverse i else G.cwd i,
          cwd_recursion⟩, run1⟩

/-- The constant `S_IFDIR` of `sys/stat.h`. -/
def S_IFDIR : Nat := 0o040000

/-- The constant `S_IFREG` of `sys/stat.h`. -/
def S_IFREG : Nat := 0o100000

/-- The function `trn_fs_stat`; the out value is `st->st_mode`. -/
def trn_fs_stat {σ : Type} (E : Env σ) (G : Globals) (w : σ) (path : List Char) :
    Option (Ret σ Nat) :=
  match trn_fs_traverse E G w path SIZE_MAX with
  | none => none
  | some o =>
    if o.r ≠ RESULT_OK then some ⟨o.r, none, G, o.x.run⟩
    else
      let inode := (o.x.traverse o.x.traverse_recursion).inode
      let f := E.is_dir o.x.run.w inode
      let run1 : Run σ := ⟨f.1, o.x.run.trace ++ [Event.is_dir inode f.2.1 f.2.2]⟩
      some ⟨f.2.1, some (if f.2.2 then S_IFDIR else S_IFREG), G,
        release_range E o.x.traverse o.x.borrowed_recursion o.x.traverse_recursion run1⟩

/-- The function `trn_fs_set_root`. -/
def trn_fs_set_root {σ : Type} (E : Env σ) (G : Globals) (w : σ) (new_root : trn_inode_t) :
    Ret σ Unit :=
  let run : Run σ :=
    match G.root with
    | some root => Run.release E ⟨w, []⟩ 0 root
    | none => ⟨w, []⟩
  ⟨RESULT_OK, none, ⟨some new_root, Function.update G.cwd 0 ⟨new_root, []⟩, 0⟩, run⟩

/-- The function `trn_fs_mount`. -/
def trn_fs_mount {σ : Type} (E : Env σ) (G : Globals) (w : σ) (mount_name : List Char)
    (mount : trn_inode_t) : Ret σ Unit :=
  match G.root with
  | some root =>
    let m := E.mount_fs w root mount_name mount
    ⟨m.2, none, G, ⟨m.1, [Event.mount_fs root mount_name mount m.2]⟩⟩
  | none => ⟨LIBTRANSISTOR_ERR_FS_INTERNAL_ERROR, none, G, ⟨w, []⟩⟩

/-! ## Notions used to state the properties -/

/-- The release calls of the loop `for(i = lo + 1; i <= hi; i++)` over `arr`: one
for each index of `(lo, hi]`, in increasing order. -/
def release_events (arr : Int → trn_traverse_t) (lo hi : Int) : List Event :=
  (List.range (hi - lo).toNat).map
    (fun (k : Nat) => Event.release (lo + 1 + (k : Int)) (arr (lo + 1 + (k : Int))).inode)

/-- The inodes of the entries of `arr` at the indices of `(lo, hi]`. -/
def owned_range (arr : Int → trn_traverse_t) (lo hi : Int) : List trn_inode_t :=
  (List.range (hi - lo).toNat).map (fun (k : Nat) => (arr (lo + 1 + (k : Int))).inode)

/-- The inodes of the entries `(borrowed_recursion, traverse_recursion]` of a
record, the ones the traversal owns. -/
def owned {σ : Type} (x : Rec σ) : List trn_inode_t :=
  owned_range x.traverse x.borrowed_recursion x.traverse_recursion

/-- Bookkeeping of one call: a successful lookup adds the handle it returned to the
handles held, a release removes the handle it is applied to and is an error
(`none`) when that handle is not held. -/
def account (held : Multiset trn_inode_t) : Event → Option (Multiset trn_inode_t)
  | Event.lookup _ _ r out => some (if r = RESULT_OK then out ::ₘ held else held)
  | Event.release _ inode => if inode ∈ held then some (held.erase inode) else none
  | _ => some held

/-- The handles returned by successful lookups of the trace and not released yet,
starting from `held`; `none` when some release is applied to a handle that is
not held at that moment (never returned by a lookup, or already released). -/
def outstanding (trace : List Event) (held : Multiset trn_inode_t) :
    Option (Multiset trn_inode_t) :=
  trace.foldlM account held

/-- The invariant of the counters: `0 <= borrowed_recursion <= traverse_recursion
<= MAX_RECURSION - 1`. -/
def Inv {σ : Type} (x : Rec σ) : Prop :=
  0 ≤ x.borrowed_recursion ∧ x.borrowed_recursion ≤ x.traverse_recursion ∧
    x.traverse_recursion ≤ MAX_RECURSION - 1

/-- The states in which the `while` loop is entered again, starting from `s0`. -/
inductive Reach {σ : Type} (E : Env σ) (s0 : LoopState σ) : LoopState σ → Prop
  | start : Reach E s0 s0
  | pass (s s1 : LoopState σ) : Reach E s0 s → trn_fs_traverse_body E s = Iter.next s1 →
      Reach E s0 s1

/-- The record after one pass. -/
def Iter.record {σ : Type} : Iter σ → Rec σ
  | Iter.next s => s.x
  | Iter.done x => x
  | Iter.fail _ x => x

/-- The calls made by one pass through the loop from state `s`. -/
def pass_events {σ : Type} (E : Env σ) (s : LoopState σ) : List Event :=
  (trn_fs_traverse_body E s).record.run.trace.drop s.x.run.trace.length

/-- Segments of a path, read left to right with the segment `cur` under way. -/
def segments_aux : List Char → List Char → List (List Char)
  | [], cur => if cur = [] then [] else [cur]
  | c :: rest, cur =>
    if c = '/' then (if cur = [] then segments_aux rest [] else cur :: segments_aux rest [])
    else segments_aux rest (cur ++ [c])

/-- The segments of a path: its maximal nonempty runs of bytes other than `/`. -/
def segments_of (path : List Char) : List (List Char) :=
  segments_aux path []

/-- The segments treated one after the other, each as `trn_fs_traverse_segment`
treats it, up to the first failure. -/
def run_segments {σ : Type} (E : Env σ) : List (List Char) → Rec σ → Step σ
  | [], x => Step.cont x
  | seg :: rest, x =>
    match trn_fs_traverse_segment E seg seg.length x with
    | Step.cont x1 => run_segments E rest x1
    | Step.fail r x1 => Step.fail r x1

/-- What holds of the record each time the loop is entered: the counters are
ordered, the handles held after the calls made so far are the owned entries,
no lookup and no allocation failed, and every release was applied to an
index above `borrowed_recursion`. -/
def TraverseInv {σ : Type} (x : Rec σ) : Prop :=
  x.borrowed_recursion ≤ x.traverse_recursion ∧
  outstanding x.run.trace 0 = some (owned x : Multiset trn_inode_t) ∧
  (∀ d n r h, Event.lookup d n r h ∈ x.run.trace → r = RESULT_OK) ∧
  (∀ n ok, Event.malloc n ok ∈ x.run.trace → ok = true) ∧
  (∀ i h, Event.release i h ∈ x.run.trace → x.borrowed_recursion < i)

/-- What holds of the record at `goto fail` with result `r`: either the depth
limit was hit, or a lookup was just made from a record `x0` and the
allocation of the name or the lookup itself failed. -/
def FailInv {σ : Type} (r : result_t) (x : Rec σ) : Prop :=
  r ≠ RESULT_OK ∧
  ((r = LIBTRANSISTOR_ERR_FS_PATH_TOO_DEEP ∧ TraverseInv x) ∨
   ∃ (x0 : Rec σ) (name : List Char) (rl : result_t) (h : trn_inode_t) (n : Nat) (ok : Bool),
      TraverseInv x0 ∧ x.borrowed_recursion = x0.borrowed_recursion ∧
      x.traverse_recursion = x0.traverse_recursion ∧
      (∀ i, i ≤ x0.traverse_recursion → x.traverse i = x0.traverse i) ∧
      x.run.trace = x0.run.trace ++
        [Event.lookup (x0.traverse x0.traverse_recursion).inode name rl h, Event.malloc n ok] ∧
      ((ok = false ∧ r = LIBTRANSISTOR_ERR_OUT_OF_MEMORY) ∨
       (ok = true ∧ rl ≠ RESULT_OK ∧ r = rl)))

/-- The outcome of one pass satisfies `P` when the loop goes on or is left, `Q`
at `goto fail`. -/
def Iter.sat {σ : Type} (P : Rec σ → Prop) (Q : result_t → Rec σ → Prop) : Iter σ → Prop
  | Iter.next s => P s.x
  | Iter.done x => P x
  | Iter.fail r x => Q r x

/-- The outcome of the loop satisfies `P` when it is left, `Q` at `goto fail`. -/
def Step.sat {σ : Type} (P : Rec σ → Prop) (Q : result_t → Rec σ → Prop) : Step σ → Prop
  | Step.cont x => P x
  | Step.fail r x => Q r x

/-- The record carried by an outcome. -/
def Step.record {σ : Type} : Step σ → Rec σ
  | Step.cont x => x
  | Step.fail _ x => x

/-- Whether a call is a release. -/
def Event.is_release : Event → Bool
  | Event.release _ _ => true
  | _ => false

/-- Whether a call is a lookup that succeeded. -/
def Event.is_lookup_ok : Event → Bool
  | Event.lookup _ _ r _ => decide (r = RESULT_OK)
  | _ => false

/-- A named segment: nonempty, without `/`, and neither `.` nor `..`. -/
def named (s : List Char) : Prop :=
  s ≠ [] ∧ '/' ∉ s ∧ s ≠ ['.'] ∧ s ≠ ['.', '.']

/-- Every lookup of the trace succeeded. -/
def lookups_succeed (trace : List Event) : Prop :=
  ∀ d n r a, Event.lookup d n r a ∈ trace → r = RESULT_OK

/-- Every allocation of the trace succeeded. -/
def allocations_succeed (trace : List Event) : Prop :=
  ∀ n ok, Event.malloc n ok ∈ trace → ok = true

/-- The calls of a traversal that resolves the named segments `segs` from the
entry at index `t`: for each segment a lookup on the entry before, with the
bytes of the segment, that returns the inode of the next entry, and the
allocation of the name. -/
def lookup_calls (traverse : Int → trn_traverse_t) (t : Int) : List (List Char) → List Event
  | [] => []
  | s :: rest =>
    Event.lookup (traverse t).inode s RESULT_OK (traverse (t + 1)).inode ::
      Event.malloc (s.length + 1) true :: lookup_calls traverse (t + 1) rest

/-- The entries after index `t` carry the names `segs`, in order. -/
def names_stored (traverse : Int → trn_traverse_t) (t : Int) : List (List Char) → Prop
  | [] => True
  | s :: rest => (traverse (t + 1)).name = s ∧ names_stored traverse (t + 1) rest

/-- A path made of the segments `segs` separated by single slashes, after a
leading slash when `absolute`. -/
def path_of (absolute : Bool) (segs : List (List Char)) : List Char :=
  (if absolute then ['/'] else []) ++ List.intercalate ['/'] segs

/-- The path obtained from `p` by deleting the `.` segments and collapsing the runs
of slashes: the segments of `p` other than `.`, separated by single slashes,
after a leading slash when `p` has one. -/
def without_dots (p : List Char) : List Char :=
  path_of (decide (p.head? = some '/')) ((segments_of p).filter (fun s => decide (s ≠ ['.'])))

/-! ## Concrete environments, for the examples -/

/-- A backend in which every lookup succeeds and returns a handle never seen
before (the world counts the lookups), and every other call succeeds. -/
def env_plain : Env Nat where
  lookup := fun w dir _ => (w + 1, RESULT_OK, ⟨dir.ops, w + 100⟩)
  release := fun w _ => w
  create_file := fun w _ _ => (w, RESULT_OK)
  open_as_file := fun w _ _ => (w, RESULT_OK, 3)
  open_as_dir := fun w _ => (w, RESULT_OK, 0)
  is_dir := fun w _ => (w, RESULT_OK, true)
  mount_fs := fun w _ _ _ => (w, RESULT_OK)
  malloc := fun w _ => (w, true)

/-- The backend `env_plain` with a `malloc` that always returns NULL. -/
def env_no_memory : Env Nat :=
  { env_plain with malloc := fun w _ => (w, false) }

/-- The globals right after `trn_fs_set_root`: the root alone, at depth 0. -/
def globals_root : Globals :=
  ⟨some ⟨0, 0⟩, fun _ => ⟨⟨0, 0⟩, []⟩, 0⟩

/-- A working directory at depth 3: entry `i` holds the inode with data `i`. -/
def globals_depth3 : Globals :=
  ⟨some ⟨0, 0⟩, fun i => ⟨⟨0, i.toNat⟩, if i = 0 then [] else ['d']⟩, 3⟩

/-! ## Further notions: realpath, canonical form -/

/-- The names of the entries `0 .. t` of a record, in order. -/
def record_names (traverse : Int → trn_traverse_t) (t : Int) : List (List Char) :=
  (List.range (t + 1).toNat).map (fun (i : Nat) => (traverse (i : Int)).name)

/-- Reference definition of the result of `trn_fs_realpath`, from the words of the
specification: with entry names `n0 .. nk`, NAME_TOO_LONG when the sum of the
`length(n_i) + 1` exceeds 256, otherwise the names joined by `/`, without a
trailing slash. -/
def realpath_reference (names : List (List Char)) : Except result_t (List Char) :=
  if (names.map (fun n => n.length + 1)).sum > 256 then
    Except.error LIBTRANSISTOR_ERR_FS_NAME_TOO_LONG
  else Except.ok (List.intercalate ['/'] names)

/-- The segments that remain after applying `.` and `..`, starting from the
segments `stack` already resolved: a named segment is added, `.` changes
nothing, `..` removes the last segment when there is one. -/
def canonical_segments : List (List Char) → List (List Char) → List (List Char)
  | [], stack => stack
  | seg :: rest, stack =>
    if seg = ['.', '.'] then canonical_segments rest stack.dropLast
    else if seg = ['.'] then canonical_segments rest stack
    else canonical_segments rest (stack ++ [seg])

/-- The depth stays within the recursion bound while the segments are applied
from depth `d`: each named segment is met at a depth of at most
`MAX_RECURSION - 2`. -/
def depth_within_bound : List (List Char) → Nat → Prop
  | [], _ => True
  | seg :: rest, d =>
    if seg = ['.', '.'] then depth_within_bound rest (d - 1)
    else if seg = ['.'] then depth_within_bound rest d
    else (d : Int) + 1 ≤ MAX_RECURSION - 1 ∧ depth_within_bound rest (d + 1)

/-- The result code of an outcome: `RESULT_OK` when the segment was treated. -/
def Step.result {σ : Type} : Step σ → result_t
  | Step.cont _ => RESULT_OK
  | Step.fail r _ => r

/-- Whether a call is a `create_file`. -/
def Event.is_create_file : Event → Bool
  | Event.create_file _ _ _ => true
  | _ => false

/-! ## Further concrete environments -/

/-- An empty file system: every lookup fails with NOT_FOUND, every other call
succeeds. -/
def env_empty : Env Nat :=
  { env_plain with
    lookup := fun w _ _ => (w, LIBTRANSISTOR_ERR_FS_NOT_FOUND, ⟨0, 0⟩) }

/-- A working directory at the largest depth the stack can hold, 255. -/
def globals_depth255 : Globals :=
  ⟨some ⟨0, 0⟩, fun i => ⟨⟨0, i.toNat⟩, if i = 0 then [] else ['d']⟩, 255⟩

/-- The globals before any call of `trn_fs_set_root`. -/
def globals_initial : Globals :=
  ⟨none, fun _ => uninit, -1⟩

/-! ## Further notions: sequences of calls -/

/-- A call of the public interface, with its arguments; `resolved_path` is the
incoming `*resolved_path` of `trn_fs_realpath`. -/
inductive Op
  | chdir (path : List Char)
  | open_file (path : List Char) (flags : Nat)
  | opendir (path : List Char)
  | stat (path : List Char)
  | realpath (path : List Char) (resolved_path : Option (List Char))

/-- The globals and the world between two calls, with all the calls made to the
backend so far. -/
structure Sys (σ : Type) where
  G : Globals
  run : Run σ

/-- The state after a call made in state `s` that handed back `ret`. -/
def Sys.after {σ α : Type} (s : Sys σ) (ret : Ret σ α) : Sys σ :=
  ⟨ret.G, ⟨ret.run.w, s.run.trace ++ ret.run.trace⟩⟩

/-- One call of the public interface, made in state `s`. -/
def Op.call {σ : Type} (E : Env σ) (s : Sys σ) : Op → Option (Sys σ)
  | Op.chdir path => (trn_fs_chdir E s.G s.run.w path).map s.after
  | Op.open_file path flags => (trn_fs_open E s.G s.run.w path flags).map s.after
  | Op.opendir path => (trn_fs_opendir E s.G s.run.w path).map s.after
  | Op.stat path => (trn_fs_stat E s.G s.run.w path).map s.after
  | Op.realpath path resolved_path =>
    (trn_fs_realpath E s.G s.run.w path resolved_path).map s.after

/-- A sequence of calls, made one after the other from state `s`. -/
def run_ops {σ : Type} (E : Env σ) : List Op → Sys σ → Option (Sys σ)
  | [], s => some s
  | op :: rest, s => (op.call E s).bind (run_ops E rest)

/-- The handle a call returned, when the call is a successful lookup. -/
def Event.returned : Event → Option trn_inode_t
  | Event.lookup _ _ r out => if r = RESULT_OK then some out else none
  | _ => none

/-- The handle a call released, when the call is a release. -/
def Event.released : Event → Option trn_inode_t
  | Event.release _ inode => some inode
  | _ => none

/-- The handles returned by the successful lookups of a trace, in order. -/
def returned_handles (trace : List Event) : List trn_inode_t :=
  trace.filterMap Event.returned

/-- The handles released in a trace, one for each release call, in order. -/
def released_handles (trace : List Event) : List trn_inode_t :=
  trace.filterMap Event.released

/-- Some allocation of a name failed: the allocations of names are the ones
`trn_fs_traverse` makes right after a lookup. -/
def name_storage_fails (trace : List Event) : Prop :=
  ∃ pre d n r a k post,
    trace = pre ++ Event.lookup d n r a :: Event.malloc k false :: post

/-- Whether a call is anything but an allocation that failed. -/
def Event.not_failed_malloc : Event → Bool
  | Event.malloc _ ok => ok
  | _ => true

/-- The entries `0 .. borrowed_recursion` of a record are entries of the
working-directory stack. -/
def Borrowed {σ : Type} (G : Globals) (x : Rec σ) : Prop :=
  0 ≤ x.borrowed_recursion ∧ x.borrowed_recursion ≤ x.traverse_recursion ∧
  x.borrowed_recursion ≤ G.cwd_recursion ∧
  ∀ i, 0 ≤ i → i ≤ x.borrowed_recursion → x.traverse i = G.cwd i

/-- What holds between two calls once the root is set: the stack starts with the
root, and the handles returned by lookups and not released yet are the ones
of the stack entries `1 .. depth`. -/
def StackInv {σ : Type} (new_root : trn_inode_t) (s : Sys σ) : Prop :=
  0 ≤ s.G.cwd_recursion ∧ (s.G.cwd 0).inode = new_root ∧
  outstanding s.run.trace 0
    = some (owned_range s.G.cwd 0 s.G.cwd_recursion : Multiset trn_inode_t)

/-! ## Theorems -/

theorem foldl_release_trace {σ : Type} (E : Env σ) (f : Nat → Int) (g : Nat → trn_inode_t)
    (l : List Nat) (x : Run σ) :
    (l.foldl (fun y k => y.release E (f k) (g k)) x).trace
      = x.trace ++ l.map (fun k => Event.release (f k) (g k)) := by
  induction l generalizing x with
  | nil => simp
  | cons k l ih => simp only [List.foldl_cons, ih, List.map_cons]; simp [Run.release]

theorem release_range_trace {σ : Type} (E : Env σ) (arr : Int → trn_traverse_t) (lo hi : Int)
    (x : Run σ) :
    (release_range E arr lo hi x).trace = x.trace ++ release_events arr lo hi := by
  unfold release_range release_events
  exact foldl_release_trace E (fun k => lo + 1 + (k : Int)) (fun k => (arr (lo + 1 + (k : Int))).inode) _ x

theorem outstanding_append (l1 l2 : List Event) (o : Multiset trn_inode_t) :
    outstanding (l1 ++ l2) o = (outstanding l1 o).bind (outstanding l2) := by
  unfold outstanding
  rw [List.foldlM_append]
  rfl

theorem outstanding_nil (o : Multiset trn_inode_t) : outstanding [] o = some o := rfl

theorem outstanding_cons (e : Event) (l : List Event) (o : Multiset trn_inode_t) :
    outstanding (e :: l) o = (account o e).bind (outstanding l) := by
  unfold outstanding
  rw [List.foldlM_cons]
  rfl

/-- Trimming the slashes in front leaves a suffix of the path. -/
theorem trim_slashes_length (m : Nat) (p : List Char) :
    (trim_slashes m p).2.length ≤ p.length := by
  induction p generalizing m with
  | nil => cases m <;> simp [trim_slashes]
  | cons c rest ih =>
    cases m with
    | zero => simp [trim_slashes]
    | succ m =>
      simp only [trim_slashes]
      split
      · exact Nat.le_succ_of_le (ih m)
      · simp

theorem scan_segment_le (m : Nat) (q : List Char) (k : Nat) :
    (scan_segment m q k).2 ≤ k + q.length := by
  induction q generalizing m k with
  | nil => cases m <;> simp [scan_segment]
  | cons c rest ih =>
    cases m with
    | zero => simp [scan_segment]
    | succ m =>
      simp only [scan_segment]
      split
      · have := ih m (k + 1); simp only [List.length_cons]; omega
      · simp

/-- Each pass that goes on consumes at least one byte of the path. -/
theorem body_next_length {σ : Type} (E : Env σ) (s s1 : LoopState σ)
    (h : trn_fs_traverse_body E s = Iter.next s1) : s1.segment.length < s.segment.length := by
  unfold trn_fs_traverse_body at h
  split at h
  · cases h
  · rename_i c rest hseg
    simp only at h
    split at h
    · cases h
    · rename_i hb
      split at h
      · cases h
        simp only [List.length_drop]
        have h1 := trim_slashes_length s.max_len s.segment
        have h2 := scan_segment_le (trim_slashes s.max_len s.segment).1 (trim_slashes s.max_len s.segment).2 0
        omega
      · cases h

/-- The loop ends within `fuel` passes when `fuel` exceeds what is left of the path. -/
theorem loop_total {σ : Type} (E : Env σ) (fuel : Nat) (s : LoopState σ)
    (h : s.segment.length < fuel) : ∃ e, trn_fs_traverse_loop E fuel s = some e := by
  induction fuel generalizing s with
  | zero => omega
  | succ fuel ih =>
    unfold trn_fs_traverse_loop
    cases hb : trn_fs_traverse_body E s with
    | next s1 =>
      have := body_next_length E s s1 hb
      exact ih s1 (by omega)
    | done x => exact ⟨_, rfl⟩
    | fail r x => exact ⟨_, rfl⟩

/-- The function `trn_fs_traverse` returns on every input: the fuel never runs out. -/
theorem trn_fs_traverse_total {σ : Type} (E : Env σ) (G : Globals) (w : σ) (path : List Char)
    (max_len : Nat) : ∃ o, trn_fs_traverse E G w path max_len = some o := by
  obtain ⟨e, he⟩ := loop_total E (path.length + 1) (traverse_start G w path max_len)
    (by simp [traverse_start])
  exact ⟨traverse_exit E e, by simp [trn_fs_traverse, he]⟩


theorem outstanding_single (e : Event) (o : Multiset trn_inode_t) :
    outstanding [e] o = account o e := by
  rw [outstanding_cons]
  cases account o e <;> rfl

theorem outstanding_pair (e1 e2 : Event) (o : Multiset trn_inode_t) :
    outstanding [e1, e2] o = (account o e1).bind (fun o1 => account o1 e2) := by
  rw [outstanding_cons]
  cases account o e1 with
  | none => rfl
  | some o1 => exact outstanding_single e2 o1
theorem owned_range_pop (arr : Int → trn_traverse_t) (lo hi : Int) (h : lo < hi) :
    owned_range arr lo hi = owned_range arr lo (hi - 1) ++ [(arr hi).inode] := by
  unfold owned_range
  have e : (hi - lo).toNat = (hi - 1 - lo).toNat + 1 := by omega
  rw [e, List.range_succ, List.map_append]
  congr 3
  simp only [List.map_cons, List.map_nil]
  have : lo + 1 + ((hi - 1 - lo).toNat : Int) = hi := by omega
  rw [this]

theorem owned_range_push (arr : Int → trn_traverse_t) (lo hi : Int) (e : trn_traverse_t)
    (h : lo ≤ hi) :
    owned_range (Function.update arr (hi + 1) e) lo (hi + 1) = owned_range arr lo hi ++ [e.inode] := by
  unfold owned_range
  have e1 : (hi + 1 - lo).toNat = (hi - lo).toNat + 1 := by omega
  rw [e1, List.range_succ, List.map_append]
  congr 1
  · apply List.map_congr_left
    intro k hk
    rw [List.mem_range] at hk
    rw [Function.update_noteq]
    omega
  · simp only [List.map_cons, List.map_nil]
    have : lo + 1 + ((hi - lo).toNat : Int) = hi + 1 := by omega
    rw [this, Function.update_same]

theorem owned_range_congr (arr1 arr2 : Int → trn_traverse_t) (lo hi : Int)
    (h : ∀ i, lo < i → i ≤ hi → arr1 i = arr2 i) :
    owned_range arr1 lo hi = owned_range arr2 lo hi := by
  unfold owned_range
  apply List.map_congr_left
  intro k hk
  rw [List.mem_range] at hk
  rw [h] <;> omega

theorem owned_range_empty (arr : Int → trn_traverse_t) (lo hi : Int) (h : hi ≤ lo) :
    owned_range arr lo hi = [] := by
  unfold owned_range
  have : (hi - lo).toNat = 0 := by omega
  rw [this]; rfl

theorem coe_snoc (l : List trn_inode_t) (h : trn_inode_t) :
    ((l ++ [h] : List trn_inode_t) : Multiset trn_inode_t) = h ::ₘ (l : Multiset trn_inode_t) := by
  rw [Multiset.cons_coe]
  exact Multiset.coe_eq_coe.2 (List.perm_append_singleton h l)

theorem segment_cont_inv {σ : Type} (E : Env σ) (seg : List Char) (n : Nat) (x x1 : Rec σ)
    (hP : TraverseInv x) (h : trn_fs_traverse_segment E seg n x = Step.cont x1) :
    TraverseInv x1 := by
  obtain ⟨hbt, hout, hlk, hml, hrl⟩ := hP
  unfold trn_fs_traverse_segment at h
  simp only at h
  split_ifs at h with c1 c2 c3 c4 c5 c6 c7
  · -- release of the entry at traverse_recursion
    cases h
    refine ⟨by simp only; omega, ?_, ?_, ?_, ?_⟩
    · simp only [Run.release]
      rw [outstanding_append, hout, Option.some_bind, outstanding_single]
      simp only [owned]
      rw [owned_range_pop _ _ _ c3, coe_snoc]
      simp [account]
    · intro d n r h hm
      simp only [Run.release, List.mem_append, List.mem_singleton] at hm
      rcases hm with hm | hm
      · exact hlk d n r h hm
      · cases hm
    · intro n ok hm
      simp only [Run.release, List.mem_append, List.mem_singleton] at hm
      rcases hm with hm | hm
      · exact hml n ok hm
      · cases hm
    · intro i h hm
      simp only [Run.release, List.mem_append, List.mem_singleton] at hm
      rcases hm with hm | hm
      · exact hrl i h hm
      · cases hm; exact c3
  · cases h
    refine ⟨by simp only; omega, ?_, hlk, hml, ?_⟩
    · simp only
      rw [hout]
      simp only [owned]
      rw [owned_range_empty _ _ _ (by omega), owned_range_empty _ _ _ (by omega)]
    · intro i h hm
      have := hrl i h hm
      simp only; omega
  · cases h; exact ⟨hbt, hout, hlk, hml, hrl⟩
  · cases h; exact ⟨hbt, hout, hlk, hml, hrl⟩
  · -- successful lookup
    cases h
    have hr : (E.lookup x.run.w (x.traverse x.traverse_recursion).inode (List.take n seg)).2.1
        = RESULT_OK := by simpa using c7
    refine ⟨by simp only; omega, ?_, ?_, ?_, ?_⟩
    · simp only
      rw [outstanding_append, hout, Option.some_bind, outstanding_pair]
      simp only [owned]
      rw [owned_range_push _ _ _ _ hbt, coe_snoc]
      simp [account, hr]
    · intro d n r h hm
      simp only [List.mem_append, List.mem_cons, List.mem_singleton] at hm
      rcases hm with hm | hm | hm
      · exact hlk d n r h hm
      · cases hm; exact hr
      · simp at hm
    · intro n ok hm
      simp only [List.mem_append, List.mem_cons, List.mem_singleton] at hm
      rcases hm with hm | hm | hm
      · exact hml n ok hm
      · cases hm
      · simp at hm
        cases hm.2
        simpa using c6
    · intro i h hm
      simp only [List.mem_append, List.mem_cons, List.mem_singleton] at hm
      rcases hm with hm | hm | hm
      · exact hrl i h hm
      · cases hm
      · simp at hm

theorem segment_fail_inv {σ : Type} (E : Env σ) (seg : List Char) (n : Nat) (x x1 : Rec σ)
    (r : result_t) (hP : TraverseInv x) (h : trn_fs_traverse_segment E seg n x = Step.fail r x1) :
    FailInv r x1 := by
  unfold trn_fs_traverse_segment at h
  simp only at h
  split_ifs at h with c1 c2 c3 c4 c5 c6 c7
  · cases h
    exact ⟨by decide, Or.inl ⟨rfl, hP⟩⟩
  · cases h
    refine ⟨by decide, Or.inr ⟨x, _, _, _, _, _, hP, rfl, rfl, ?_, rfl, Or.inl ⟨c6, rfl⟩⟩⟩
    intro i hi
    simp only
    rw [Function.update_noteq]
    omega
  · cases h
    refine ⟨c7, Or.inr ⟨x, _, _, _, _, _, hP, rfl, rfl, ?_, rfl, Or.inr ⟨by simpa using c6, c7, rfl⟩⟩⟩
    intro i hi
    simp only
    rw [Function.update_noteq]
    omega

theorem outstanding_release_list (l : List Nat) (f : Nat → Int) (g : Nat → trn_inode_t)
    (extra : Multiset trn_inode_t) :
    outstanding (l.map (fun k => Event.release (f k) (g k)))
      ((l.map g : Multiset trn_inode_t) + extra) = some extra := by
  induction l with
  | nil => simp [outstanding_nil]
  | cons k l ih =>
    rw [List.map_cons, List.map_cons, outstanding_cons]
    have : ((g k :: l.map g : List trn_inode_t) : Multiset trn_inode_t) + extra
        = g k ::ₘ ((l.map g : Multiset trn_inode_t) + extra) := by
      rw [← Multiset.cons_coe, Multiset.cons_add]
    rw [this]
    simp only [account, Multiset.mem_cons_self, if_true, Multiset.erase_cons_head, Option.some_bind]
    exact ih

theorem outstanding_release_events (arr : Int → trn_traverse_t) (lo hi : Int)
    (extra : Multiset trn_inode_t) :
    outstanding (release_events arr lo hi)
      ((owned_range arr lo hi : Multiset trn_inode_t) + extra) = some extra := by
  unfold release_events owned_range
  exact outstanding_release_list _ (fun k => lo + 1 + (k : Int))
    (fun k => (arr (lo + 1 + (k : Int))).inode) extra

theorem mem_release_events (arr : Int → trn_traverse_t) (lo hi i : Int) (h : trn_inode_t) :
    Event.release i h ∈ release_events arr lo hi ↔ (lo < i ∧ i ≤ hi ∧ h = (arr i).inode) := by
  unfold release_events
  simp only [List.mem_map, List.mem_range, Event.release.injEq]
  constructor
  · rintro ⟨k, hk, rfl, rfl⟩
    exact ⟨by omega, by omega, rfl⟩
  · rintro ⟨h1, h2, rfl⟩
    exact ⟨(i - lo - 1).toNat, by omega, by omega, by congr 2; omega⟩

theorem release_events_only (arr : Int → trn_traverse_t) (lo hi : Int) (e : Event)
    (h : e ∈ release_events arr lo hi) : ∃ i inode, e = Event.release i inode := by
  unfold release_events at h
  simp only [List.mem_map] at h
  obtain ⟨k, _, rfl⟩ := h
  exact ⟨_, _, rfl⟩

/-- A property of the record kept by every segment is kept by one pass of the loop. -/
theorem body_inv {σ : Type} (E : Env σ) (P : Rec σ → Prop) (Q : result_t → Rec σ → Prop)
    (hc : ∀ seg n x x1, P x → trn_fs_traverse_segment E seg n x = Step.cont x1 → P x1)
    (hf : ∀ seg n x r x1, P x → trn_fs_traverse_segment E seg n x = Step.fail r x1 → Q r x1)
    (s : LoopState σ) (h : P s.x) : (trn_fs_traverse_body E s).sat P Q := by
  unfold trn_fs_traverse_body
  split
  · exact h
  · simp only
    split
    · exact h
    · split
      · rename_i x1 hx
        exact hc _ _ _ _ h hx
      · rename_i r x1 hx
        exact hf _ _ _ _ _ h hx

theorem loop_inv {σ : Type} (E : Env σ) (P : Rec σ → Prop) (Q : result_t → Rec σ → Prop)
    (hc : ∀ seg n x x1, P x → trn_fs_traverse_segment E seg n x = Step.cont x1 → P x1)
    (hf : ∀ seg n x r x1, P x → trn_fs_traverse_segment E seg n x = Step.fail r x1 → Q r x1)
    (fuel : Nat) (s : LoopState σ) (e : Step σ) (h : P s.x)
    (he : trn_fs_traverse_loop E fuel s = some e) : e.sat P Q := by
  induction fuel generalizing s with
  | zero => simp [trn_fs_traverse_loop] at he
  | succ fuel ih =>
    unfold trn_fs_traverse_loop at he
    have hb := body_inv E P Q hc hf s h
    cases hbody : trn_fs_traverse_body E s with
    | next s1 =>
      rw [hbody] at he hb
      exact ih s1 hb he
    | done x =>
      rw [hbody] at he hb
      cases he
      exact hb
    | fail r x =>
      rw [hbody] at he hb
      cases he
      exact hb

theorem reach_inv {σ : Type} (E : Env σ) (P : Rec σ → Prop)
    (hc : ∀ seg n x x1, P x → trn_fs_traverse_segment E seg n x = Step.cont x1 → P x1)
    (s0 s : LoopState σ) (hr : Reach E s0 s) (h : P s0.x) : P s.x := by
  induction hr with
  | start => exact h
  | pass s s1 _ hb ih =>
    have := body_inv E P (fun _ _ => True) hc (fun _ _ _ _ _ _ _ => trivial) s ih
    rw [hb] at this
    exact this

theorem start_inv {σ : Type} (G : Globals) (w : σ) (path : List Char) (max_len : Nat) :
    TraverseInv (traverse_start G w path max_len).x := by
  refine ⟨le_refl _, ?_, ?_, ?_, ?_⟩
  · simp only [traverse_start, owned]
    rw [owned_range_empty _ _ _ (le_refl _)]
    rfl
  · intro d n r h hm; simp [traverse_start] at hm
  · intro n ok hm; simp [traverse_start] at hm
  · intro i h hm; simp [traverse_start] at hm

/-- The record handed back by a traversal: after success the loop invariant
holds, after a failure the record is the one at `goto fail` with the
release calls of the `fail:` loop appended. -/
theorem traverse_spec {σ : Type} (E : Env σ) (G : Globals) (w : σ) (path : List Char)
    (max_len : Nat) (o : Out σ) (h : trn_fs_traverse E G w path max_len = some o) :
    (o.r = RESULT_OK ∧ TraverseInv o.x) ∨
    (∃ x : Rec σ, FailInv o.r x ∧ o.x.traverse = x.traverse ∧
      o.x.borrowed_recursion = x.borrowed_recursion ∧
      o.x.traverse_recursion = x.traverse_recursion ∧
      o.x.run.trace = x.run.trace ++
        release_events x.traverse x.borrowed_recursion x.traverse_recursion) := by
  unfold trn_fs_traverse at h
  cases hl : trn_fs_traverse_loop E (path.length + 1) (traverse_start G w path max_len) with
  | none => rw [hl] at h; cases h
  | some e =>
    rw [hl] at h
    simp only [Option.map_some'] at h
    cases h
    have := loop_inv E TraverseInv FailInv (segment_cont_inv E) (fun seg n x r x1 => segment_fail_inv E seg n x x1 r) _ _ e
      (start_inv G w path max_len) hl
    cases e with
    | cont x => exact Or.inl ⟨rfl, this⟩
    | fail r x =>
      exact Or.inr ⟨x, this, rfl, rfl, rfl, release_range_trace E _ _ _ _⟩

theorem outstanding_sound (l : List Event) (o o1 : Multiset trn_inode_t)
    (h : outstanding l o = some o1) :
    (∀ i a, Event.release i a ∈ l → a ∈ o ∨ ∃ d n, Event.lookup d n RESULT_OK a ∈ l) ∧
    (∀ a, a ∈ o1 → a ∈ o ∨ ∃ d n, Event.lookup d n RESULT_OK a ∈ l) := by
  induction l generalizing o with
  | nil =>
    rw [outstanding_nil] at h
    cases h
    exact ⟨fun i a hm => (by cases hm), fun a ha => Or.inl ha⟩
  | cons e l ih =>
    rw [outstanding_cons] at h
    cases hacc : account o e with
    | none => rw [hacc] at h; cases h
    | some o2 =>
      rw [hacc, Option.some_bind] at h
      obtain ⟨ih1, ih2⟩ := ih o2 h
      -- what the handles of `o2` are
      have ho2 : ∀ a, a ∈ o2 → a ∈ o ∨ ∃ d n, e = Event.lookup d n RESULT_OK a := by
        intro a ha
        cases e with
        | lookup d n r out =>
          simp only [account, Option.some.injEq] at hacc
          subst hacc
          by_cases hr : r = RESULT_OK
          · subst hr
            simp only [if_true, Multiset.mem_cons] at ha
            rcases ha with rfl | ha
            · exact Or.inr ⟨d, n, rfl⟩
            · exact Or.inl ha
          · simp only [hr, if_false] at ha
            exact Or.inl ha
        | release i b =>
          simp only [account] at hacc
          split_ifs at hacc
          cases hacc
          exact Or.inl (Multiset.mem_of_mem_erase ha)
        | malloc _ _ => simp only [account, Option.some.injEq] at hacc; subst hacc; exact Or.inl ha
        | create_file _ _ _ =>
          simp only [account, Option.some.injEq] at hacc; subst hacc; exact Or.inl ha
        | open_as_file _ _ _ =>
          simp only [account, Option.some.injEq] at hacc; subst hacc; exact Or.inl ha
        | open_as_dir _ _ =>
          simp only [account, Option.some.injEq] at hacc; subst hacc; exact Or.inl ha
        | is_dir _ _ _ =>
          simp only [account, Option.some.injEq] at hacc; subst hacc; exact Or.inl ha
        | mount_fs _ _ _ _ =>
          simp only [account, Option.some.injEq] at hacc; subst hacc; exact Or.inl ha
      have lift : ∀ a, (a ∈ o2 ∨ ∃ d n, Event.lookup d n RESULT_OK a ∈ l) →
          a ∈ o ∨ ∃ d n, Event.lookup d n RESULT_OK a ∈ e :: l := by
        intro a ha
        rcases ha with ha | ⟨d, n, hm⟩
        · rcases ho2 a ha with h1 | ⟨d, n, rfl⟩
          · exact Or.inl h1
          · exact Or.inr ⟨d, n, List.mem_cons_self _ _⟩
        · exact Or.inr ⟨d, n, List.mem_cons_of_mem _ hm⟩
      constructor
      · intro i a hm
        rcases List.mem_cons.1 hm with rfl | hm
        · simp only [account] at hacc
          split_ifs at hacc with hin
          exact Or.inl hin
        · exact lift a (ih1 i a hm)
      · intro a ha
        exact lift a (ih2 a ha)

theorem segment_events {σ : Type} (E : Env σ) (seg : List Char) (n : Nat) (x : Rec σ) :
    ∃ evs, (trn_fs_traverse_segment E seg n x).record.run.trace = x.run.trace ++ evs ∧
      ∀ i h, Event.release i h ∈ evs →
        x.borrowed_recursion < i ∧ i ≤ x.traverse_recursion := by
  unfold trn_fs_traverse_segment
  simp only
  split_ifs with c1 c2 c3 c4 c5 c6 c7
  · refine ⟨[Event.release x.traverse_recursion (x.traverse x.traverse_recursion).inode], rfl, ?_⟩
    intro i h hm
    simp only [List.mem_singleton, Event.release.injEq] at hm
    obtain ⟨rfl, _⟩ := hm
    exact ⟨c3, le_refl _⟩
  · exact ⟨[], by simp [Step.record], fun i h hm => by cases hm⟩
  · exact ⟨[], by simp [Step.record], fun i h hm => by cases hm⟩
  · exact ⟨[], by simp [Step.record], fun i h hm => by cases hm⟩
  · exact ⟨[], by simp [Step.record], fun i h hm => by cases hm⟩
  · exact ⟨_, rfl, fun i h hm => by simp at hm⟩
  · exact ⟨_, rfl, fun i h hm => by simp at hm⟩
  · exact ⟨_, rfl, fun i h hm => by simp at hm⟩

theorem pass_events_release {σ : Type} (E : Env σ) (s : LoopState σ) (i : Int)
    (h : trn_inode_t) (hm : Event.release i h ∈ pass_events E s) :
    s.x.borrowed_recursion < i ∧ i ≤ s.x.traverse_recursion := by
  unfold pass_events trn_fs_traverse_body at hm
  split at hm
  · simp [Iter.record] at hm
  · simp only at hm
    split at hm
    · simp [Iter.record] at hm
    · obtain ⟨evs, he, hr⟩ := segment_events E (trim_slashes s.max_len s.segment).2
        (scan_segment (trim_slashes s.max_len s.segment).1 (trim_slashes s.max_len s.segment).2 0).2 s.x
      split at hm
      · rename_i x1 hx
        rw [hx] at he
        simp only [Step.record] at he
        simp only [Iter.record, he, List.drop_left] at hm
        exact hr i h hm
      · rename_i r x1 hx
        rw [hx] at he
        simp only [Step.record] at he
        simp only [Iter.record, he, List.drop_left] at hm
        exact hr i h hm

theorem segment_Inv {σ : Type} (E : Env σ) (seg : List Char) (n : Nat) (x : Rec σ)
    (h : Inv x) : Inv (trn_fs_traverse_segment E seg n x).record := by
  obtain ⟨h0, h1, h2⟩ := h
  unfold trn_fs_traverse_segment
  simp only
  unfold MAX_RECURSION at *
  split_ifs with c1 c2 c3 c4 c5 c6 c7 <;> simp only [Step.record, Inv, MAX_RECURSION] <;>
    refine ⟨?_, ?_, ?_⟩ <;> omega

theorem start_Inv {σ : Type} (G : Globals) (w : σ) (path : List Char) (max_len : Nat)
    (h0 : 0 ≤ G.cwd_recursion) (h1 : G.cwd_recursion ≤ MAX_RECURSION - 1) :
    Inv (traverse_start G w path max_len).x := by
  unfold MAX_RECURSION at h1
  simp only [traverse_start, Inv, MAX_RECURSION]
  split_ifs <;> refine ⟨?_, ?_, ?_⟩ <;> omega

theorem outstanding_lookup_malloc (d : trn_inode_t) (name : List Char) (rl : result_t)
    (a : trn_inode_t) (n : Nat) (ok : Bool) (o : Multiset trn_inode_t) :
    outstanding [Event.lookup d name rl a, Event.malloc n ok] o
      = some (o + (if rl = RESULT_OK then {a} else 0)) := by
  rw [outstanding_pair]
  by_cases hr : rl = RESULT_OK
  · simp only [account, hr, if_true, Option.some_bind]
    rw [← Multiset.singleton_add, add_comm]
  · simp [account, hr]

/-- The bookkeeping of a whole traversal: every release is applied to an index
above `borrowed_recursion`; no release is applied to a handle that is not held;
after success the handles held are the owned entries; after a failure none is
held, except the one a successful lookup returned just before the allocation
of its name failed. -/
theorem traverse_accounts {σ : Type} (E : Env σ) (G : Globals) (w : σ) (path : List Char)
    (max_len : Nat) (o : Out σ) (h : trn_fs_traverse E G w path max_len = some o) :
    (∀ i a, Event.release i a ∈ o.x.run.trace → o.x.borrowed_recursion < i) ∧
    o.x.borrowed_recursion ≤ o.x.traverse_recursion ∧
    ∃ held, outstanding o.x.run.trace 0 = some held ∧
      (o.r = RESULT_OK → held = (owned o.x : Multiset trn_inode_t)) ∧
      (o.r ≠ RESULT_OK → held = 0 ∨
        (o.r = LIBTRANSISTOR_ERR_OUT_OF_MEMORY ∧
          (∀ d n r a, Event.lookup d n r a ∈ o.x.run.trace → r = RESULT_OK) ∧
          ∃ n, Event.malloc n false ∈ o.x.run.trace)) := by
  rcases traverse_spec E G w path max_len o h with ⟨hr, hbt, hout, _, _, hrl⟩ |
    ⟨x, ⟨hne, hx⟩, ht, hb, htr, htrace⟩
  · exact ⟨hrl, hbt, _, hout, fun _ => rfl, fun hn => absurd hr hn⟩
  · rcases hx with ⟨hr, hbt, hout, hlk, hml, hrl⟩ |
      ⟨x0, name, rl, a, n, ok, ⟨hbt, hout, hlk, hml, hrl⟩, hb0, ht0, htrav, htr0, hcase⟩
    · refine ⟨?_, by omega, 0, ?_, fun h0 => absurd h0 hne, fun _ => Or.inl rfl⟩
      · intro i a hm
        rw [htrace, List.mem_append] at hm
        rcases hm with hm | hm
        · rw [hb]; exact hrl i a hm
        · rw [hb]; exact ((mem_release_events _ _ _ _ _).1 hm).1
      · rw [htrace, outstanding_append, hout, Option.some_bind]
        have := outstanding_release_events x.traverse x.borrowed_recursion x.traverse_recursion 0
        rw [add_zero] at this
        exact this
    · have hown : owned_range x.traverse x.borrowed_recursion x.traverse_recursion = owned x0 := by
        rw [hb0, ht0]
        exact owned_range_congr _ _ _ _ (fun i _ hi => htrav i hi)
      refine ⟨?_, by omega, (if rl = RESULT_OK then {a} else 0), ?_, fun h0 => absurd h0 hne, ?_⟩
      · intro i b hm
        rw [htrace, List.mem_append] at hm
        rcases hm with hm | hm
        · rw [htr0] at hm
          simp only [List.mem_append, List.mem_cons, List.mem_singleton] at hm
          rcases hm with hm | hm | hm
          · rw [hb, hb0]; exact hrl i b hm
          · cases hm
          · simp at hm
        · rw [hb]; exact ((mem_release_events _ _ _ _ _).1 hm).1
      · rw [htrace, htr0, outstanding_append, outstanding_append, hout, Option.some_bind,
          outstanding_lookup_malloc, Option.some_bind, ← hown]
        exact outstanding_release_events _ _ _ _
      · intro _
        by_cases hrl0 : rl = RESULT_OK
        · rcases hcase with ⟨hok, hro⟩ | ⟨_, hne2, _⟩
          · right
            refine ⟨hro, ?_, n, ?_⟩
            · intro d m r b hm
              rw [htrace, htr0] at hm
              simp only [List.mem_append, List.mem_cons, List.mem_singleton] at hm
              rcases hm with (hm | hm | hm) | hm
              · exact hlk d m r b hm
              · cases hm; exact hrl0
              · simp at hm
              · obtain ⟨_, _, he⟩ := release_events_only _ _ _ _ hm
                cases he
            · rw [htrace, htr0, hok]
              simp
          · exact absurd hrl0 hne2
        · left; simp [hrl0]

/-- Where the error of a failed traversal comes from: the error of a failing
lookup is the one returned unless the allocation of the name failed, and
when no lookup and no allocation failed the error is PATH_TOO_DEEP. -/
theorem traverse_error {σ : Type} (E : Env σ) (G : Globals) (w : σ) (path : List Char)
    (max_len : Nat) (o : Out σ) (h : trn_fs_traverse E G w path max_len = some o) :
    (∀ d n rl a, Event.lookup d n rl a ∈ o.x.run.trace → rl ≠ RESULT_OK →
      (∀ k, Event.malloc k false ∉ o.x.run.trace) → o.r = rl) ∧
    (o.r ≠ RESULT_OK → (∀ d n rl a, Event.lookup d n rl a ∈ o.x.run.trace → rl = RESULT_OK) →
      (∀ k, Event.malloc k false ∉ o.x.run.trace) → o.r = LIBTRANSISTOR_ERR_FS_PATH_TOO_DEEP) := by
  rcases traverse_spec E G w path max_len o h with ⟨hr, hbt, hout, hlk, _, hrl⟩ |
    ⟨x, ⟨hne, hx⟩, ht, hb, htr, htrace⟩
  · exact ⟨fun d n rl a hm hn _ => absurd (hlk d n rl a hm) hn, fun hn => absurd hr hn⟩
  · rcases hx with ⟨hr, hbt, hout, hlk, hml, hrl⟩ |
      ⟨x0, name, rl, a, n, ok, ⟨hbt, hout, hlk, hml, hrl⟩, hb0, ht0, htrav, htr0, hcase⟩
    · refine ⟨?_, fun _ _ _ => hr⟩
      intro d n rl a hm hn _
      rw [htrace, List.mem_append] at hm
      rcases hm with hm | hm
      · exact absurd (hlk d n rl a hm) hn
      · obtain ⟨_, _, he⟩ := release_events_only _ _ _ _ hm
        cases he
    · have hmem : Event.malloc n ok ∈ o.x.run.trace := by
        rw [htrace, htr0]; simp
      have hmemL : Event.lookup (x0.traverse x0.traverse_recursion).inode name rl a
          ∈ o.x.run.trace := by
        rw [htrace, htr0]; simp
      constructor
      · intro d m r b hm hn hno
        rw [htrace, htr0] at hm
        simp only [List.mem_append, List.mem_cons, List.mem_singleton] at hm
        rcases hm with (hm | hm | hm) | hm
        · exact absurd (hlk d m r b hm) hn
        · cases hm
          rcases hcase with ⟨hok, _⟩ | ⟨_, _, hro⟩
          · subst hok; exact absurd hmem (hno n)
          · exact hro
        · simp at hm
        · obtain ⟨_, _, he⟩ := release_events_only _ _ _ _ hm
          cases he
      · intro _ hall hno
        rcases hcase with ⟨hok, _⟩ | ⟨_, hne2, _⟩
        · subst hok; exact absurd hmem (hno n)
        · exact absurd (hall _ _ _ _ hmemL) hne2

theorem account_count (o o1 : Multiset trn_inode_t) (e : Event) (h : account o e = some o1) :
    Multiset.card o + (if e.is_lookup_ok then 1 else 0)
      = Multiset.card o1 + (if e.is_release then 1 else 0) := by
  cases e with
  | lookup d n r a =>
    simp only [account, Option.some.injEq] at h
    subst h
    by_cases hr : r = RESULT_OK <;> simp [Event.is_lookup_ok, Event.is_release, hr]
  | release i a =>
    simp only [account] at h
    split_ifs at h with hin
    cases h
    simp [Event.is_lookup_ok, Event.is_release, Multiset.card_erase_of_mem hin]
    have := Multiset.card_pos_iff_exists_mem.2 ⟨a, hin⟩
    omega
  | malloc _ _ => simp only [account, Option.some.injEq] at h; subst h; rfl
  | create_file _ _ _ => simp only [account, Option.some.injEq] at h; subst h; rfl
  | open_as_file _ _ _ => simp only [account, Option.some.injEq] at h; subst h; rfl
  | open_as_dir _ _ => simp only [account, Option.some.injEq] at h; subst h; rfl
  | is_dir _ _ _ => simp only [account, Option.some.injEq] at h; subst h; rfl
  | mount_fs _ _ _ _ => simp only [account, Option.some.injEq] at h; subst h; rfl

/-- Counting: the handles held at the start plus the successful lookups are the
handles held at the end plus the releases. -/
theorem outstanding_count (l : List Event) (o o1 : Multiset trn_inode_t)
    (h : outstanding l o = some o1) :
    Multiset.card o + l.countP Event.is_lookup_ok
      = Multiset.card o1 + l.countP Event.is_release := by
  induction l generalizing o with
  | nil => rw [outstanding_nil] at h; cases h; rfl
  | cons e l ih =>
    rw [outstanding_cons] at h
    cases hacc : account o e with
    | none => rw [hacc] at h; cases h
    | some o2 =>
      rw [hacc, Option.some_bind] at h
      have h1 := ih o2 h
      have h2 := account_count o o2 e hacc
      rw [List.countP_cons, List.countP_cons]
      omega

theorem trim_unbounded (m : Nat) (p : List Char) (h : p.length < m) :
    (trim_slashes m p).2 = p.dropWhile (fun c => decide (c = '/')) ∧
      (trim_slashes m p).2.length < (trim_slashes m p).1 := by
  induction p generalizing m with
  | nil => cases m <;> simp [trim_slashes] at h ⊢
  | cons c rest ih =>
    cases m with
    | zero => simp at h
    | succ m =>
      simp only [List.length_cons, Nat.add_lt_add_iff_right] at h
      simp only [trim_slashes]
      by_cases hc : c = '/'
      · simp only [hc, if_true, List.dropWhile_cons, decide_True]
        exact ih m h
      · simp only [hc, if_false, List.dropWhile_cons, decide_False]
        simp; omega

theorem scan_unbounded (m : Nat) (q : List Char) (k : Nat) (h : q.length < m) :
    (scan_segment m q k).2 = k + (q.takeWhile (fun c => decide (c ≠ '/'))).length ∧
      (q.dropWhile (fun c => decide (c ≠ '/'))).length < (scan_segment m q k).1 := by
  induction q generalizing m k with
  | nil => cases m <;> simp [scan_segment] at h ⊢
  | cons c rest ih =>
    cases m with
    | zero => simp at h
    | succ m =>
      simp only [List.length_cons, Nat.add_lt_add_iff_right] at h
      simp only [scan_segment]
      by_cases hc : c = '/'
      · simp [hc]; omega
      · simp only [ne_eq, hc, not_false_eq_true, if_true, List.takeWhile_cons, decide_True,
          List.dropWhile_cons, List.length_cons]
        obtain ⟨h1, h2⟩ := ih m (k + 1) h
        exact ⟨by simp only [ne_eq] at h1; omega, h2⟩

theorem dropWhile_slash_head (p : List Char) (c : Char) (rest : List Char)
    (h : p.dropWhile (fun c => decide (c = '/')) = c :: rest) : c ≠ '/' := by
  induction p with
  | nil => simp at h
  | cons a p ih =>
    by_cases ha : a = '/'
    · simp only [List.dropWhile_cons, ha, decide_True, if_true] at h
      exact ih h
    · simp only [List.dropWhile_cons, ha, decide_False] at h
      simp at h
      rw [← h.1]; exact ha

theorem segments_aux_trim (p : List Char) :
    segments_aux p [] = segments_aux (p.dropWhile (fun c => decide (c = '/'))) [] := by
  induction p with
  | nil => rfl
  | cons c rest ih =>
    by_cases hc : c = '/'
    · simp only [List.dropWhile_cons, hc, decide_True, if_true, segments_aux]
      exact ih
    · simp [List.dropWhile_cons, hc]

theorem segments_aux_scan (q cur : List Char) :
    segments_aux q cur = segments_aux (q.dropWhile (fun c => decide (c ≠ '/')))
      (cur ++ q.takeWhile (fun c => decide (c ≠ '/'))) := by
  induction q generalizing cur with
  | nil => simp
  | cons c rest ih =>
    by_cases hc : c = '/'
    · simp [hc]
    · simp only [segments_aux, hc, if_false, List.dropWhile_cons, List.takeWhile_cons, ne_eq,
        not_false_eq_true, decide_True, if_true]
      rw [ih]
      simp

theorem segments_aux_flush (q cur : List Char) (h : cur ≠ []) :
    segments_aux (q.dropWhile (fun c => decide (c ≠ '/'))) cur
      = cur :: segments_aux (q.dropWhile (fun c => decide (c ≠ '/'))) [] := by
  induction q with
  | nil => simp [segments_aux, h]
  | cons c rest ih =>
    by_cases hc : c = '/'
    · simp [hc, segments_aux, h]
    · simp only [List.dropWhile_cons, ne_eq, hc, not_false_eq_true, decide_True, if_true]
      exact ih

/-- The segments of a path, one at a time: skip the slashes in front, take the
bytes up to the next slash, go on with the rest. -/
theorem segments_of_unfold (p : List Char) :
    segments_of p =
      if (p.dropWhile (fun c => decide (c = '/'))).takeWhile (fun c => decide (c ≠ '/')) = [] then []
      else (p.dropWhile (fun c => decide (c = '/'))).takeWhile (fun c => decide (c ≠ '/')) ::
        segments_of ((p.dropWhile (fun c => decide (c = '/'))).dropWhile
          (fun c => decide (c ≠ '/'))) := by
  unfold segments_of
  rw [segments_aux_trim p, segments_aux_scan _ []]
  simp only [List.nil_append]
  split_ifs with ht
  · -- no segment: nothing but slashes
    have hq : p.dropWhile (fun c => decide (c = '/')) = [] := by
      cases hq : p.dropWhile (fun c => decide (c = '/')) with
      | nil => rfl
      | cons c rest =>
        have hc := dropWhile_slash_head p c rest hq
        rw [hq] at ht
        simp [hc] at ht
    rw [hq]; rfl
  · exact segments_aux_flush _ _ ht

theorem take_takeWhile_length (q : List Char) (f : Char → Bool) :
    q.take (q.takeWhile f).length = q.takeWhile f := by
  have h := List.take_left (q.takeWhile f) (q.dropWhile f)
  rwa [List.takeWhile_append_dropWhile] at h

theorem drop_takeWhile_length (q : List Char) (f : Char → Bool) :
    q.drop (q.takeWhile f).length = q.dropWhile f := by
  have h := List.drop_left (q.takeWhile f) (q.dropWhile f)
  rwa [List.takeWhile_append_dropWhile] at h

/-- The treatment of a segment reads only its `seglen` first bytes. -/
theorem segment_take {σ : Type} (E : Env σ) (seg : List Char) (n : Nat) (x : Rec σ) :
    trn_fs_traverse_segment E seg n x = trn_fs_traverse_segment E (seg.take n) n x := by
  unfold trn_fs_traverse_segment strncmp
  simp only [List.take_take, min_self]

theorem run_segments_cons {σ : Type} (E : Env σ) (seg : List Char) (rest : List (List Char))
    (x : Rec σ) :
    run_segments E (seg :: rest) x =
      match trn_fs_traverse_segment E seg seg.length x with
      | Step.cont x1 => run_segments E rest x1
      | Step.fail r x1 => Step.fail r x1 := rfl

/-- With `max_len` larger than what is left of the path, the loop treats the
segments of the path one after the other. -/
theorem loop_unbounded {σ : Type} (E : Env σ) (fuel : Nat) (s : LoopState σ)
    (hm : s.segment.length < s.max_len) (hf : s.segment.length < fuel) :
    trn_fs_traverse_loop E fuel s = some (run_segments E (segments_of s.segment) s.x) := by
  induction fuel generalizing s with
  | zero => omega
  | succ fuel ih =>
    obtain ⟨segment, max_len, x⟩ := s
    simp only at hm hf
    unfold trn_fs_traverse_loop trn_fs_traverse_body
    simp only
    cases segment with
    | nil => rfl
    | cons c rest =>
      simp only
      obtain ⟨ha2, ha1⟩ := trim_unbounded max_len (c :: rest) hm
      have hqlen := trim_slashes_length max_len (c :: rest)
      generalize trim_slashes max_len (c :: rest) = a at ha2 ha1 hqlen
      obtain ⟨a1, q⟩ := a
      simp only at ha2 ha1 hqlen
      obtain ⟨hb2, hb1⟩ := scan_unbounded a1 q 0 ha1
      generalize scan_segment a1 q 0 = b at hb2 hb1
      obtain ⟨b1, n⟩ := b
      simp only [Nat.zero_add] at hb2 hb1
      rw [segments_of_unfold (c :: rest), ← ha2]
      have hb1' : b1 ≠ 0 := by omega
      by_cases hn : n = 0
      · have : q.takeWhile (fun c => decide (c ≠ '/')) = [] := by
          rw [hn] at hb2
          exact List.length_eq_zero.1 hb2.symm
        simp only [hn, or_true, if_true]
        rw [if_pos this]
        rfl
      · have hne : q.takeWhile (fun c => decide (c ≠ '/')) ≠ [] := by
          intro h0
          rw [h0] at hb2
          exact hn hb2
        simp only [hb1', hn, or_self, if_false, hne]
        rw [run_segments_cons, segment_take E q n x, hb2, take_takeWhile_length,
          drop_takeWhile_length]
        cases hseg : trn_fs_traverse_segment E (q.takeWhile (fun c => decide (c ≠ '/')))
            (q.takeWhile (fun c => decide (c ≠ '/'))).length x with
        | cont x1 =>
          simp only
          have hlen := congrArg List.length
            (List.takeWhile_append_dropWhile (fun c => decide (c ≠ '/')) q)
          rw [List.length_append] at hlen
          exact ih ⟨q.dropWhile (fun c => decide (c ≠ '/')), b1, x1⟩ hb1
            (by simp only [List.length_cons] at hqlen hf ⊢; omega)
        | fail r x1 => rfl

/-- An unbounded traversal treats the segments of the path one after the other
from the starting record, then leaves `trn_fs_traverse` by one of its exits. -/
theorem traverse_unbounded {σ : Type} (E : Env σ) (G : Globals) (w : σ) (path : List Char)
    (max_len : Nat) (h : path.length < max_len) :
    trn_fs_traverse E G w path max_len
      = some (traverse_exit E
          (run_segments E (segments_of path) (traverse_start G w path max_len).x)) := by
  unfold trn_fs_traverse
  rw [loop_unbounded E _ _ (by simpa [traverse_start] using h) (by simp [traverse_start])]
  rfl

theorem intercalate_cons_cons (sep x y : List Char) (l : List (List Char)) :
    List.intercalate sep (x :: y :: l) = x ++ sep ++ List.intercalate sep (y :: l) := by
  simp [List.intercalate, List.intersperse]

theorem intercalate_single (sep x : List Char) : List.intercalate sep [x] = x := by
  simp [List.intercalate, List.intersperse]

theorem segments_aux_token (tok rest cur : List Char) (h : '/' ∉ tok) :
    segments_aux (tok ++ rest) cur = segments_aux rest (cur ++ tok) := by
  induction tok generalizing cur with
  | nil => simp
  | cons c tok ih =>
    have hc : c ≠ '/' := fun e => h (by simp [e])
    have ht : '/' ∉ tok := fun e => h (List.mem_cons_of_mem _ e)
    rw [List.cons_append]
    simp only [segments_aux, hc, if_false]
    rw [ih _ ht]
    simp

theorem segments_of_intercalate (segs : List (List Char))
    (h : ∀ s ∈ segs, s ≠ [] ∧ '/' ∉ s) :
    segments_of (List.intercalate ['/'] segs) = segs := by
  unfold segments_of
  induction segs with
  | nil => rfl
  | cons x l ih =>
    obtain ⟨hx1, hx2⟩ := h x (List.mem_cons_self _ _)
    cases l with
    | nil =>
      rw [intercalate_single]
      have := segments_aux_token x [] [] hx2
      rw [List.append_nil] at this
      rw [this]
      simp [segments_aux, hx1]
    | cons y l =>
      rw [intercalate_cons_cons, List.append_assoc, segments_aux_token _ _ _ hx2]
      rw [List.nil_append, List.singleton_append]
      simp only [segments_aux, if_true, hx1, if_false]
      rw [ih (fun s hs => h s (List.mem_cons_of_mem _ hs))]

theorem intercalate_head (segs : List (List Char)) (h : ∀ s ∈ segs, s ≠ [] ∧ '/' ∉ s) :
    (List.intercalate ['/'] segs).head? ≠ some '/' := by
  cases segs with
  | nil => simp [List.intercalate]
  | cons x l =>
    obtain ⟨hx1, hx2⟩ := h x (List.mem_cons_self _ _)
    cases x with
    | nil => exact absurd rfl hx1
    | cons c x =>
      have hc : c ≠ '/' := fun e => hx2 (by simp [e])
      cases l with
      | nil => rw [intercalate_single]; simpa using hc
      | cons y l => rw [intercalate_cons_cons]; simpa using hc

theorem segments_of_path_of (absolute : Bool) (segs : List (List Char))
    (h : ∀ s ∈ segs, s ≠ [] ∧ '/' ∉ s) : segments_of (path_of absolute segs) = segs := by
  cases absolute with
  | false => simpa [path_of] using segments_of_intercalate segs h
  | true =>
    have := segments_of_intercalate segs h
    simp only [path_of, if_true, List.singleton_append]
    unfold segments_of at this ⊢
    simpa [segments_aux] using this

theorem path_of_head (absolute : Bool) (segs : List (List Char))
    (h : ∀ s ∈ segs, s ≠ [] ∧ '/' ∉ s) :
    ((path_of absolute segs).head? = some '/') ↔ absolute = true := by
  cases absolute with
  | false => simpa [path_of] using intercalate_head segs h
  | true => simp [path_of]

theorem segment_dotdot {σ : Type} (E : Env σ) (x : Rec σ)
    (h : x.traverse_recursion ≤ x.borrowed_recursion) :
    trn_fs_traverse_segment E ['.', '.'] 2 x =
      Step.cont (if x.traverse_recursion > 0 then
        { x with borrowed_recursion := x.borrowed_recursion - 1,
                 traverse_recursion := x.traverse_recursion - 1 } else x) := by
  unfold trn_fs_traverse_segment strncmp
  have hn : ¬ x.traverse_recursion > x.borrowed_recursion := by omega
  by_cases ht : x.traverse_recursion > 0 <;> simp [ht, hn]

theorem run_dotdot {σ : Type} (E : Env σ) (k : Nat) (x : Rec σ)
    (hb : x.borrowed_recursion = x.traverse_recursion) (h0 : 0 ≤ x.traverse_recursion) :
    ∃ x1, run_segments E (List.replicate k ['.', '.']) x = Step.cont x1 ∧
      x1.traverse = x.traverse ∧ x1.run = x.run ∧
      x1.traverse_recursion = max (x.traverse_recursion - (k : Int)) 0 ∧
      x1.borrowed_recursion = max (x.traverse_recursion - (k : Int)) 0 := by
  induction k generalizing x with
  | zero =>
    refine ⟨x, rfl, rfl, rfl, ?_, ?_⟩
    · simp; omega
    · rw [hb]; simp; omega
  | succ k ih =>
    rw [List.replicate_succ, run_segments_cons]
    simp only [List.length_cons, List.length_nil]
    rw [segment_dotdot E x (by omega)]
    simp only
    by_cases ht : x.traverse_recursion > 0
    · simp only [ht, if_true]
      obtain ⟨x1, h1, h2, h3, h4, h5⟩ := ih
        { x with borrowed_recursion := x.borrowed_recursion - 1,
                 traverse_recursion := x.traverse_recursion - 1 }
        (by simp only; omega) (by simp only; omega)
      refine ⟨x1, h1, h2, h3, ?_, ?_⟩
      · rw [h4]; simp only [Nat.cast_add, Nat.cast_one]; omega
      · rw [h5]; simp only [Nat.cast_add, Nat.cast_one]; omega
    · simp only [ht, if_false]
      obtain ⟨x1, h1, h2, h3, h4, h5⟩ := ih x hb h0
      refine ⟨x1, h1, h2, h3, ?_, ?_⟩
      · rw [h4]; simp only [Nat.cast_add, Nat.cast_one]; omega
      · rw [h5]; simp only [Nat.cast_add, Nat.cast_one]; omega

/-- The treatment of a named segment: the depth check, then the lookup. -/
theorem segment_named {σ : Type} (E : Env σ) (s : List Char) (x : Rec σ) (hn : named s) :
    trn_fs_traverse_segment E s s.length x =
      if x.traverse_recursion + 1 ≥ MAX_RECURSION then
        Step.fail LIBTRANSISTOR_ERR_FS_PATH_TOO_DEEP x
      else if (E.malloc (E.lookup x.run.w (x.traverse x.traverse_recursion).inode s).1
          (s.length + 1)).2 = false then
        Step.fail LIBTRANSISTOR_ERR_OUT_OF_MEMORY
          { x with
            traverse := Function.update x.traverse (x.traverse_recursion + 1)
              ⟨(E.lookup x.run.w (x.traverse x.traverse_recursion).inode s).2.2, []⟩,
            run := ⟨(E.malloc (E.lookup x.run.w (x.traverse x.traverse_recursion).inode s).1
                (s.length + 1)).1,
              x.run.trace ++ [Event.lookup (x.traverse x.traverse_recursion).inode s
                (E.lookup x.run.w (x.traverse x.traverse_recursion).inode s).2.1
                (E.lookup x.run.w (x.traverse x.traverse_recursion).inode s).2.2,
                Event.malloc (s.length + 1)
                  (E.malloc (E.lookup x.run.w (x.traverse x.traverse_recursion).inode s).1
                    (s.length + 1)).2]⟩ }
      else if (E.lookup x.run.w (x.traverse x.traverse_recursion).inode s).2.1 ≠ RESULT_OK then
        Step.fail (E.lookup x.run.w (x.traverse x.traverse_recursion).inode s).2.1
          { x with
            traverse := Function.update x.traverse (x.traverse_recursion + 1)
              ⟨(E.lookup x.run.w (x.traverse x.traverse_recursion).inode s).2.2, s⟩,
            run := ⟨(E.malloc (E.lookup x.run.w (x.traverse x.traverse_recursion).inode s).1
                (s.length + 1)).1,
              x.run.trace ++ [Event.lookup (x.traverse x.traverse_recursion).inode s
                (E.lookup x.run.w (x.traverse x.traverse_recursion).inode s).2.1
                (E.lookup x.run.w (x.traverse x.traverse_recursion).inode s).2.2,
                Event.malloc (s.length + 1)
                  (E.malloc (E.lookup x.run.w (x.traverse x.traverse_recursion).inode s).1
                    (s.length + 1)).2]⟩ }
      else
        Step.cont
          { x with
            traverse := Function.update x.traverse (x.traverse_recursion + 1)
              ⟨(E.lookup x.run.w (x.traverse x.traverse_recursion).inode s).2.2, s⟩,
            traverse_recursion := x.traverse_recursion + 1,
            run := ⟨(E.malloc (E.lookup x.run.w (x.traverse x.traverse_recursion).inode s).1
                (s.length + 1)).1,
              x.run.trace ++ [Event.lookup (x.traverse x.traverse_recursion).inode s
                (E.lookup x.run.w (x.traverse x.traverse_recursion).inode s).2.1
                (E.lookup x.run.w (x.traverse x.traverse_recursion).inode s).2.2,
                Event.malloc (s.length + 1)
                  (E.malloc (E.lookup x.run.w (x.traverse x.traverse_recursion).inode s).1
                    (s.length + 1)).2]⟩ } := by
  obtain ⟨h1, h2, h3, h4⟩ := hn
  have c1 : ¬ (s.length = 2 ∧ strncmp ['.', '.'] s s.length = 0) := by
    rintro ⟨hl, hs⟩
    unfold strncmp at hs
    rw [List.take_length, hl] at hs
    split_ifs at hs with he
    · exact h4 (by simpa using he.symm)
    · omega
  have c2 : ¬ (s.length = 1 ∧ strncmp ['.'] s s.length = 0) := by
    rintro ⟨hl, hs⟩
    unfold strncmp at hs
    rw [List.take_length, hl] at hs
    split_ifs at hs with he
    · exact h3 (by simpa using he.symm)
    · omega
  unfold trn_fs_traverse_segment
  simp only [c1, c2, if_false, List.take_length]

theorem run_named_depth {σ : Type} (E : Env σ) (segs : List (List Char)) (x x1 : Rec σ)
    (hn : ∀ s ∈ segs, named s) (h : run_segments E segs x = Step.cont x1) :
    x1.traverse_recursion = x.traverse_recursion + (segs.length : Int) ∧
      x1.borrowed_recursion = x.borrowed_recursion := by
  induction segs generalizing x with
  | nil =>
    simp only [run_segments, Step.cont.injEq] at h
    subst h
    simp
  | cons s rest ih =>
    rw [run_segments_cons, segment_named E s x (hn s (List.mem_cons_self _ _))] at h
    split_ifs at h with c1 c2 c3
    obtain ⟨h1, h2⟩ := ih _ (fun s hs => hn s (List.mem_cons_of_mem _ hs)) h
    simp only at h1 h2
    refine ⟨?_, h2⟩
    rw [h1]; simp only [List.length_cons, Nat.cast_add, Nat.cast_one]; omega

/-- Named segments whose lookups and allocations all succeed are resolved one
entry each. -/
theorem run_named {σ : Type} (E : Env σ) (segs : List (List Char)) (x : Rec σ)
    (hn : ∀ s ∈ segs, named s)
    (hd : x.traverse_recursion + (segs.length : Int) ≤ MAX_RECURSION - 1)
    (hl : lookups_succeed (run_segments E segs x).record.run.trace)
    (ha : allocations_succeed (run_segments E segs x).record.run.trace) :
    ∃ x1, run_segments E segs x = Step.cont x1 ∧
      x1.borrowed_recursion = x.borrowed_recursion ∧
      x1.traverse_recursion = x.traverse_recursion + (segs.length : Int) ∧
      (∀ i, i ≤ x.traverse_recursion → x1.traverse i = x.traverse i) ∧
      names_stored x1.traverse x.traverse_recursion segs ∧
      x1.run.trace = x.run.trace ++ lookup_calls x1.traverse x.traverse_recursion segs := by
  induction segs generalizing x with
  | nil =>
    exact ⟨x, rfl, rfl, by simp, fun i _ => rfl, trivial, by simp [lookup_calls]⟩
  | cons s rest ih =>
    have hs := segment_named E s x (hn s (List.mem_cons_self _ _))
    rw [run_segments_cons] at hl ha ⊢
    rw [hs] at hl ha ⊢
    simp only [List.length_cons, Nat.cast_add, Nat.cast_one] at hd
    have c1 : ¬ x.traverse_recursion + 1 ≥ MAX_RECURSION := by
      unfold MAX_RECURSION at hd ⊢; omega
    simp only [c1, if_false] at hl ha ⊢
    by_cases c2 : (E.malloc (E.lookup x.run.w (x.traverse x.traverse_recursion).inode s).1
          (s.length + 1)).2 = false
    · simp only [c2, if_true, Step.record] at ha
      have := ha (s.length + 1) false (by simp)
      cases this
    · simp only [c2, if_false] at hl ha ⊢
      by_cases c3 : (E.lookup x.run.w (x.traverse x.traverse_recursion).inode s).2.1 = RESULT_OK
      · simp only [c3, ne_eq, not_true_eq_false, if_false] at hl ha ⊢
        obtain ⟨x1, h1, h2, h3, h4, h5, h6⟩ := ih _
          (fun s hs => hn s (List.mem_cons_of_mem _ hs)) (by simp only; omega) hl ha
        simp only at h2 h3 h4 h5 h6
        have hlow : ∀ i, i ≤ x.traverse_recursion → x1.traverse i = x.traverse i := by
          intro i hi
          rw [h4 i (by omega), Function.update_noteq (by omega)]
        have hnew : x1.traverse (x.traverse_recursion + 1)
            = ⟨(E.lookup x.run.w (x.traverse x.traverse_recursion).inode s).2.2, s⟩ := by
          rw [h4 _ (le_refl _), Function.update_same]
        refine ⟨x1, h1, h2, ?_, hlow, ⟨by rw [hnew], h5⟩, ?_⟩
        · rw [h3]; simp only [List.length_cons, Nat.cast_add, Nat.cast_one]; omega
        · rw [h6]
          simp only [lookup_calls, List.append_assoc, List.cons_append, List.nil_append]
          rw [hlow _ (le_refl _), hnew]
      · simp only [ne_eq, c3, not_false_eq_true, if_true, Step.record] at hl
        have := hl _ _ _ _ (List.mem_append_right _ (List.mem_cons_self _ _))
        exact absurd this c3

theorem segment_dot {σ : Type} (E : Env σ) (x : Rec σ) :
    trn_fs_traverse_segment E ['.'] 1 x = Step.cont x := by
  unfold trn_fs_traverse_segment strncmp
  simp

/-- Segments `.` do not change what the segments of a path do. -/
theorem run_segments_filter_dot {σ : Type} (E : Env σ) (segs : List (List Char)) (x : Rec σ) :
    run_segments E (segs.filter (fun s => decide (s ≠ ['.']))) x = run_segments E segs x := by
  induction segs generalizing x with
  | nil => rfl
  | cons s rest ih =>
    by_cases hs : s = ['.']
    · subst hs
      simp only [ne_eq, not_true_eq_false, decide_False, Bool.false_eq_true, not_false_eq_true,
        List.filter_cons_of_neg]
      rw [run_segments_cons]
      simp only [List.length_cons, List.length_nil, Nat.zero_add]
      rw [segment_dot, ih]
    · rw [List.filter_cons_of_pos (by simpa using hs), run_segments_cons, run_segments_cons]
      cases trn_fs_traverse_segment E s s.length x with
      | cont x1 => exact ih x1
      | fail r x1 => rfl

theorem traverse_Inv {σ : Type} (E : Env σ) (G : Globals) (w : σ) (path : List Char)
    (max_len : Nat) (o : Out σ) (h : trn_fs_traverse E G w path max_len = some o)
    (h0 : Inv (traverse_start G w path max_len).x) : Inv o.x := by
  unfold trn_fs_traverse at h
  cases hl : trn_fs_traverse_loop E (path.length + 1) (traverse_start G w path max_len) with
  | none => rw [hl] at h; cases h
  | some e =>
    rw [hl] at h
    simp only [Option.map_some', Option.some.injEq] at h
    subst h
    have := loop_inv E Inv (fun _ x => Inv x)
      (fun seg n x x1 hx he => by have := segment_Inv E seg n x hx; rwa [he] at this)
      (fun seg n x r x1 hx he => by have := segment_Inv E seg n x hx; rwa [he] at this)
      _ _ e h0 hl
    cases e with
    | cont x => exact this
    | fail r x => exact this

/-- C1: for every path, `max_len` and working-directory stack, `trn_fs_traverse`
returns, and (1) in every pass of its loop each release is applied to an index
above the current `borrowed_recursion`, (2) every release of the whole
traversal, the `fail:` loop included, is applied to an index above the final
`borrowed_recursion`, (3) no release is applied to a handle that is not held,
that is, returned by a successful lookup of this traversal and not released
since, and (4) every released handle was returned by a successful lookup of
this traversal. -/
theorem C1_traverse_releases_only_owned {σ : Type} (E : Env σ) (G : Globals) (w : σ)
    (path : List Char) (max_len : Nat) :
    ∃ o, trn_fs_traverse E G w path max_len = some o ∧
      (∀ s, Reach E (traverse_start G w path max_len) s →
        ∀ i a, Event.release i a ∈ pass_events E s → s.x.borrowed_recursion < i) ∧
      (∀ i a, Event.release i a ∈ o.x.run.trace → o.x.borrowed_recursion < i) ∧
      (∃ held, outstanding o.x.run.trace 0 = some held) ∧
      (∀ i a, Event.release i a ∈ o.x.run.trace →
        ∃ d n, Event.lookup d n RESULT_OK a ∈ o.x.run.trace) := by
  obtain ⟨o, ho⟩ := trn_fs_traverse_total E G w path max_len
  obtain ⟨h1, _, held, h2, _⟩ := traverse_accounts E G w path max_len o ho
  refine ⟨o, ho, fun s _ i a hm => (pass_events_release E s i a hm).1, h1, ⟨held, h2⟩, ?_⟩
  intro i a hm
  rcases (outstanding_sound _ _ _ h2).1 i a hm with h0 | h0
  · simp at h0
  · exact h0

/-- C2: when the working-directory depth is within `0 .. MAX_RECURSION - 1`, the
inequalities `0 <= borrowed_recursion <= traverse_recursion <= MAX_RECURSION - 1`
hold each time the loop of `trn_fs_traverse` is entered, after each pass, and
for the counters handed back. -/
theorem C2_counters_invariant {σ : Type} (E : Env σ) (G : Globals) (w : σ)
    (path : List Char) (max_len : Nat) (h0 : 0 ≤ G.cwd_recursion)
    (h1 : G.cwd_recursion ≤ MAX_RECURSION - 1) :
    (∀ s, Reach E (traverse_start G w path max_len) s →
      Inv s.x ∧ Inv (trn_fs_traverse_body E s).record) ∧
    ∃ o, trn_fs_traverse E G w path max_len = some o ∧ Inv o.x := by
  have hs := start_Inv G w path max_len h0 h1
  have hc : ∀ seg n (x x1 : Rec σ), Inv x → trn_fs_traverse_segment E seg n x = Step.cont x1 →
      Inv x1 := fun seg n x x1 hx he => by
    have := segment_Inv E seg n x hx; rwa [he] at this
  have hf : ∀ seg n (x : Rec σ) r (x1 : Rec σ), Inv x →
      trn_fs_traverse_segment E seg n x = Step.fail r x1 → Inv x1 := fun seg n x r x1 hx he => by
    have := segment_Inv E seg n x hx; rwa [he] at this
  constructor
  · intro s hr
    have hx := reach_inv E Inv hc _ s hr hs
    refine ⟨hx, ?_⟩
    have := body_inv E Inv (fun _ x => Inv x) hc hf s hx
    cases hb : trn_fs_traverse_body E s with
    | next s1 => rw [hb] at this; exact this
    | done x => rw [hb] at this; exact this
    | fail r x => rw [hb] at this; exact this
  · obtain ⟨o, ho⟩ := trn_fs_traverse_total E G w path max_len
    exact ⟨o, ho, traverse_Inv E G w path max_len o ho hs⟩

/-- C3, amended: whenever `trn_fs_traverse` fails with PATH_TOO_DEEP or with the
error a lookup returned, no handle is held any more (each handle returned by
a successful lookup was released exactly once); the error of a failing lookup
is the one returned unless the allocation of the name failed; and an absolute
path of more than 256 named segments whose lookups and name allocations all
succeed fails with PATH_TOO_DEEP, with as many releases as successful
lookups. -/
theorem C3_failure_releases_owned {σ : Type} (E : Env σ) (G : Globals) (w : σ)
    (path : List Char) (max_len : Nat) :
    ∃ o, trn_fs_traverse E G w path max_len = some o ∧
      (o.r ≠ RESULT_OK →
        (o.r = LIBTRANSISTOR_ERR_FS_PATH_TOO_DEEP ∨
          ∃ d n a, Event.lookup d n o.r a ∈ o.x.run.trace) →
        outstanding o.x.run.trace 0 = some 0) ∧
      (∀ d n rl a, Event.lookup d n rl a ∈ o.x.run.trace → rl ≠ RESULT_OK →
        (∀ k, Event.malloc k false ∉ o.x.run.trace) → o.r = rl) ∧
      (∀ segs : List (List Char), path = path_of true segs → (∀ s ∈ segs, named s) →
        256 < segs.length → path.length < max_len →
        lookups_succeed o.x.run.trace → allocations_succeed o.x.run.trace →
        o.r = LIBTRANSISTOR_ERR_FS_PATH_TOO_DEEP ∧
          o.x.run.trace.countP Event.is_release = o.x.run.trace.countP Event.is_lookup_ok) := by
  obtain ⟨o, ho⟩ := trn_fs_traverse_total E G w path max_len
  obtain ⟨_, _, held, hheld, _, hfail⟩ := traverse_accounts E G w path max_len o ho
  obtain ⟨herr1, herr2⟩ := traverse_error E G w path max_len o ho
  have part1 : o.r ≠ RESULT_OK →
      (o.r = LIBTRANSISTOR_ERR_FS_PATH_TOO_DEEP ∨
        ∃ d n a, Event.lookup d n o.r a ∈ o.x.run.trace) →
      outstanding o.x.run.trace 0 = some 0 := by
    intro hne hor
    rcases hfail hne with h0 | ⟨hoom, hall, _⟩
    · rw [hheld, h0]
    · exfalso
      rcases hor with h1 | ⟨d, n, a, hm⟩
      · rw [hoom] at h1; cases h1
      · have := hall d n o.r a hm
        exact hne this
  refine ⟨o, ho, part1, herr1, ?_⟩
  intro segs hp hn hk hlen hl ha
  have hgood : ∀ s ∈ segs, s ≠ [] ∧ '/' ∉ s := fun s hs => ⟨(hn s hs).1, (hn s hs).2.1⟩
  have hne : o.r ≠ RESULT_OK := by
    intro hok
    have hu := traverse_unbounded E G w path max_len hlen
    rw [ho, hp, segments_of_path_of true segs hgood] at hu
    simp only [Option.some.injEq] at hu
    have hstart : Inv (traverse_start G w path max_len).x := by
      have hh : path.head? = some '/' := by rw [hp]; simp [path_of]
      simp only [traverse_start, hh, if_true, Inv, MAX_RECURSION]
      omega
    have hinv := traverse_Inv E G w path max_len o ho hstart
    rw [← hp] at hu
    cases hrun : run_segments E segs (traverse_start G w path max_len).x with
    | cont x1 =>
      rw [hrun] at hu
      obtain ⟨hd, _⟩ := run_named_depth E segs _ x1 hn hrun
      have hh : path.head? = some '/' := by rw [hp]; simp [path_of]
      simp only [traverse_start, hh, if_true] at hd
      have : o.x = x1 := by rw [hu]; rfl
      rw [this] at hinv
      obtain ⟨_, _, h3⟩ := hinv
      unfold MAX_RECURSION at h3
      omega
    | fail r x1 =>
      rw [hrun] at hu
      have : o.r = r := by rw [hu]; rfl
      have hx := loop_unbounded E (path.length + 1) (traverse_start G w path max_len)
        (by simpa [traverse_start] using hlen) (by simp [traverse_start])
      have hq := loop_inv E TraverseInv FailInv (segment_cont_inv E)
        (fun seg n x r x1 => segment_fail_inv E seg n x x1 r) _ _ _
        (start_inv G w path max_len) hx
      simp only [traverse_start] at hq
      rw [hp, segments_of_path_of true segs hgood, ← hp] at hq
      simp only [traverse_start] at hrun
      rw [hrun] at hq
      exact hq.1 (this ▸ hok)
  have hdeep := herr2 hne hl (fun k hm => by have := ha k false hm; cases this)
  refine ⟨hdeep, ?_⟩
  have h0 := part1 hne (Or.inl hdeep)
  have := outstanding_count _ _ _ h0
  simp only [Multiset.card_zero, Nat.zero_add] at this
  exact this.symm

theorem exit_trace_mem {σ : Type} (E : Env σ) (st : Step σ) (e : Event)
    (h : e ∈ st.record.run.trace) : e ∈ (traverse_exit E st).x.run.trace := by
  cases st with
  | cont x => exact h
  | fail r x =>
    simp only [traverse_exit, release_range_trace]
    exact List.mem_append_left _ h

/-- C6, amended: a path made of `k` named segments separated by single slashes
(relative, or absolute after a leading slash), resolved with unbounded
`max_len` from a starting depth `d` with `d + k <= 255`, every lookup and
every allocation of a name succeeding: the traversal returns OK with
`borrowed_recursion = d` and `traverse_recursion = d + k`, the entries
`0 .. d` are those of the working directory, entry `d + i` carries the name
of the `i`-th segment, and the calls made are, for each segment in turn, the
lookup on the entry before with the bytes of the segment, whose result is
the inode of the next entry, and the allocation of the name; no release. -/
theorem C6_named_segments_resolved {σ : Type} (E : Env σ) (G : Globals) (w : σ)
    (absolute : Bool) (segs : List (List Char)) (max_len : Nat)
    (hd : 0 ≤ G.cwd_recursion) (hn : ∀ s ∈ segs, named s)
    (hlen : (path_of absolute segs).length < max_len)
    (hdepth : (if absolute then 0 else G.cwd_recursion) + (segs.length : Int)
      ≤ MAX_RECURSION - 1) :
    ∃ o, trn_fs_traverse E G w (path_of absolute segs) max_len = some o ∧
      (lookups_succeed o.x.run.trace → allocations_succeed o.x.run.trace →
        o.r = RESULT_OK ∧
        o.x.borrowed_recursion = (if absolute then 0 else G.cwd_recursion) ∧
        o.x.traverse_recursion = (if absolute then 0 else G.cwd_recursion) + (segs.length : Int) ∧
        (∀ i, 0 ≤ i → i ≤ (if absolute then 0 else G.cwd_recursion) →
          o.x.traverse i = G.cwd i) ∧
        names_stored o.x.traverse (if absolute then 0 else G.cwd_recursion) segs ∧
        o.x.run.trace = lookup_calls o.x.traverse (if absolute then 0 else G.cwd_recursion) segs) := by
  have hgood : ∀ s ∈ segs, s ≠ [] ∧ '/' ∉ s := fun s hs => ⟨(hn s hs).1, (hn s hs).2.1⟩
  have hu := traverse_unbounded E G w (path_of absolute segs) max_len hlen
  rw [segments_of_path_of absolute segs hgood] at hu
  refine ⟨_, hu, ?_⟩
  intro hl ha
  have hhead := path_of_head absolute segs hgood
  have hstart : (traverse_start G w (path_of absolute segs) max_len).x
      = ⟨fun i => if 0 ≤ i ∧ i ≤ G.cwd_recursion then G.cwd i else uninit,
          (if absolute then 0 else G.cwd_recursion),
          (if absolute then 0 else G.cwd_recursion), ⟨w, []⟩⟩ := by
    cases absolute with
    | false =>
      have : ¬ (path_of false segs).head? = some '/' := by
        intro h; exact absurd (hhead.1 h) (by simp)
      simp [traverse_start, this]
    | true =>
      have : (path_of true segs).head? = some '/' := hhead.2 rfl
      simp [traverse_start, this]
  rw [hstart] at hl ha ⊢
  obtain ⟨x1, h1, h2, h3, h4, h5, h6⟩ := run_named E segs _ hn hdepth
    (fun d n r a hm => hl d n r a (exit_trace_mem E _ _ hm))
    (fun n ok hm => ha n ok (exit_trace_mem E _ _ hm))
  rw [h1]
  simp only [traverse_exit]
  simp only at h2 h3 h4 h5 h6
  refine ⟨trivial, h2, h3, ?_, h5, by simpa using h6⟩
  intro i hi0 hi
  rw [h4 i hi]
  have : i ≤ G.cwd_recursion := by
    cases absolute with
    | false => simpa using hi
    | true => simp only [if_true] at hi; omega
  simp [hi0, this]

/-- C7: for every `k` and every working-directory depth `d >= 0`, the relative path
made of `k` segments `..` joined by `/`, resolved with unbounded `max_len`,
returns OK with `traverse_recursion = borrowed_recursion = max (d - k) 0`,
without any call (no lookup, no release) and with the world unchanged. -/
theorem C7_dotdot_lockstep {σ : Type} (E : Env σ) (G : Globals) (w : σ) (k : Nat)
    (max_len : Nat) (hd : 0 ≤ G.cwd_recursion)
    (hlen : (List.intercalate ['/'] (List.replicate k ['.', '.'])).length < max_len) :
    ∃ o, trn_fs_traverse E G w (List.intercalate ['/'] (List.replicate k ['.', '.'])) max_len
        = some o ∧
      o.r = RESULT_OK ∧
      o.x.traverse_recursion = max (G.cwd_recursion - (k : Int)) 0 ∧
      o.x.borrowed_recursion = max (G.cwd_recursion - (k : Int)) 0 ∧
      o.x.run.trace = [] ∧ o.x.run.w = w := by
  have hgood : ∀ s ∈ List.replicate k ['.', '.'], s ≠ [] ∧ '/' ∉ s := by
    intro s hs
    rw [List.eq_of_mem_replicate hs]
    decide
  have hu := traverse_unbounded E G w _ max_len hlen
  rw [segments_of_intercalate _ hgood] at hu
  have hhead := intercalate_head _ hgood
  refine ⟨_, hu, ?_⟩
  obtain ⟨x1, h1, h2, h3, h4, h5⟩ := run_dotdot E k
    (traverse_start G w (List.intercalate ['/'] (List.replicate k ['.', '.'])) max_len).x
    (by simp [traverse_start]) (by simp [traverse_start, hhead, hd])
  rw [h1]
  simp only [traverse_exit]
  simp only [traverse_start, hhead, if_false] at h3 h4 h5
  exact ⟨trivial, h4, h5, by rw [h3], by rw [h3]⟩

theorem segments_aux_slashes (n : Nat) :
    segments_aux (List.replicate n '/') [] = [] := by
  induction n with
  | zero => rfl
  | succ n ih =>
    rw [List.replicate_succ]
    simp only [segments_aux, if_true]
    exact ih

/-- C8: the empty path (`n = 0`) and every path made of `n` slashes, resolved with
unbounded `max_len`, return OK with `traverse_recursion = borrowed_recursion`
= the starting depth (the working-directory depth for the empty path, 0
otherwise), the entries up to that depth are those of the working
directory, and no call is made. -/
theorem C8_no_segment_path {σ : Type} (E : Env σ) (G : Globals) (w : σ) (n : Nat)
    (max_len : Nat) (hd : 0 ≤ G.cwd_recursion) (hlen : n < max_len) :
    ∃ o, trn_fs_traverse E G w (List.replicate n '/') max_len = some o ∧
      o.r = RESULT_OK ∧
      o.x.traverse_recursion = (if n = 0 then G.cwd_recursion else 0) ∧
      o.x.borrowed_recursion = (if n = 0 then G.cwd_recursion else 0) ∧
      (∀ i, 0 ≤ i → i ≤ (if n = 0 then G.cwd_recursion else 0) → o.x.traverse i = G.cwd i) ∧
      o.x.run.trace = [] ∧ o.x.run.w = w := by
  have hu := traverse_unbounded E G w (List.replicate n '/') max_len (by simpa using hlen)
  have hs : segments_of (List.replicate n '/') = [] := segments_aux_slashes n
  rw [hs] at hu
  refine ⟨_, hu, rfl, ?_⟩
  cases n with
  | zero =>
    simp only [traverse_exit, run_segments, traverse_start, List.replicate_zero, List.head?_nil,
      if_true]
    refine ⟨by simp, by simp, ?_, trivial, trivial⟩
    intro i h0 h1
    simp [h0, h1]
  | succ n =>
    simp only [traverse_exit, run_segments, traverse_start, List.replicate_succ, List.head?_cons,
      if_true]
    refine ⟨by simp, by simp, ?_, trivial, trivial⟩
    intro i h0 h1
    simp only [Nat.add_one_ne_zero, if_false] at h1
    have : i ≤ G.cwd_recursion := by omega
    simp [h0, this]

/-- Two paths that start with a slash together and have the same segments other
than `.` have the same unbounded traversal. -/
theorem traverse_same_segments {σ : Type} (E : Env σ) (G : Globals) (w : σ)
    (p p2 : List Char) (max_len max_len2 : Nat)
    (hlen : p.length < max_len) (hlen2 : p2.length < max_len2)
    (hhead : p2.head? = some '/' ↔ p.head? = some '/')
    (hsegs : segments_of p2 = (segments_of p).filter (fun s => decide (s ≠ ['.']))) :
    trn_fs_traverse E G w p2 max_len2 = trn_fs_traverse E G w p max_len := by
  rw [traverse_unbounded E G w p max_len hlen, traverse_unbounded E G w p2 max_len2 hlen2,
    hsegs, run_segments_filter_dot]
  have : (traverse_start G w p2 max_len2).x = (traverse_start G w p max_len).x := by
    by_cases h : p.head? = some '/'
    · simp [traverse_start, h, hhead.2 h]
    · have h2 : ¬ p2.head? = some '/' := fun e => h (hhead.1 e)
      simp [traverse_start, h, h2]
  rw [this]

theorem segments_aux_good (p cur : List Char) (hc : '/' ∉ cur) :
    ∀ s ∈ segments_aux p cur, s ≠ [] ∧ '/' ∉ s := by
  induction p generalizing cur with
  | nil =>
    intro s hs
    simp only [segments_aux] at hs
    split_ifs at hs with h
    · cases hs
    · rw [List.mem_singleton] at hs
      subst hs
      exact ⟨h, hc⟩
  | cons c rest ih =>
    intro s hs
    simp only [segments_aux] at hs
    split_ifs at hs with h1 h2
    · exact ih [] (by simp) s hs
    · rcases List.mem_cons.1 hs with rfl | hs
      · exact ⟨h2, hc⟩
      · exact ih [] (by simp) s hs
    · refine ih (cur ++ [c]) ?_ s hs
      intro hm
      rcases List.mem_append.1 hm with hm | hm
      · exact hc hm
      · exact h1 (List.mem_singleton.1 hm).symm

theorem segments_of_good (p : List Char) : ∀ s ∈ segments_of p, s ≠ [] ∧ '/' ∉ s :=
  segments_aux_good p [] (by simp)

theorem intercalate_cons_length (x : List Char) (l : List (List Char)) :
    (List.intercalate ['/'] (x :: l)).length
      = x.length + (if l = [] then 0 else 1 + (List.intercalate ['/'] l).length) := by
  cases l with
  | nil => simp [intercalate_single]
  | cons y l =>
    rw [intercalate_cons_cons]
    simp only [List.length_append, List.length_singleton, reduceCtorEq, if_false]
    omega

theorem intercalate_filter_length (f : List Char → Bool) (l : List (List Char)) :
    (List.intercalate ['/'] (l.filter f)).length ≤ (List.intercalate ['/'] l).length := by
  induction l with
  | nil => simp
  | cons x l ih =>
    by_cases hx : f x = true
    · rw [List.filter_cons_of_pos hx, intercalate_cons_length, intercalate_cons_length]
      by_cases h1 : l.filter f = []
      · simp [h1]
      · have h2 : l ≠ [] := by
          intro h; apply h1; rw [h]; rfl
        simp only [h1, h2, if_false]
        omega
    · rw [List.filter_cons_of_neg hx, intercalate_cons_length]
      by_cases h2 : l = []
      · subst h2; simp [List.intercalate]
      · simp only [h2, if_false]; omega

theorem segments_aux_length (p cur : List Char) :
    (List.intercalate ['/'] (segments_aux p cur)).length ≤ cur.length + p.length := by
  induction p generalizing cur with
  | nil =>
    simp only [segments_aux]
    split_ifs with h
    · simp [List.intercalate]
    · simp [intercalate_single]
  | cons c rest ih =>
    simp only [segments_aux]
    split_ifs with h1 h2
    · have := ih []
      simp only [List.length_cons, List.length_nil] at this ⊢
      omega
    · rw [intercalate_cons_length]
      have := ih []
      simp only [List.length_cons, List.length_nil] at this ⊢
      split_ifs <;> omega
    · have := ih (cur ++ [c])
      simp only [List.length_append, List.length_cons, List.length_nil] at this ⊢
      omega

theorem without_dots_length (p : List Char) : (without_dots p).length ≤ p.length := by
  unfold without_dots path_of
  have h1 := intercalate_filter_length (fun s => decide (s ≠ ['.'])) (segments_of p)
  cases p with
  | nil => simp [segments_of, segments_aux, List.intercalate]
  | cons c rest =>
    by_cases hc : c = '/'
    · subst hc
      have h2 := segments_aux_length rest []
      have h3 : segments_of ('/' :: rest) = segments_aux rest [] := by
        simp [segments_of, segments_aux]
      rw [h3] at h1 ⊢
      simp only [List.head?_cons, decide_True, if_true, List.singleton_append, List.length_cons,
        List.length_nil] at h2 ⊢
      omega
    · have h2 := segments_aux_length (c :: rest) []
      have hh : ¬ (some c = some '/') := by simpa using hc
      unfold segments_of at h1 ⊢
      simp only [List.head?_cons, hh, decide_False, Bool.false_eq_true, if_false,
        List.nil_append, List.length_cons, List.length_nil] at h2 ⊢
      omega

theorem without_dots_segments (p : List Char) :
    segments_of (without_dots p) = (segments_of p).filter (fun s => decide (s ≠ ['.'])) :=
  segments_of_path_of _ _
    (fun s hs => segments_of_good p s (List.mem_of_mem_filter hs))

theorem without_dots_head (p : List Char) :
    (without_dots p).head? = some '/' ↔ p.head? = some '/' := by
  unfold without_dots
  rw [path_of_head _ _ (fun s hs => segments_of_good p s (List.mem_of_mem_filter hs))]
  simp

/-- C9: empty segments and segments `.` are no-ops. For every path `p` resolved
with unbounded `max_len`, the path `without_dots p` (the `.` segments
deleted, every run of slashes collapsed to one, the leading slash kept)
has the same traversal: same result code, same counters, same record, same
world and the same calls in the same order. The same holds of every path
`p2` that starts with a slash exactly when `p` does and whose segments are
those of `p` other than `.`, for instance with a trailing slash kept. -/
theorem C9_dot_and_empty_segments {σ : Type} (E : Env σ) (G : Globals) (w : σ)
    (p : List Char) (max_len : Nat) (hlen : p.length < max_len) :
    trn_fs_traverse E G w (without_dots p) max_len = trn_fs_traverse E G w p max_len ∧
    ∀ (p2 : List Char) (max_len2 : Nat), p2.length < max_len2 →
      (p2.head? = some '/' ↔ p.head? = some '/') →
      segments_of p2 = (segments_of p).filter (fun s => decide (s ≠ ['.'])) →
      trn_fs_traverse E G w p2 max_len2 = trn_fs_traverse E G w p max_len :=
  ⟨traverse_same_segments E G w p (without_dots p) max_len max_len hlen
      (lt_of_le_of_lt (without_dots_length p) hlen) (without_dots_head p)
      (without_dots_segments p),
    fun p2 max_len2 h2 hh hs => traverse_same_segments E G w p p2 max_len max_len2 hlen h2 hh hs⟩

theorem release_events_nodup (arr : Int → trn_traverse_t) (lo hi : Int) :
    (release_events arr lo hi).Nodup := by
  unfold release_events
  apply List.Nodup.map_on
  · intro a _ b _ h
    simp only [Event.release.injEq] at h
    omega
  · exact List.nodup_range _

theorem release_events_count (arr : Int → trn_traverse_t) (lo hi i : Int) (h1 : lo < i)
    (h2 : i ≤ hi) :
    (release_events arr lo hi).count (Event.release i (arr i).inode) = 1 :=
  List.count_eq_one_of_mem (release_events_nodup arr lo hi)
    ((mem_release_events arr lo hi i _).2 ⟨h1, h2, rfl⟩)

theorem traverse_from_nil {σ : Type} (E : Env σ) (G : Globals) (w : σ) (path : List Char)
    (max_len : Nat) :
    traverse_from E G ⟨w, []⟩ path max_len = trn_fs_traverse E G w path max_len := by
  unfold traverse_from
  cases trn_fs_traverse E G w path max_len with
  | none => rfl
  | some o => rfl

/-- C4: when the traversal of `path` succeeds with record `o`, each of
`trn_fs_open` (without `O_CREAT`), `trn_fs_opendir`, `trn_fs_stat` and
`trn_fs_realpath` returns, leaves the globals (the working-directory stack and
its depth) unchanged, and makes after the calls of the traversal its action
on the terminal inode (for `trn_fs_realpath` at most an allocation) followed
by the releases of the entries `(borrowed_recursion, traverse_recursion]` of
the record, each index once, whatever the result of the action. -/
theorem C4_facade_releases_owned {σ : Type} (E : Env σ) (G : Globals) (w : σ)
    (path : List Char) (flags : Nat) (resolved_path : Option (List Char))
    (hflags : flags &&& O_CREAT = 0) :
    ∃ o, trn_fs_traverse E G w path SIZE_MAX = some o ∧
      (o.r = RESULT_OK →
        (∀ i, o.x.borrowed_recursion < i → i ≤ o.x.traverse_recursion →
          (release_events o.x.traverse o.x.borrowed_recursion o.x.traverse_recursion).count
            (Event.release i (o.x.traverse i).inode) = 1) ∧
        (∀ i a, Event.release i a ∈
            release_events o.x.traverse o.x.borrowed_recursion o.x.traverse_recursion →
          o.x.borrowed_recursion < i ∧ i ≤ o.x.traverse_recursion ∧
            a = (o.x.traverse i).inode) ∧
        (∃ ret, trn_fs_open E G w path flags = some ret ∧ ret.G = G ∧
          ret.run.trace = o.x.run.trace ++
            [Event.open_as_file (o.x.traverse o.x.traverse_recursion).inode flags ret.r] ++
            release_events o.x.traverse o.x.borrowed_recursion o.x.traverse_recursion) ∧
        (∃ ret, trn_fs_opendir E G w path = some ret ∧ ret.G = G ∧
          ret.run.trace = o.x.run.trace ++
            [Event.open_as_dir (o.x.traverse o.x.traverse_recursion).inode ret.r] ++
            release_events o.x.traverse o.x.borrowed_recursion o.x.traverse_recursion) ∧
        (∃ ret, trn_fs_stat E G w path = some ret ∧ ret.G = G ∧
          ∃ is_dir, ret.run.trace = o.x.run.trace ++
            [Event.is_dir (o.x.traverse o.x.traverse_recursion).inode ret.r is_dir] ++
            release_events o.x.traverse o.x.borrowed_recursion o.x.traverse_recursion) ∧
        (∃ ret, trn_fs_realpath E G w path resolved_path = some ret ∧ ret.G = G ∧
          ∃ allocs, (∀ e ∈ allocs, ∃ n ok, e = Event.malloc n ok) ∧
            ret.run.trace = o.x.run.trace ++ allocs ++
              release_events o.x.traverse o.x.borrowed_recursion o.x.traverse_recursion)) := by
  obtain ⟨o, ho⟩ := trn_fs_traverse_total E G w path SIZE_MAX
  refine ⟨o, ho, fun hr => ⟨fun i h1 h2 => release_events_count _ _ _ i h1 h2,
    fun i a hm => (mem_release_events _ _ _ _ _).1 hm, ?_, ?_, ?_, ?_⟩⟩
  · have hnc : ¬ (flags &&& O_CREAT ≠ 0) := by simp [hflags]
    unfold trn_fs_open
    rw [if_neg hnc]
    unfold trn_fs_open_resolve
    rw [traverse_from_nil, ho]
    simp only [hr, ne_eq, not_true_eq_false, if_false]
    exact ⟨_, rfl, rfl, by simp [release_range_trace]⟩
  · unfold trn_fs_opendir
    rw [ho]
    simp only [hr, ne_eq, not_true_eq_false, if_false]
    exact ⟨_, rfl, rfl, by simp [release_range_trace]⟩
  · unfold trn_fs_stat
    rw [ho]
    simp only [hr, ne_eq, not_true_eq_false, if_false]
    exact ⟨_, rfl, rfl, (E.is_dir o.x.run.w (o.x.traverse o.x.traverse_recursion).inode).2.2,
      by simp [release_range_trace]⟩
  · unfold trn_fs_realpath
    rw [ho]
    simp only [hr, ne_eq, not_true_eq_false, if_false]
    cases resolved_path with
    | none =>
      simp only
      split_ifs with h1 h2
      · exact ⟨_, rfl, rfl, [], by simp, by simp [release_range_trace]⟩
      · exact ⟨_, rfl, rfl, [Event.malloc (realpath_size o.x.traverse o.x.traverse_recursion)
          (E.malloc o.x.run.w (realpath_size o.x.traverse o.x.traverse_recursion)).2],
          fun e he => ⟨_, _, List.mem_singleton.1 he⟩, by simp [release_range_trace]⟩
      · exact ⟨_, rfl, rfl, [Event.malloc (realpath_size o.x.traverse o.x.traverse_recursion)
          (E.malloc o.x.run.w (realpath_size o.x.traverse o.x.traverse_recursion)).2],
          fun e he => ⟨_, _, List.mem_singleton.1 he⟩, by simp [release_range_trace]⟩
    | some buf =>
      simp only
      split_ifs with h1
      · exact ⟨_, rfl, rfl, [], by simp, by simp [release_range_trace]⟩
      · exact ⟨_, rfl, rfl, [], by simp, by simp [release_range_trace]⟩

/-- C5: `trn_fs_chdir` returns. When the traversal of `path` succeeds with record
`o`, it returns OK, makes after the calls of the traversal exactly the
releases of the old stack entries at the indices `borrowed_recursion + 1 ..
old depth`, each once, and afterwards the depth is `traverse_recursion` and
the stack entries `0 .. traverse_recursion` are those of the record. When
the traversal fails, it returns that error with the globals unchanged and
without any call of its own: the trace is the one of the traversal, whose
releases are all applied to handles returned by its own lookups. -/
theorem C5_chdir_replaces_stack {σ : Type} (E : Env σ) (G : Globals) (w : σ)
    (path : List Char) :
    ∃ o ret, trn_fs_traverse E G w path SIZE_MAX = some o ∧
      trn_fs_chdir E G w path = some ret ∧
      (o.r = RESULT_OK →
        ret.r = RESULT_OK ∧
        ret.run.trace = o.x.run.trace ++
          release_events G.cwd o.x.borrowed_recursion G.cwd_recursion ∧
        (∀ i, o.x.borrowed_recursion < i → i ≤ G.cwd_recursion →
          (release_events G.cwd o.x.borrowed_recursion G.cwd_recursion).count
            (Event.release i (G.cwd i).inode) = 1) ∧
        (∀ i a, Event.release i a ∈ release_events G.cwd o.x.borrowed_recursion G.cwd_recursion →
          o.x.borrowed_recursion < i ∧ i ≤ G.cwd_recursion ∧ a = (G.cwd i).inode) ∧
        ret.G.cwd_recursion = o.x.traverse_recursion ∧
        (∀ i, 0 ≤ i → i ≤ o.x.traverse_recursion → ret.G.cwd i = o.x.traverse i) ∧
        ret.G.root = G.root) ∧
      (o.r ≠ RESULT_OK →
        ret.r = o.r ∧ ret.G = G ∧ ret.run.trace = o.x.run.trace ∧
        (∃ held, outstanding ret.run.trace 0 = some held) ∧
        (∀ i a, Event.release i a ∈ ret.run.trace →
          ∃ d n, Event.lookup d n RESULT_OK a ∈ ret.run.trace)) := by
  obtain ⟨o, ho⟩ := trn_fs_traverse_total E G w path SIZE_MAX
  by_cases hr : o.r = RESULT_OK
  · refine ⟨o, ⟨RESULT_OK, none,
        ⟨G.root, fun i => if 0 ≤ i ∧ i ≤ o.x.traverse_recursion then o.x.traverse i else G.cwd i,
          o.x.traverse_recursion⟩,
        release_range E G.cwd o.x.borrowed_recursion G.cwd_recursion o.x.run⟩,
      ho, ?_, ?_, fun hn => absurd hr hn⟩
    · unfold trn_fs_chdir
      rw [ho]
      simp only [hr, ne_eq, not_true_eq_false, if_false]
    · intro _
      refine ⟨rfl, release_range_trace E _ _ _ _,
        fun i h1 h2 => release_events_count _ _ _ i h1 h2,
        fun i a hm => (mem_release_events _ _ _ _ _).1 hm, rfl, ?_, rfl⟩
      intro i h0 h1
      simp [h0, h1]
  · refine ⟨o, ⟨o.r, none, G, o.x.run⟩, ho, ?_, fun h => absurd h hr, ?_⟩
    · unfold trn_fs_chdir
      rw [ho]
      simp only [ne_eq, hr, not_false_eq_true, if_true]
    · intro _
      obtain ⟨_, _, held, h2, _⟩ := traverse_accounts E G w path SIZE_MAX o ho
      refine ⟨rfl, rfl, rfl, ⟨held, h2⟩, ?_⟩
      intro i a hm
      rcases (outstanding_sound _ _ _ h2).1 i a hm with h0 | h0
      · simp at h0
      · exact h0

/-- C10 (the code departs from the claim): for `P = "/a/b"` and `D = "/a"`, the
traversal of `P` bounded by the length 2 of `D` stops at the root, at depth 0
and without any lookup, whereas the unbounded traversal of `D` looks `a` up
and ends at depth 1 on the inode of `/a`. As a result `trn_fs_open` with
`O_CREAT` calls `create_file` for `b` on the root inode. -/
theorem C10_bounded_stops_before_parent :
    (trn_fs_traverse env_plain globals_root 0 ['/', 'a', '/', 'b'] 2).map
        (fun o => (o.r, o.x.borrowed_recursion, o.x.traverse_recursion,
          (o.x.traverse o.x.traverse_recursion).inode, o.x.run.trace))
      = some (RESULT_OK, 0, 0, ⟨0, 0⟩, []) ∧
    (trn_fs_traverse env_plain globals_root 0 ['/', 'a'] SIZE_MAX).map
        (fun o => (o.r, o.x.borrowed_recursion, o.x.traverse_recursion,
          (o.x.traverse o.x.traverse_recursion).inode, o.x.run.trace))
      = some (RESULT_OK, 0, 1, ⟨0, 100⟩,
          [Event.lookup ⟨0, 0⟩ ['a'] RESULT_OK ⟨0, 100⟩, Event.malloc 2 true]) ∧
    strrchr ['/', 'a', '/', 'b'] '/' = some 2 ∧
    (trn_fs_open env_plain globals_root 0 ['/', 'a', '/', 'b'] O_CREAT).map
        (fun ret => ret.run.trace.take 1)
      = some [Event.create_file ⟨0, 0⟩ ['b'] RESULT_OK] :=
  ⟨by decide, by decide, by decide, by decide⟩

/-- Every lookup and allocation logged comes from the environment. -/
theorem segment_calls {σ : Type} (E : Env σ) (seg : List Char) (n : Nat) (x : Rec σ)
    (e : Event) (h : e ∈ (trn_fs_traverse_segment E seg n x).record.run.trace) :
    e ∈ x.run.trace ∨ (∃ i a, e = Event.release i a) ∨
      (∃ w d m, e = Event.lookup d m (E.lookup w d m).2.1 (E.lookup w d m).2.2) ∨
      (∃ w m, e = Event.malloc m (E.malloc w m).2) := by
  unfold trn_fs_traverse_segment at h
  simp only at h
  split_ifs at h with c1 c2 c3 c4 c5 c6 c7
  · simp only [Step.record, Run.release, List.mem_append, List.mem_singleton] at h
    rcases h with h | h
    · exact Or.inl h
    · exact Or.inr (Or.inl ⟨_, _, h⟩)
  · exact Or.inl h
  · exact Or.inl h
  · exact Or.inl h
  · exact Or.inl h
  all_goals
    simp only [Step.record, List.mem_append, List.mem_cons, List.mem_singleton,
      List.not_mem_nil, or_false] at h
    rcases h with h | h | h
    · exact Or.inl h
    · exact Or.inr (Or.inr (Or.inl ⟨_, _, _, h⟩))
    · exact Or.inr (Or.inr (Or.inr ⟨_, _, h⟩))

theorem trace_from_env {σ : Type} (E : Env σ) (G : Globals) (w : σ) (path : List Char)
    (max_len : Nat) (o : Out σ) (h : trn_fs_traverse E G w path max_len = some o) :
    (∀ d n r a, Event.lookup d n r a ∈ o.x.run.trace → ∃ w1, r = (E.lookup w1 d n).2.1) ∧
    (∀ n ok, Event.malloc n ok ∈ o.x.run.trace → ∃ w1, ok = (E.malloc w1 n).2) := by
  let P : Rec σ → Prop := fun x =>
    (∀ d n r a, Event.lookup d n r a ∈ x.run.trace → ∃ w1, r = (E.lookup w1 d n).2.1) ∧
    (∀ n ok, Event.malloc n ok ∈ x.run.trace → ∃ w1, ok = (E.malloc w1 n).2)
  have key : ∀ seg n (x : Rec σ), P x → P (trn_fs_traverse_segment E seg n x).record := by
    intro seg n x ⟨h1, h2⟩
    constructor
    · intro d m r a hm
      rcases segment_calls E seg n x _ hm with h | ⟨_, _, h⟩ | ⟨w1, d1, m1, h⟩ | ⟨_, _, h⟩
      · exact h1 d m r a h
      · cases h
      · cases h; exact ⟨w1, rfl⟩
      · cases h
    · intro m ok hm
      rcases segment_calls E seg n x _ hm with h | ⟨_, _, h⟩ | ⟨_, _, _, h⟩ | ⟨w1, m1, h⟩
      · exact h2 m ok h
      · cases h
      · cases h
      · cases h; exact ⟨w1, rfl⟩
  unfold trn_fs_traverse at h
  cases hl : trn_fs_traverse_loop E (path.length + 1) (traverse_start G w path max_len) with
  | none => rw [hl] at h; cases h
  | some e =>
    rw [hl] at h
    simp only [Option.map_some', Option.some.injEq] at h
    subst h
    have := loop_inv E P (fun _ x => P x)
      (fun seg n x x1 hx he => by have := key seg n x hx; rwa [he] at this)
      (fun seg n x r x1 hx he => by have := key seg n x hx; rwa [he] at this)
      _ _ e ⟨fun d n r a hm => by simp [traverse_start] at hm,
             fun n ok hm => by simp [traverse_start] at hm⟩ hl
    cases e with
    | cont x => exact this
    | fail r x =>
      obtain ⟨h1, h2⟩ := this
      simp only [traverse_exit, release_range_trace]
      constructor
      · intro d n r a hm
        rcases List.mem_append.1 hm with hm | hm
        · exact h1 d n r a hm
        · obtain ⟨_, _, he⟩ := release_events_only _ _ _ _ hm
          cases he
      · intro n ok hm
        rcases List.mem_append.1 hm with hm | hm
        · exact h2 n ok hm
        · obtain ⟨_, _, he⟩ := release_events_only _ _ _ _ hm
          cases he

theorem env_plain_succeeds (G : Globals) (w : Nat) (path : List Char) (max_len : Nat)
    (o : Out Nat) (h : trn_fs_traverse env_plain G w path max_len = some o) :
    lookups_succeed o.x.run.trace ∧ allocations_succeed o.x.run.trace := by
  obtain ⟨h1, h2⟩ := trace_from_env env_plain G w path max_len o h
  constructor
  · intro d n r a hm
    obtain ⟨w1, rfl⟩ := h1 d n r a hm
    rfl
  · intro n ok hm
    obtain ⟨w1, rfl⟩ := h2 n ok hm
    rfl

theorem named_a : named ['a'] := by
  refine ⟨by decide, by decide, by decide, by decide⟩

/-- Example for C1: the path `../x/..` from a working directory at depth 3. -/
theorem C1_witness :
    ∃ o, trn_fs_traverse env_plain globals_depth3 0 ['.', '.', '/', 'x', '/', '.', '.'] SIZE_MAX
        = some o ∧
      (∀ s, Reach env_plain
          (traverse_start globals_depth3 0 ['.', '.', '/', 'x', '/', '.', '.'] SIZE_MAX) s →
        ∀ i a, Event.release i a ∈ pass_events env_plain s → s.x.borrowed_recursion < i) ∧
      (∀ i a, Event.release i a ∈ o.x.run.trace → o.x.borrowed_recursion < i) ∧
      (∃ held, outstanding o.x.run.trace 0 = some held) ∧
      (∀ i a, Event.release i a ∈ o.x.run.trace →
        ∃ d n, Event.lookup d n RESULT_OK a ∈ o.x.run.trace) :=
  C1_traverse_releases_only_owned env_plain globals_depth3 0
    ['.', '.', '/', 'x', '/', '.', '.'] SIZE_MAX

/-- Example for C2: the path `a/../b` from the root. -/
theorem C2_witness :
    (0 ≤ globals_root.cwd_recursion ∧ globals_root.cwd_recursion ≤ MAX_RECURSION - 1) ∧
    ∃ o, trn_fs_traverse env_plain globals_root 0 ['a', '/', '.', '.', '/', 'b'] SIZE_MAX
        = some o ∧ Inv o.x :=
  ⟨⟨by decide, by decide⟩,
    (C2_counters_invariant env_plain globals_root 0 ['a', '/', '.', '.', '/', 'b'] SIZE_MAX
      (by decide) (by decide)).2⟩

set_option maxRecDepth 100000 in
/-- C3 as stated fails: over a backend whose lookups all succeed but whose `malloc`
returns NULL, the absolute path of 257 named segments `a` fails with
OUT_OF_MEMORY, not PATH_TOO_DEEP, after one successful lookup and no
release. -/
theorem C3_counterexample :
    ∃ o, trn_fs_traverse env_no_memory globals_root 0
        (path_of true (List.replicate 257 ['a'])) SIZE_MAX = some o ∧
      (∀ s ∈ List.replicate 257 ['a'], named s) ∧
      lookups_succeed o.x.run.trace ∧
      o.r = LIBTRANSISTOR_ERR_OUT_OF_MEMORY ∧
      o.r ≠ LIBTRANSISTOR_ERR_FS_PATH_TOO_DEEP ∧
      o.x.run.trace = [Event.lookup ⟨0, 0⟩ ['a'] RESULT_OK ⟨0, 100⟩, Event.malloc 2 false] ∧
      o.x.run.trace.countP Event.is_release ≠ o.x.run.trace.countP Event.is_lookup_ok := by
  obtain ⟨o, ho⟩ := trn_fs_traverse_total env_no_memory globals_root 0
    (path_of true (List.replicate 257 ['a'])) SIZE_MAX
  have h1 : (trn_fs_traverse env_no_memory globals_root 0
      (path_of true (List.replicate 257 ['a'])) SIZE_MAX).map (fun o => (o.r, o.x.run.trace))
      = some (LIBTRANSISTOR_ERR_OUT_OF_MEMORY,
          [Event.lookup ⟨0, 0⟩ ['a'] RESULT_OK ⟨0, 100⟩, Event.malloc 2 false]) := by decide
  rw [ho] at h1
  simp only [Option.map_some', Option.some.injEq, Prod.mk.injEq] at h1
  obtain ⟨hr, htr⟩ := h1
  refine ⟨o, ho, fun s hs => by rw [List.eq_of_mem_replicate hs]; exact named_a, ?_, hr,
    by rw [hr]; decide, htr, by rw [htr]; decide⟩
  intro d n r a hm
  rw [htr] at hm
  simp only [List.mem_cons, Event.lookup.injEq, reduceCtorEq, List.mem_singleton,
    List.not_mem_nil, or_false] at hm
  exact hm.2.2.1

set_option maxRecDepth 100000 in
/-- Example for C3: over `env_plain` the absolute path of 257 named segments `a`
fails with PATH_TOO_DEEP, with as many releases as successful lookups. -/
theorem C3_witness :
    ∃ o, trn_fs_traverse env_plain globals_root 0 (path_of true (List.replicate 257 ['a']))
        SIZE_MAX = some o ∧
      o.r = LIBTRANSISTOR_ERR_FS_PATH_TOO_DEEP ∧
      o.x.run.trace.countP Event.is_release = o.x.run.trace.countP Event.is_lookup_ok := by
  obtain ⟨o, ho, _, _, h3⟩ := C3_failure_releases_owned env_plain globals_root 0
    (path_of true (List.replicate 257 ['a'])) SIZE_MAX
  obtain ⟨hl, ha⟩ := env_plain_succeeds _ _ _ _ o ho
  exact ⟨o, ho, h3 (List.replicate 257 ['a']) rfl
    (fun s hs => by rw [List.eq_of_mem_replicate hs]; exact named_a)
    (by rw [List.length_replicate]; decide) (by decide) hl ha⟩

/-- Example for C4: the path `a` from the root, opened without `O_CREAT`. -/
theorem C4_witness :
    (0 : Nat) &&& O_CREAT = 0 ∧
    ∃ o, trn_fs_traverse env_plain globals_root 0 ['a'] SIZE_MAX = some o ∧
      o.r = RESULT_OK ∧
      (∃ ret, trn_fs_open env_plain globals_root 0 ['a'] 0 = some ret ∧ ret.G = globals_root ∧
        ret.run.trace = o.x.run.trace ++
          [Event.open_as_file (o.x.traverse o.x.traverse_recursion).inode 0 ret.r] ++
          release_events o.x.traverse o.x.borrowed_recursion o.x.traverse_recursion) := by
  refine ⟨by decide, ?_⟩
  obtain ⟨o, ho, h⟩ := C4_facade_releases_owned env_plain globals_root 0 ['a'] 0 none (by decide)
  have hr : o.r = RESULT_OK := by
    have h1 : (trn_fs_traverse env_plain globals_root 0 ['a'] SIZE_MAX).map (fun o => o.r)
        = some RESULT_OK := by decide
    rw [ho] at h1
    simpa using h1
  exact ⟨o, ho, hr, (h hr).2.2.1⟩

/-- Example for C5: `chdir("..")` from a working directory at depth 3 releases
the old entry 3 and leaves the depth at 2. -/
theorem C5_witness :
    ∃ o ret, trn_fs_traverse env_plain globals_depth3 0 ['.', '.'] SIZE_MAX = some o ∧
      trn_fs_chdir env_plain globals_depth3 0 ['.', '.'] = some ret ∧
      ret.r = RESULT_OK ∧ ret.G.cwd_recursion = 2 ∧
      ret.run.trace = [Event.release 3 ⟨0, 3⟩] := by
  obtain ⟨o, ret, ho, hc, h, _⟩ := C5_chdir_replaces_stack env_plain globals_depth3 0 ['.', '.']
  have h1 : (trn_fs_traverse env_plain globals_depth3 0 ['.', '.'] SIZE_MAX).map
      (fun o => (o.r, o.x.borrowed_recursion, o.x.traverse_recursion, o.x.run.trace))
      = some (RESULT_OK, 2, 2, []) := by decide
  rw [ho] at h1
  simp only [Option.map_some', Option.some.injEq, Prod.mk.injEq] at h1
  obtain ⟨hr, hb, ht, htr⟩ := h1
  obtain ⟨e1, e2, _, _, e5, _, _⟩ := h hr
  refine ⟨o, ret, ho, hc, e1, by rw [e5, ht], ?_⟩
  rw [e2, htr, hb]
  decide

/-- C6 as stated fails: over a backend whose lookups all succeed but whose `malloc`
returns NULL, the one-segment path `a` resolved from the root (`d = 0`,
`k = 1`) does not return OK but OUT_OF_MEMORY. -/
theorem C6_counterexample :
    ∃ o, trn_fs_traverse env_no_memory globals_root 0 (path_of false [['a']]) SIZE_MAX
        = some o ∧
      (∀ s ∈ [['a']], named s) ∧
      (∀ w d n, (env_no_memory.lookup w d n).2.1 = RESULT_OK) ∧
      lookups_succeed o.x.run.trace ∧
      o.x.run.trace = [Event.lookup ⟨0, 0⟩ ['a'] RESULT_OK ⟨0, 100⟩, Event.malloc 2 false] ∧
      o.r = LIBTRANSISTOR_ERR_OUT_OF_MEMORY ∧ o.r ≠ RESULT_OK := by
  obtain ⟨o, ho⟩ := trn_fs_traverse_total env_no_memory globals_root 0
    (path_of false [['a']]) SIZE_MAX
  have h1 : (trn_fs_traverse env_no_memory globals_root 0 (path_of false [['a']])
      SIZE_MAX).map (fun o => (o.r, o.x.run.trace))
      = some (LIBTRANSISTOR_ERR_OUT_OF_MEMORY,
          [Event.lookup ⟨0, 0⟩ ['a'] RESULT_OK ⟨0, 100⟩, Event.malloc 2 false]) := by decide
  rw [ho] at h1
  simp only [Option.map_some', Option.some.injEq, Prod.mk.injEq] at h1
  obtain ⟨hr, htr⟩ := h1
  refine ⟨o, ho, fun s hs => by rw [List.mem_singleton.1 hs]; exact named_a,
    fun _ _ _ => rfl, ?_, htr, hr, by rw [hr]; decide⟩
  intro d n r a hm
  rw [htr] at hm
  simp only [List.mem_cons, Event.lookup.injEq, reduceCtorEq, List.mem_singleton,
    List.not_mem_nil, or_false] at hm
  exact hm.2.2.1

/-- Example for C6: the path `a/b` from the root over `env_plain`. -/
theorem C6_witness :
    ∃ o, trn_fs_traverse env_plain globals_root 0 (path_of false [['a'], ['b']]) SIZE_MAX
        = some o ∧
      o.r = RESULT_OK ∧ o.x.borrowed_recursion = 0 ∧ o.x.traverse_recursion = 2 ∧
      names_stored o.x.traverse 0 [['a'], ['b']] ∧
      o.x.run.trace = lookup_calls o.x.traverse 0 [['a'], ['b']] := by
  obtain ⟨o, ho, h⟩ := C6_named_segments_resolved env_plain globals_root 0 false
    [['a'], ['b']] SIZE_MAX (by decide)
    (fun s hs => by
      simp only [List.mem_cons, List.mem_singleton, List.not_mem_nil, or_false] at hs
      rcases hs with rfl | rfl
      · exact named_a
      · exact ⟨by decide, by decide, by decide, by decide⟩)
    (by decide) (by decide)
  obtain ⟨hl, ha⟩ := env_plain_succeeds _ _ _ _ o ho
  obtain ⟨h1, h2, h3, _, h5, h6⟩ := h hl ha
  exact ⟨o, ho, h1, h2, h3, h5, h6⟩

/-- Example for C7: `../..` from depth 3 yields 1 and 1, without any call. -/
theorem C7_witness :
    ∃ o, trn_fs_traverse env_plain globals_depth3 0 ['.', '.', '/', '.', '.'] SIZE_MAX = some o ∧
      o.r = RESULT_OK ∧ o.x.traverse_recursion = 1 ∧ o.x.borrowed_recursion = 1 ∧
      o.x.run.trace = [] ∧ o.x.run.w = 0 :=
  C7_dotdot_lockstep env_plain globals_depth3 0 2 SIZE_MAX (by decide) (by decide)

/-- Example for C8: the path `////` from a working directory at depth 3. -/
theorem C8_witness :
    ∃ o, trn_fs_traverse env_plain globals_depth3 0 ['/', '/', '/', '/'] SIZE_MAX = some o ∧
      o.r = RESULT_OK ∧ o.x.traverse_recursion = 0 ∧ o.x.borrowed_recursion = 0 ∧
      (∀ i, 0 ≤ i → i ≤ 0 → o.x.traverse i = globals_depth3.cwd i) ∧
      o.x.run.trace = [] ∧ o.x.run.w = 0 :=
  C8_no_segment_path env_plain globals_depth3 0 4 SIZE_MAX (by decide) (by decide)

/-- Example for C9: the path `a//./b/`, whose normal form is `a/b`. -/
theorem C9_witness :
    without_dots ['a', '/', '/', '.', '/', 'b', '/'] = ['a', '/', 'b'] ∧
    trn_fs_traverse env_plain globals_root 0
        (without_dots ['a', '/', '/', '.', '/', 'b', '/']) SIZE_MAX
      = trn_fs_traverse env_plain globals_root 0 ['a', '/', '/', '.', '/', 'b', '/'] SIZE_MAX :=
  ⟨by decide,
    (C9_dot_and_empty_segments env_plain globals_root 0 ['a', '/', '/', '.', '/', 'b', '/']
      SIZE_MAX (by decide)).1⟩

/-- C14: `trn_fs_set_root(new_root)` returns OK; afterwards the root is `new_root`,
the working-directory depth is 0 and stack entry 0 holds the inode of
`new_root` with the empty name; its only call is the release of the previous
root, made once, when one was installed, and it makes no call when none
was. -/
theorem C14_set_root_installs {σ : Type} (E : Env σ) (G : Globals) (w : σ)
    (new_root : trn_inode_t) :
    (trn_fs_set_root E G w new_root).r = RESULT_OK ∧
    (trn_fs_set_root E G w new_root).G.root = some new_root ∧
    (trn_fs_set_root E G w new_root).G.cwd_recursion = 0 ∧
    (trn_fs_set_root E G w new_root).G.cwd 0 = ⟨new_root, []⟩ ∧
    (∀ old, G.root = some old →
      (trn_fs_set_root E G w new_root).run.trace = [Event.release 0 old] ∧
      (trn_fs_set_root E G w new_root).run.w = E.release w old) ∧
    (G.root = none →
      (trn_fs_set_root E G w new_root).run.trace = [] ∧
      (trn_fs_set_root E G w new_root).run.w = w) := by
  refine ⟨rfl, rfl, rfl, by simp [trn_fs_set_root], ?_, ?_⟩
  · intro old h
    simp [trn_fs_set_root, h, Run.release]
  · intro h
    simp [trn_fs_set_root, h]

/-- Example for C14: a second `trn_fs_set_root` releases the first root once. -/
theorem C14_witness :
    (trn_fs_set_root env_plain globals_root 0 ⟨0, 7⟩).G.root = some ⟨0, 7⟩ ∧
    (trn_fs_set_root env_plain globals_root 0 ⟨0, 7⟩).run.trace = [Event.release 0 ⟨0, 0⟩] ∧
    (trn_fs_set_root env_plain globals_initial 0 ⟨0, 7⟩).run.trace = [] :=
  ⟨(C14_set_root_installs env_plain globals_root 0 ⟨0, 7⟩).2.1,
    ((C14_set_root_installs env_plain globals_root 0 ⟨0, 7⟩).2.2.2.2.1 ⟨0, 0⟩ rfl).1,
    ((C14_set_root_installs env_plain globals_initial 0 ⟨0, 7⟩).2.2.2.2.2 rfl).1⟩

/-- C15: when the traversal of `path` succeeds, `trn_fs_stat` returns the result of
`is_dir` on the terminal inode unchanged: OK when `is_dir` succeeds, with
`st_mode` set to `S_IFDIR` when it reports a directory and to `S_IFREG` when
it reports a non-directory, and the error of `is_dir` when it fails. -/
theorem C15_stat_reports_kind {σ : Type} (E : Env σ) (G : Globals) (w : σ)
    (path : List Char) :
    ∃ o, trn_fs_traverse E G w path SIZE_MAX = some o ∧
      (o.r = RESULT_OK →
        ∃ ret, trn_fs_stat E G w path = some ret ∧
          ret.r = (E.is_dir o.x.run.w (o.x.traverse o.x.traverse_recursion).inode).2.1 ∧
          Event.is_dir (o.x.traverse o.x.traverse_recursion).inode ret.r
            (E.is_dir o.x.run.w (o.x.traverse o.x.traverse_recursion).inode).2.2 ∈ ret.run.trace ∧
          (ret.r = RESULT_OK →
            ((E.is_dir o.x.run.w (o.x.traverse o.x.traverse_recursion).inode).2.2 = true →
              ret.out = some S_IFDIR) ∧
            ((E.is_dir o.x.run.w (o.x.traverse o.x.traverse_recursion).inode).2.2 = false →
              ret.out = some S_IFREG)) ∧
          S_IFDIR ≠ S_IFREG) := by
  obtain ⟨o, ho⟩ := trn_fs_traverse_total E G w path SIZE_MAX
  refine ⟨o, ho, fun hr => ?_⟩
  unfold trn_fs_stat
  rw [ho]
  simp only [hr, ne_eq, not_true_eq_false, if_false]
  refine ⟨_, rfl, rfl, ?_, ?_, by decide⟩
  · simp [release_range_trace]
  · intro _
    constructor
    · intro h; simp [h]
    · intro h; simp [h]

/-- Example for C15: over `env_plain` the path `a` is reported as a directory. -/
theorem C15_witness :
    ∃ ret, trn_fs_stat env_plain globals_root 0 ['a'] = some ret ∧
      ret.r = RESULT_OK ∧ ret.out = some S_IFDIR := by
  obtain ⟨o, ho, h⟩ := C15_stat_reports_kind env_plain globals_root 0 ['a']
  have hr : o.r = RESULT_OK := by
    have h1 : (trn_fs_traverse env_plain globals_root 0 ['a'] SIZE_MAX).map (fun o => o.r)
        = some RESULT_OK := by decide
    rw [ho] at h1
    simpa using h1
  obtain ⟨ret, h1, h2, _, h4, _⟩ := h hr
  have h5 : ret.r = RESULT_OK := by rw [h2]; rfl
  exact ⟨ret, h1, h5, (h4 h5).1 rfl⟩

/-- C16: `trn_fs_mount` returns INTERNAL_ERROR without calling the mount mechanism
of the root exactly when no root is installed; when a root is installed its
only call is the mount mechanism, with that root, the mount name and the
inode, and it returns the result of that call. -/
theorem C16_mount_needs_root {σ : Type} (E : Env σ) (G : Globals) (w : σ)
    (mount_name : List Char) (mount : trn_inode_t) :
    (((trn_fs_mount E G w mount_name mount).r = LIBTRANSISTOR_ERR_FS_INTERNAL_ERROR ∧
        (trn_fs_mount E G w mount_name mount).run.trace = []) ↔ G.root = none) ∧
    (∀ root, G.root = some root →
      (trn_fs_mount E G w mount_name mount).r = (E.mount_fs w root mount_name mount).2 ∧
      (trn_fs_mount E G w mount_name mount).run.trace =
        [Event.mount_fs root mount_name mount (E.mount_fs w root mount_name mount).2] ∧
      (trn_fs_mount E G w mount_name mount).run.w = (E.mount_fs w root mount_name mount).1 ∧
      (trn_fs_mount E G w mount_name mount).G = G) := by
  constructor
  · constructor
    · rintro ⟨_, h⟩
      cases hroot : G.root with
      | none => rfl
      | some root => simp [trn_fs_mount, hroot] at h
    · intro h
      simp [trn_fs_mount, h]
  · intro root h
    simp [trn_fs_mount, h]

/-- Example for C16: with a root installed the mount mechanism is called; without,
the result is INTERNAL_ERROR and nothing is called. -/
theorem C16_witness :
    (trn_fs_mount env_plain globals_root 0 ['m'] ⟨1, 1⟩).r = RESULT_OK ∧
    (trn_fs_mount env_plain globals_root 0 ['m'] ⟨1, 1⟩).run.trace
      = [Event.mount_fs ⟨0, 0⟩ ['m'] ⟨1, 1⟩ RESULT_OK] ∧
    (trn_fs_mount env_plain globals_initial 0 ['m'] ⟨1, 1⟩).r
      = LIBTRANSISTOR_ERR_FS_INTERNAL_ERROR ∧
    (trn_fs_mount env_plain globals_initial 0 ['m'] ⟨1, 1⟩).run.trace = [] :=
  ⟨((C16_mount_needs_root env_plain globals_root 0 ['m'] ⟨1, 1⟩).2 ⟨0, 0⟩ rfl).1,
    ((C16_mount_needs_root env_plain globals_root 0 ['m'] ⟨1, 1⟩).2 ⟨0, 0⟩ rfl).2.1,
    ((C16_mount_needs_root env_plain globals_initial 0 ['m'] ⟨1, 1⟩).1.2 rfl).1,
    ((C16_mount_needs_root env_plain globals_initial 0 ['m'] ⟨1, 1⟩).1.2 rfl).2⟩

theorem foldl_add_sum (f : Nat → Nat) (l : List Nat) (a : Nat) :
    l.foldl (fun acc i => acc + f i) a = a + (l.map f).sum := by
  induction l generalizing a with
  | nil => simp
  | cons i l ih => simp only [List.foldl_cons, ih, List.map_cons, List.sum_cons]; omega

theorem realpath_size_eq (traverse : Int → trn_traverse_t) (t : Int) :
    realpath_size traverse t = ((record_names traverse t).map (fun n => n.length + 1)).sum := by
  unfold realpath_size record_names
  rw [foldl_add_sum (fun i => (traverse (i : Int)).name.length + 1), List.map_map]
  simp only [Nat.zero_add]
  rfl

theorem foldl_append_flatten (g : Nat → List Char) (l : List Nat) (a : List Char) :
    l.foldl (fun buf i => buf ++ g i ++ ['/']) a
      = a ++ (l.map (fun i => g i ++ ['/'])).flatten := by
  induction l generalizing a with
  | nil => simp
  | cons i l ih =>
    simp only [List.foldl_cons, List.map_cons, List.flatten_cons]
    rw [ih]
    simp only [List.append_assoc]

theorem dropLast_slashed (names : List (List Char)) :
    ((names.map (fun n => n ++ ['/'])).flatten).dropLast = List.intercalate ['/'] names := by
  induction names with
  | nil => rfl
  | cons x rest ih =>
    cases rest with
    | nil =>
      simp only [List.map_cons, List.map_nil, List.flatten_cons, List.flatten_nil,
        List.append_nil, intercalate_single]
      exact List.dropLast_concat
    | cons y rest =>
      rw [intercalate_cons_cons, ← ih]
      simp only [List.map_cons, List.flatten_cons, List.append_assoc]
      rw [List.dropLast_append_of_ne_nil _ (by simp), List.singleton_append,
        List.singleton_append, List.dropLast_cons_of_ne_nil (by simp)]
      simp

/-- The string built by the copy loop of `trn_fs_realpath` is the names of the
entries joined by `/`. -/
theorem realpath_copy_eq (traverse : Int → trn_traverse_t) (t : Int) :
    realpath_copy traverse t = List.intercalate ['/'] (record_names traverse t) := by
  unfold realpath_copy record_names
  rw [foldl_append_flatten (fun i => (traverse (i : Int)).name), List.nil_append,
    ← dropLast_slashed, List.map_map]
  rfl

/-- C13: on every successful traversal, with `n0 .. nk` the names of the entries
`0 .. traverse_recursion` of the record, `trn_fs_realpath` agrees with the
reference definition: it returns NAME_TOO_LONG (leaving `*resolved_path` as it
was) when the sum of the `length(n_i) + 1` exceeds 256, and otherwise, the
allocation succeeding or the caller providing the buffer, OK with the string
`n0 ++ "/" ++ n1 ++ ... ++ nk`; when that allocation fails it returns
OUT_OF_MEMORY. -/
theorem C13_realpath_reference {σ : Type} (E : Env σ) (G : Globals) (w : σ)
    (path : List Char) (resolved_path : Option (List Char)) :
    ∃ o, trn_fs_traverse E G w path SIZE_MAX = some o ∧
      (o.r = RESULT_OK →
        ∃ ret, trn_fs_realpath E G w path resolved_path = some ret ∧
          (∀ e, realpath_reference (record_names o.x.traverse o.x.traverse_recursion)
              = Except.error e →
            ret.r = e ∧ e = LIBTRANSISTOR_ERR_FS_NAME_TOO_LONG ∧ ret.out = resolved_path) ∧
          (∀ s, realpath_reference (record_names o.x.traverse o.x.traverse_recursion)
              = Except.ok s →
            ((resolved_path = none →
                (E.malloc o.x.run.w
                  (((record_names o.x.traverse o.x.traverse_recursion).map
                    (fun n => n.length + 1)).sum)).2 = true) →
              ret.r = RESULT_OK ∧ ret.out = some s) ∧
            ((resolved_path = none ∧
                (E.malloc o.x.run.w
                  (((record_names o.x.traverse o.x.traverse_recursion).map
                    (fun n => n.length + 1)).sum)).2 = false) →
              ret.r = LIBTRANSISTOR_ERR_OUT_OF_MEMORY))) := by
  obtain ⟨o, ho⟩ := trn_fs_traverse_total E G w path SIZE_MAX
  refine ⟨o, ho, fun hr => ?_⟩
  unfold trn_fs_realpath realpath_reference
  rw [ho]
  simp only [hr, ne_eq, not_true_eq_false, if_false, realpath_size_eq, realpath_copy_eq]
  by_cases hbig : ((record_names o.x.traverse o.x.traverse_recursion).map
      (fun n => n.length + 1)).sum > 256
  · simp only [hbig, if_true]
    refine ⟨_, rfl, ?_, ?_⟩
    · intro e he
      cases he
      exact ⟨rfl, rfl, rfl⟩
    · intro s hs
      cases hs
  · simp only [hbig, if_false]
    cases resolved_path with
    | none =>
      simp only
      split_ifs with hm
      · refine ⟨_, rfl, ?_, ?_⟩
        · intro e he; cases he
        · intro s hs
          refine ⟨fun h => ?_, fun _ => rfl⟩
          have h2 := h trivial
          rw [hm] at h2
          cases h2
      · refine ⟨_, rfl, ?_, ?_⟩
        · intro e he; cases he
        · intro s hs
          cases hs
          exact ⟨fun _ => ⟨rfl, rfl⟩, fun h => absurd h.2 hm⟩
    | some buf =>
      simp only
      refine ⟨_, rfl, ?_, ?_⟩
      · intro e he; cases he
      · intro s hs
        cases hs
        exact ⟨fun _ => ⟨rfl, rfl⟩, fun h => by cases h.1⟩

/-- Example for C13: from a working directory at depth 3, `realpath("..")` is
`/d/d`; the names of the entries are the empty name of the root and `d`
twice. -/
theorem C13_witness :
    ∃ o, trn_fs_traverse env_plain globals_depth3 0 ['.', '.'] SIZE_MAX = some o ∧
      record_names o.x.traverse o.x.traverse_recursion = [[], ['d'], ['d']] ∧
      ∃ ret, trn_fs_realpath env_plain globals_depth3 0 ['.', '.'] none = some ret ∧
        ret.r = RESULT_OK ∧ ret.out = some ['/', 'd', '/', 'd'] := by
  obtain ⟨o, ho, h⟩ := C13_realpath_reference env_plain globals_depth3 0 ['.', '.'] none
  have h1 : (trn_fs_traverse env_plain globals_depth3 0 ['.', '.'] SIZE_MAX).map
      (fun o => (o.r, record_names o.x.traverse o.x.traverse_recursion))
      = some (RESULT_OK, [[], ['d'], ['d']]) := by decide
  rw [ho] at h1
  simp only [Option.map_some', Option.some.injEq, Prod.mk.injEq] at h1
  obtain ⟨hr, hn⟩ := h1
  obtain ⟨ret, e1, _, e3⟩ := h hr
  have := (e3 ['/', 'd', '/', 'd'] (by rw [hn]; rfl)).1 (fun _ => rfl)
  exact ⟨o, ho, hn, ret, e1, this⟩

/-- C17, amended: on a named segment `trn_fs_traverse` fails with PATH_TOO_DEEP,
without any call and leaving the record as it is, exactly when
`traverse_recursion + 1 >= MAX_RECURSION` (so at `traverse_recursion = 255`),
and otherwise calls lookup on the inode at `traverse_recursion` with the bytes
of the segment. -/
theorem C17_depth_check {σ : Type} (E : Env σ) (s : List Char) (x : Rec σ) (hn : named s) :
    (trn_fs_traverse_segment E s s.length x = Step.fail LIBTRANSISTOR_ERR_FS_PATH_TOO_DEEP x
      ↔ MAX_RECURSION ≤ x.traverse_recursion + 1) ∧
    (x.traverse_recursion + 1 < MAX_RECURSION →
      ∃ ok, (trn_fs_traverse_segment E s s.length x).record.run.trace = x.run.trace ++
        [Event.lookup (x.traverse x.traverse_recursion).inode s
            (E.lookup x.run.w (x.traverse x.traverse_recursion).inode s).2.1
            (E.lookup x.run.w (x.traverse x.traverse_recursion).inode s).2.2,
          Event.malloc (s.length + 1) ok]) := by
  have key : x.traverse_recursion + 1 < MAX_RECURSION →
      ∃ ok, (trn_fs_traverse_segment E s s.length x).record.run.trace = x.run.trace ++
        [Event.lookup (x.traverse x.traverse_recursion).inode s
            (E.lookup x.run.w (x.traverse x.traverse_recursion).inode s).2.1
            (E.lookup x.run.w (x.traverse x.traverse_recursion).inode s).2.2,
          Event.malloc (s.length + 1) ok] := by
    intro h
    rw [segment_named E s x hn]
    have c1 : ¬ x.traverse_recursion + 1 ≥ MAX_RECURSION := by omega
    simp only [c1, if_false]
    split_ifs <;> exact ⟨_, rfl⟩
  refine ⟨⟨?_, ?_⟩, key⟩
  · intro h
    by_contra hc
    obtain ⟨ok, hk⟩ := key (by omega)
    rw [h] at hk
    simp only [Step.record] at hk
    have := congrArg List.length hk
    simp at this
  · intro h
    rw [segment_named E s x hn]
    have c1 : x.traverse_recursion + 1 ≥ MAX_RECURSION := h
    simp only [c1, if_true]

/-- Example for C17: at depth 254 the segment `a` is looked up. -/
theorem C17_witness :
    ∃ ok, (trn_fs_traverse_segment env_plain ['a'] 1
        ⟨fun _ => uninit, 0, 254, ⟨0, []⟩⟩).record.run.trace =
      [Event.lookup ⟨0, 0⟩ ['a'] RESULT_OK ⟨0, 100⟩, Event.malloc 2 ok] :=
  (C17_depth_check env_plain ['a'] ⟨fun _ => uninit, 0, 254, ⟨0, []⟩⟩ named_a).2 (by decide)

/-- C17 as stated fails: from a working directory at depth 255 the named segment
`a`, met at `traverse_recursion = 255`, is not looked up: the traversal
fails with PATH_TOO_DEEP without any call. -/
theorem C17_counterexample :
    named ['a'] ∧ globals_depth255.cwd_recursion = 255 ∧
    (trn_fs_traverse env_plain globals_depth255 0 ['a'] SIZE_MAX).map
        (fun o => (o.r, o.x.traverse_recursion, o.x.run.trace))
      = some (LIBTRANSISTOR_ERR_FS_PATH_TOO_DEEP, 255, []) :=
  ⟨named_a, rfl, by decide⟩

/-- After the failure of the allocation of a name that follows a successful lookup,
the traversal returns OUT_OF_MEMORY and the handle that lookup returned is
still held: the `fail:` loop does not release it. -/
theorem traverse_name_failure_leaks {σ : Type} (E : Env σ) (G : Globals) (w : σ)
    (path : List Char) (max_len : Nat) (o : Out σ)
    (h : trn_fs_traverse E G w path max_len = some o)
    (hl : lookups_succeed o.x.run.trace) (hm : ∃ k, Event.malloc k false ∈ o.x.run.trace) :
    o.r = LIBTRANSISTOR_ERR_OUT_OF_MEMORY ∧
    ∃ a, outstanding o.x.run.trace 0 = some {a} ∧
      ∃ d n, Event.lookup d n RESULT_OK a ∈ o.x.run.trace := by
  obtain ⟨k, hk⟩ := hm
  rcases traverse_spec E G w path max_len o h with ⟨hr, hbt, hout, _, hml, hrl⟩ |
    ⟨x, ⟨hne, hx⟩, ht, hb, htr, htrace⟩
  · have := hml k false hk
    cases this
  · rcases hx with ⟨hr, hbt, hout, hlk, hml, hrl⟩ |
      ⟨x0, name, rl, a, n, ok, ⟨hbt, hout, hlk, hml, hrl⟩, hb0, ht0, htrav, htr0, hcase⟩
    · exfalso
      rw [htrace, List.mem_append] at hk
      rcases hk with hk | hk
      · have := hml k false hk
        cases this
      · obtain ⟨_, _, he⟩ := release_events_only _ _ _ _ hk
        cases he
    · have hmemL : Event.lookup (x0.traverse x0.traverse_recursion).inode name rl a
          ∈ o.x.run.trace := by
        rw [htrace, htr0]; simp
      have hrl0 : rl = RESULT_OK := hl _ _ _ _ hmemL
      have hok : ok = false := by
        rw [htrace, htr0] at hk
        simp only [List.mem_append, List.mem_cons, List.mem_singleton, List.not_mem_nil,
          or_false, reduceCtorEq, false_or] at hk
        rcases hk with (hk | hk) | hk
        · have := hml k false hk
          cases this
        · cases hk; rfl
        · obtain ⟨_, _, he⟩ := release_events_only _ _ _ _ hk
          cases he
      have hro : o.r = LIBTRANSISTOR_ERR_OUT_OF_MEMORY := by
        rcases hcase with ⟨_, hro⟩ | ⟨hok2, _, _⟩
        · exact hro
        · rw [hok] at hok2; cases hok2
      have hown : owned_range x.traverse x.borrowed_recursion x.traverse_recursion = owned x0 := by
        rw [hb0, ht0]
        exact owned_range_congr _ _ _ _ (fun i _ hi => htrav i hi)
      refine ⟨hro, a, ?_, _, _, hrl0 ▸ hmemL⟩
      rw [htrace, htr0, outstanding_append, outstanding_append, hout, Option.some_bind,
        outstanding_lookup_malloc, Option.some_bind, ← hown, hrl0]
      simp only [if_true]
      exact outstanding_release_events _ _ _ _

/-- C18 (the code departs from the claim): whenever the allocation of a name fails
in a traversal whose lookups all succeeded, `trn_fs_traverse` returns
OUT_OF_MEMORY but the handle returned by the last lookup is still held on
return, never released. For the path `a` from the root over a backend whose
`malloc` returns NULL: one successful lookup, no release. -/
theorem C18_name_failure_leaks_handle :
    (∀ (σ : Type) (E : Env σ) (G : Globals) (w : σ) (path : List Char) (max_len : Nat)
        (o : Out σ),
      trn_fs_traverse E G w path max_len = some o →
      lookups_succeed o.x.run.trace →
      (∃ k, Event.malloc k false ∈ o.x.run.trace) →
      o.r = LIBTRANSISTOR_ERR_OUT_OF_MEMORY ∧
      ∃ a, outstanding o.x.run.trace 0 = some {a} ∧
        ∃ d n, Event.lookup d n RESULT_OK a ∈ o.x.run.trace) ∧
    (trn_fs_traverse env_no_memory globals_root 0 ['a'] SIZE_MAX).map
        (fun o => (o.r, o.x.run.trace, outstanding o.x.run.trace 0))
      = some (LIBTRANSISTOR_ERR_OUT_OF_MEMORY,
          [Event.lookup ⟨0, 0⟩ ['a'] RESULT_OK ⟨0, 100⟩, Event.malloc 2 false],
          some {⟨0, 100⟩}) :=
  ⟨fun _ E G w path max_len o h hl hm =>
      traverse_name_failure_leaks E G w path max_len o h hl hm,
    by decide⟩

theorem strrchr_none (path : List Char) (c : Char) (h : c ∉ path) : strrchr path c = none := by
  induction path with
  | nil => rfl
  | cons x rest ih =>
    have hx : x ≠ c := fun e => h (by simp [e])
    have hr : c ∉ rest := fun e => h (List.mem_cons_of_mem _ e)
    simp [strrchr, ih hr, hx]

/-- A traversal calls `create_file` on no inode. -/
theorem traverse_no_create {σ : Type} (E : Env σ) (G : Globals) (w : σ) (path : List Char)
    (max_len : Nat) (o : Out σ) (h : trn_fs_traverse E G w path max_len = some o) :
    ∀ e ∈ o.x.run.trace, e.is_create_file = false := by
  let P : Rec σ → Prop := fun x => ∀ e ∈ x.run.trace, e.is_create_file = false
  have key : ∀ seg n (x : Rec σ), P x → P (trn_fs_traverse_segment E seg n x).record := by
    intro seg n x hx e he
    rcases segment_calls E seg n x e he with h1 | ⟨_, _, h1⟩ | ⟨_, _, _, h1⟩ | ⟨_, _, h1⟩
    · exact hx e h1
    · rw [h1]; rfl
    · rw [h1]; rfl
    · rw [h1]; rfl
  unfold trn_fs_traverse at h
  cases hl : trn_fs_traverse_loop E (path.length + 1) (traverse_start G w path max_len) with
  | none => rw [hl] at h; cases h
  | some e =>
    rw [hl] at h
    simp only [Option.map_some', Option.some.injEq] at h
    subst h
    have := loop_inv E P (fun _ x => P x)
      (fun seg n x x1 hx he => by have := key seg n x hx; rwa [he] at this)
      (fun seg n x r x1 hx he => by have := key seg n x hx; rwa [he] at this)
      _ _ e (fun e he => by simp [traverse_start] at he) hl
    cases e with
    | cont x => exact this
    | fail r x =>
      intro e he
      simp only [traverse_exit, release_range_trace] at he
      rcases List.mem_append.1 he with he | he
      · exact this e he
      · obtain ⟨_, _, h1⟩ := release_events_only _ _ _ _ he
        rw [h1]; rfl

/-- C19 (the code departs from the claim): for every path without `/`,
`trn_fs_open` with `O_CREAT` goes straight to the full traversal and
`open_as_file`: it calls `create_file` on no inode. For `open("f", O_CREAT)`
from the root the calls are the lookup of `f`, the allocation of its name,
`open_as_file` and the release. -/
theorem C19_no_create_without_slash :
    (∀ (σ : Type) (E : Env σ) (G : Globals) (w : σ) (path : List Char) (flags : Nat),
      '/' ∉ path → flags &&& O_CREAT ≠ 0 →
      trn_fs_open E G w path flags = trn_fs_open_resolve E G ⟨w, []⟩ path flags ∧
      ∃ ret, trn_fs_open E G w path flags = some ret ∧
        ∀ e ∈ ret.run.trace, e.is_create_file = false) ∧
    (trn_fs_open env_plain globals_root 0 ['f'] O_CREAT).map (fun ret => (ret.r, ret.run.trace))
      = some (RESULT_OK,
          [Event.lookup ⟨0, 0⟩ ['f'] RESULT_OK ⟨0, 100⟩, Event.malloc 2 true,
            Event.open_as_file ⟨0, 100⟩ O_CREAT RESULT_OK, Event.release 1 ⟨0, 100⟩]) := by
  constructor
  · intro σ E G w path flags hp hf
    have hopen : trn_fs_open E G w path flags = trn_fs_open_resolve E G ⟨w, []⟩ path flags := by
      unfold trn_fs_open
      rw [if_pos hf, strrchr_none path '/' hp]
    refine ⟨hopen, ?_⟩
    rw [hopen]
    unfold trn_fs_open_resolve
    rw [traverse_from_nil]
    obtain ⟨o, ho⟩ := trn_fs_traverse_total E G w path SIZE_MAX
    have hnc := traverse_no_create E G w path SIZE_MAX o ho
    rw [ho]
    simp only
    split_ifs with hr
    · exact ⟨_, rfl, hnc⟩
    · refine ⟨_, rfl, ?_⟩
      intro e he
      simp only [release_range_trace, List.mem_append, List.mem_singleton] at he
      rcases he with (he | he) | he
      · exact hnc e he
      · rw [he]; rfl
      · obtain ⟨_, _, h1⟩ := release_events_only _ _ _ _ he
        rw [h1]; rfl
  · decide

/-- C11 (the code departs from the claim): `open("/missing/file", O_CREAT)` over
an empty file system. The traversal bounded by the length of `/missing`
stops at the root before `missing` is looked up, so `create_file` is called
for `file` on the root; only then does the full traversal fail with
NOT_FOUND, which is returned. No handle was acquired. -/
theorem C11_create_called_without_parent :
    strrchr ['/', 'm', 'i', 's', 's', 'i', 'n', 'g', '/', 'f', 'i', 'l', 'e'] '/' = some 8 ∧
    (trn_fs_traverse env_empty globals_root 0
        ['/', 'm', 'i', 's', 's', 'i', 'n', 'g', '/', 'f', 'i', 'l', 'e'] 8).map
        (fun o => (o.r, o.x.traverse_recursion, o.x.run.trace))
      = some (RESULT_OK, 0, []) ∧
    (trn_fs_open env_empty globals_root 0
        ['/', 'm', 'i', 's', 's', 'i', 'n', 'g', '/', 'f', 'i', 'l', 'e'] O_CREAT).map
        (fun ret => (ret.r, ret.run.trace))
      = some (LIBTRANSISTOR_ERR_FS_NOT_FOUND,
          [Event.create_file ⟨0, 0⟩ ['f', 'i', 'l', 'e'] RESULT_OK,
            Event.lookup ⟨0, 0⟩ ['m', 'i', 's', 's', 'i', 'n', 'g']
              LIBTRANSISTOR_ERR_FS_NOT_FOUND ⟨0, 0⟩,
            Event.malloc 8 true]) :=
  ⟨by decide, by decide, by decide⟩

theorem record_names_length (tr : Int → trn_traverse_t) (t : Int) :
    (record_names tr t).length = (t + 1).toNat := by
  simp [record_names]

theorem record_names_pop (tr : Int → trn_traverse_t) (t : Int) (h : 0 < t) :
    record_names tr (t - 1) = (record_names tr t).dropLast := by
  unfold record_names
  have e : (t + 1).toNat = (t - 1 + 1).toNat + 1 := by omega
  rw [e, List.range_succ, List.map_append, List.map_singleton, List.dropLast_concat]

theorem record_names_push (tr : Int → trn_traverse_t) (t : Int) (e : trn_traverse_t)
    (h : 0 ≤ t) :
    record_names (Function.update tr (t + 1) e) (t + 1) = record_names tr t ++ [e.name] := by
  unfold record_names
  have e1 : (t + 1 + 1).toNat = (t + 1).toNat + 1 := by omega
  rw [e1, List.range_succ, List.map_append, List.map_singleton]
  congr 1
  · apply List.map_congr_left
    intro k hk
    rw [List.mem_range] at hk
    rw [Function.update_noteq]
    omega
  · have : (((t + 1).toNat : Nat) : Int) = t + 1 := by omega
    rw [this, Function.update_same]

theorem record_names_congr (tr1 tr2 : Int → trn_traverse_t) (t : Int)
    (h : ∀ i, 0 ≤ i → i ≤ t → tr1 i = tr2 i) : record_names tr1 t = record_names tr2 t := by
  unfold record_names
  apply List.map_congr_left
  intro k hk
  rw [List.mem_range] at hk
  rw [h] <;> omega

/-- The treatment of a segment `..` always goes on, with the same entries and one
level up unless at the root. -/
theorem segment_dotdot_cont {σ : Type} (E : Env σ) (x : Rec σ) :
    ∃ x1, trn_fs_traverse_segment E ['.', '.'] 2 x = Step.cont x1 ∧
      x1.traverse = x.traverse ∧
      x1.traverse_recursion = (if x.traverse_recursion > 0 then x.traverse_recursion - 1
        else x.traverse_recursion) := by
  unfold trn_fs_traverse_segment strncmp
  by_cases ht : x.traverse_recursion > 0
  · by_cases hb : x.traverse_recursion > x.borrowed_recursion
    · exact ⟨⟨x.traverse, x.borrowed_recursion, x.traverse_recursion - 1,
          Run.release E x.run x.traverse_recursion (x.traverse x.traverse_recursion).inode⟩,
        by simp only [ht, hb, and_self, if_true, List.take], rfl, by simp [ht]⟩
    · exact ⟨⟨x.traverse, x.borrowed_recursion - 1, x.traverse_recursion - 1, x.run⟩,
        by simp only [ht, hb, and_self, if_true, if_false, List.take], rfl, by simp [ht]⟩
  · exact ⟨x, by simp only [ht, and_self, if_true, if_false, List.take], rfl, by simp [ht]⟩

/-- Segments whose lookups and allocations succeed within the depth bound are all
treated, and the names of the entries are then the canonical segments. -/
theorem run_canonical {σ : Type} (E : Env σ) (segs : List (List Char)) (x : Rec σ)
    (root_name : List Char) (stack : List (List Char))
    (hgood : ∀ s ∈ segs, s ≠ [] ∧ '/' ∉ s) (h0 : 0 ≤ x.traverse_recursion)
    (hnames : record_names x.traverse x.traverse_recursion = root_name :: stack)
    (hdepth : depth_within_bound segs stack.length)
    (hl : lookups_succeed (run_segments E segs x).record.run.trace)
    (ha : allocations_succeed (run_segments E segs x).record.run.trace) :
    ∃ x1, run_segments E segs x = Step.cont x1 ∧ 0 ≤ x1.traverse_recursion ∧
      record_names x1.traverse x1.traverse_recursion
        = root_name :: canonical_segments segs stack := by
  induction segs generalizing x stack with
  | nil => exact ⟨x, rfl, h0, hnames⟩
  | cons s rest ih =>
    have hlen : stack.length = x.traverse_recursion.toNat := by
      have := congrArg List.length hnames
      rw [record_names_length, List.length_cons] at this
      omega
    have hrest : ∀ s ∈ rest, s ≠ [] ∧ '/' ∉ s := fun s hs => hgood s (List.mem_cons_of_mem _ hs)
    rw [run_segments_cons] at hl ha ⊢
    by_cases hdd : s = ['.', '.']
    · subst hdd
      simp only [depth_within_bound, if_true] at hdepth
      simp only [canonical_segments, if_true, List.length_cons, List.length_nil, Nat.zero_add]
      simp only [List.length_cons, List.length_nil, Nat.zero_add] at hl ha
      obtain ⟨x1, h1, h2, h3⟩ := segment_dotdot_cont E x
      rw [h1] at hl ha ⊢
      simp only at hl ha ⊢
      by_cases ht : x.traverse_recursion > 0
      · rw [if_pos ht] at h3
        refine ih x1 stack.dropLast hrest (by omega) ?_ ?_ hl ha
        · rw [h2, h3, record_names_pop _ _ ht, hnames]
          have hne : stack ≠ [] := by
            intro e; rw [e] at hlen; simp at hlen; omega
          rw [List.dropLast_cons_of_ne_nil hne]
        · rw [List.length_dropLast]; exact hdepth
      · rw [if_neg ht] at h3
        have hnil : stack = [] := by
          apply List.eq_nil_of_length_eq_zero; omega
        subst hnil
        refine ih x1 [] hrest (by omega) ?_ ?_ hl ha
        · rw [h2, h3, hnames]
        · exact hdepth
    · by_cases hd : s = ['.']
      · subst hd
        simp only [depth_within_bound, hdd, if_false, if_true] at hdepth
        simp only [canonical_segments, hdd, if_false, if_true, List.length_cons,
          List.length_nil, Nat.zero_add]
        simp only [List.length_cons, List.length_nil, Nat.zero_add] at hl ha
        rw [segment_dot] at hl ha ⊢
        exact ih x stack hrest h0 hnames hdepth hl ha
      · have hn : named s := ⟨(hgood s (List.mem_cons_self _ _)).1,
          (hgood s (List.mem_cons_self _ _)).2, hd, hdd⟩
        simp only [depth_within_bound, hdd, hd, if_false] at hdepth
        simp only [canonical_segments, hdd, hd, if_false]
        rw [segment_named E s x hn] at hl ha ⊢
        have c1 : ¬ x.traverse_recursion + 1 ≥ MAX_RECURSION := by
          have := hdepth.1
          unfold MAX_RECURSION at this ⊢
          omega
        simp only [c1, if_false] at hl ha ⊢
        by_cases c2 : (E.malloc (E.lookup x.run.w (x.traverse x.traverse_recursion).inode s).1
              (s.length + 1)).2 = false
        · simp only [c2, if_true, Step.record] at ha
          have := ha (s.length + 1) false (by simp)
          cases this
        · simp only [c2, if_false] at hl ha ⊢
          by_cases c3 : (E.lookup x.run.w (x.traverse x.traverse_recursion).inode s).2.1
              = RESULT_OK
          · simp only [c3, ne_eq, not_true_eq_false, if_false] at hl ha ⊢
            refine ih _ (stack ++ [s]) hrest (by simp only; omega) ?_ ?_ hl ha
            · simp only
              rw [record_names_push _ _ _ h0, hnames]
              rfl
            · rw [List.length_append, List.length_singleton]; exact hdepth.2
          · simp only [ne_eq, c3, not_false_eq_true, if_true, Step.record] at hl
            have := hl _ _ _ _ (List.mem_append_right _ (List.mem_cons_self _ _))
            exact absurd this c3

theorem sum_lengths_intercalate (l : List (List Char)) (h : l ≠ []) :
    (l.map (fun n => n.length + 1)).sum = (List.intercalate ['/'] l).length + 1 := by
  induction l with
  | nil => exact absurd rfl h
  | cons x l ih =>
    rw [intercalate_cons_length]
    by_cases hl : l = []
    · subst hl; simp
    · simp only [List.map_cons, List.sum_cons, ih hl, hl, if_false]; omega

/-- The traversal of `.` makes no call and hands back the starting record. -/
theorem traverse_dot {σ : Type} (E : Env σ) (G : Globals) (w : σ) :
    trn_fs_traverse E G w ['.'] SIZE_MAX
      = some ⟨RESULT_OK, (traverse_start G w ['.'] SIZE_MAX).x⟩ := by
  rw [traverse_unbounded E G w ['.'] SIZE_MAX (by decide)]
  have e : segments_of ['.'] = [['.']] := by decide
  rw [e, run_segments_cons]
  simp only [List.length_cons, List.length_nil, Nat.zero_add, segment_dot]
  rfl

theorem lookups_succeed_left (a b : List Event) (h : lookups_succeed (a ++ b)) :
    lookups_succeed a :=
  fun d n r x hm => h d n r x (List.mem_append_left _ hm)

theorem allocations_succeed_left (a b : List Event) (h : allocations_succeed (a ++ b)) :
    allocations_succeed a :=
  fun n ok hm => h n ok (List.mem_append_left _ hm)

theorem exit_trace_extends {σ : Type} (E : Env σ) (st : Step σ) :
    ∃ ext, (traverse_exit E st).x.run.trace = st.record.run.trace ++ ext := by
  cases st with
  | cont x => exact ⟨[], by simp [traverse_exit, Step.record]⟩
  | fail r x =>
    exact ⟨release_events x.traverse x.borrowed_recursion x.traverse_recursion,
      by simp only [traverse_exit, Step.record, release_range_trace]⟩

/-- What `trn_fs_realpath(".")` returns when the names of the stack are the empty
name followed by `names`. -/
theorem realpath_dot {σ : Type} (E : Env σ) (G : Globals) (w : σ)
    (resolved_path : Option (List Char)) (names : List (List Char))
    (hnames : record_names G.cwd G.cwd_recursion = [] :: names) :
    ∃ ret, trn_fs_realpath E G w ['.'] resolved_path = some ret ∧
      (names ≠ [] → ('/' :: List.intercalate ['/'] names).length ≤ 255 →
        allocations_succeed ret.run.trace →
        ret.r = RESULT_OK ∧ ret.out = some ('/' :: List.intercalate ['/'] names)) := by
  have hrec : record_names (traverse_start G w ['.'] SIZE_MAX).x.traverse
      (traverse_start G w ['.'] SIZE_MAX).x.traverse_recursion = [] :: names := by
    rw [← hnames]
    have e : (traverse_start G w ['.'] SIZE_MAX).x.traverse_recursion = G.cwd_recursion := by
      simp [traverse_start]
    rw [e]
    apply record_names_congr
    intro i h0 h1
    simp [traverse_start, h0, h1]
  unfold trn_fs_realpath
  rw [traverse_dot]
  simp only [ne_eq, not_true_eq_false, if_false, realpath_size_eq, realpath_copy_eq, hrec]
  by_cases hbig : (([] :: names).map (fun n => n.length + 1)).sum > 256
  · simp only [hbig, if_true]
    refine ⟨_, rfl, fun hne hle _ => ?_⟩
    rw [List.map_cons, List.sum_cons, sum_lengths_intercalate names hne] at hbig
    simp only [List.length_cons, List.length_nil] at hbig hle
    omega
  · simp only [hbig, if_false]
    have hs : ∀ (names : List (List Char)), names ≠ [] →
        List.intercalate ['/'] ([] :: names) = '/' :: List.intercalate ['/'] names := by
      intro names hne
      cases names with
      | nil => exact absurd rfl hne
      | cons y l => rw [intercalate_cons_cons]; rfl
    cases resolved_path with
    | none =>
      simp only
      split_ifs with hm
      · refine ⟨_, rfl, fun _ _ ha => ?_⟩
        have := ha _ _ (by
          rw [release_range_trace]
          exact List.mem_append_left _ (List.mem_append_right _ (List.mem_singleton_self _)))
        rw [hm] at this
        cases this
      · exact ⟨_, rfl, fun hne _ _ => ⟨rfl, by rw [hs names hne]⟩⟩
    | some buf =>
      simp only
      exact ⟨_, rfl, fun hne _ _ => ⟨rfl, by rw [hs names hne]⟩⟩

/-- C12 (amended): with the working directory at the root, for every path `X`
whose lookups and name allocations all succeed and whose depth stays within
the recursion bound, `trn_fs_chdir(X)` returns OK, and `trn_fs_realpath(".")`
after it returns; when at least one segment remains after applying `.` and
`..`, the canonical form `/` followed by the remaining segments joined by `/`
is at most 255 bytes long, and the allocation of the result succeeds, it
returns OK with that canonical form. -/
theorem C12_chdir_realpath_round_trip {σ : Type} (E : Env σ) (G : Globals) (w : σ)
    (X : List Char) (resolved_path : Option (List Char))
    (hroot : G.cwd_recursion = 0) (hname : (G.cwd 0).name = [])
    (hlen : X.length < SIZE_MAX) :
    ∃ ret1, trn_fs_chdir E G w X = some ret1 ∧
      (lookups_succeed ret1.run.trace → allocations_succeed ret1.run.trace →
        depth_within_bound (segments_of X) 0 →
        ret1.r = RESULT_OK ∧
        ∃ ret2, trn_fs_realpath E ret1.G ret1.run.w ['.'] resolved_path = some ret2 ∧
          (canonical_segments (segments_of X) [] ≠ [] →
            ('/' :: List.intercalate ['/'] (canonical_segments (segments_of X) [])).length
              ≤ 255 →
            allocations_succeed ret2.run.trace →
            ret2.r = RESULT_OK ∧
            ret2.out
              = some ('/' :: List.intercalate ['/'] (canonical_segments (segments_of X) [])))) := by
  have ho := traverse_unbounded E G w X SIZE_MAX hlen
  obtain ⟨ext, hext⟩ := exit_trace_extends E
    (run_segments E (segments_of X) (traverse_start G w X SIZE_MAX).x)
  have hstart_t : (traverse_start G w X SIZE_MAX).x.traverse_recursion = 0 := by
    simp only [traverse_start, hroot, ite_self]
  have hstart_n : record_names (traverse_start G w X SIZE_MAX).x.traverse
      (traverse_start G w X SIZE_MAX).x.traverse_recursion = [] :: [] := by
    rw [hstart_t]
    simp [record_names, traverse_start, hroot, hname, List.range_succ]
  have key : lookups_succeed (traverse_exit E
        (run_segments E (segments_of X) (traverse_start G w X SIZE_MAX).x)).x.run.trace →
      allocations_succeed (traverse_exit E
        (run_segments E (segments_of X) (traverse_start G w X SIZE_MAX).x)).x.run.trace →
      depth_within_bound (segments_of X) 0 →
      ∃ x1, run_segments E (segments_of X) (traverse_start G w X SIZE_MAX).x = Step.cont x1 ∧
        0 ≤ x1.traverse_recursion ∧
        record_names x1.traverse x1.traverse_recursion
          = [] :: canonical_segments (segments_of X) [] := by
    intro hl ha hd
    rw [hext] at hl ha
    exact run_canonical E (segments_of X) _ [] [] (segments_of_good X) (by rw [hstart_t])
      hstart_n hd (lookups_succeed_left _ _ hl) (allocations_succeed_left _ _ ha)
  unfold trn_fs_chdir
  rw [ho]
  by_cases hr : (traverse_exit E
      (run_segments E (segments_of X) (traverse_start G w X SIZE_MAX).x)).r = RESULT_OK
  · simp only [hr, ne_eq, not_true_eq_false, if_false]
    refine ⟨_, rfl, fun hl ha hd => ⟨rfl, ?_⟩⟩
    simp only [release_range_trace] at hl ha
    obtain ⟨x1, h1, h2, h3⟩ := key (lookups_succeed_left _ _ hl)
      (allocations_succeed_left _ _ ha) hd
    apply realpath_dot
    simp only
    rw [h1]
    simp only [traverse_exit]
    rw [← h3]
    apply record_names_congr
    intro i h0 hi
    simp [h0, hi]
  · simp only [hr, ne_eq, not_false_eq_true, if_true]
    refine ⟨_, rfl, fun hl ha hd => ?_⟩
    obtain ⟨x1, h1, _, _⟩ := key hl ha hd
    rw [h1] at hr
    exact absurd rfl hr

/-- Example for C12: `chdir("a/b")` from the root over `env_plain`, then
`realpath(".")`, gives `/a/b`. -/
theorem C12_witness :
    ∃ ret1, trn_fs_chdir env_plain globals_root 0 ['a', '/', 'b'] = some ret1 ∧
      ret1.r = RESULT_OK ∧
      ∃ ret2, trn_fs_realpath env_plain ret1.G ret1.run.w ['.'] none = some ret2 ∧
        ret2.r = RESULT_OK ∧ ret2.out = some ['/', 'a', '/', 'b'] := by
  obtain ⟨ret1, h1, h⟩ := C12_chdir_realpath_round_trip env_plain globals_root 0
    ['a', '/', 'b'] none rfl rfl (by decide)
  have hseg : segments_of ['a', '/', 'b'] = [['a'], ['b']] := by decide
  have htr : (trn_fs_chdir env_plain globals_root 0 ['a', '/', 'b']).map
      (fun r => r.run.trace)
      = some [Event.lookup ⟨0, 0⟩ ['a'] RESULT_OK ⟨0, 100⟩, Event.malloc 2 true,
          Event.lookup ⟨0, 100⟩ ['b'] RESULT_OK ⟨0, 101⟩, Event.malloc 2 true] := by decide
  rw [h1] at htr
  simp only [Option.map_some', Option.some.injEq] at htr
  obtain ⟨hr, ret2, h2, h3⟩ := h
    (by
      intro d n r a hm
      rw [htr] at hm
      simp only [List.mem_cons, Event.lookup.injEq, reduceCtorEq, List.mem_singleton,
        List.not_mem_nil, or_false, false_or] at hm
      rcases hm with hm | hm
      · exact hm.2.2.1
      · exact hm.2.2.1)
    (by
      intro n ok hm
      rw [htr] at hm
      simp only [List.mem_cons, Event.malloc.injEq, reduceCtorEq, List.mem_singleton,
        List.not_mem_nil, or_false, false_or] at hm
      rcases hm with hm | hm
      · exact hm.2
      · exact hm.2)
    (by rw [hseg]; simp [depth_within_bound, MAX_RECURSION])
  have htr2 : (trn_fs_chdir env_plain globals_root 0 ['a', '/', 'b']).bind
      (fun ret1 => (trn_fs_realpath env_plain ret1.G ret1.run.w ['.'] none).map
        (fun r => r.run.trace))
      = some [Event.malloc 5 true] := by decide
  rw [h1, Option.some_bind, h2] at htr2
  simp only [Option.map_some', Option.some.injEq] at htr2
  rw [hseg] at h3
  have h4 := h3 (by decide) (by decide)
    (by
      intro n ok hm
      rw [htr2] at hm
      simp only [List.mem_singleton, Event.malloc.injEq] at hm
      exact hm.2)
  exact ⟨ret1, h1, hr, ret2, h2, h4⟩

set_option maxRecDepth 1000000 in
/-- Counterexample to C12 as stated: `X` is one named segment of 256 bytes. Over
`env_plain` every lookup and allocation succeeds and the depth reached is 1,
`trn_fs_chdir(X)` returns OK, and `trn_fs_realpath(".")` then returns
NAME_TOO_LONG without storing a result. -/
theorem C12_counterexample :
    named (List.replicate 256 'a') ∧
    segments_of (List.replicate 256 'a') = [List.replicate 256 'a'] ∧
    (∀ w d n, (env_plain.lookup w d n).2.1 = RESULT_OK) ∧
    (trn_fs_chdir env_plain globals_root 0 (List.replicate 256 'a')).bind
      (fun ret1 => (trn_fs_realpath env_plain ret1.G ret1.run.w ['.'] none).map
        (fun ret2 => (ret1.r, ret1.G.cwd_recursion, ret2.r, ret2.out)))
      = some (RESULT_OK, 1, LIBTRANSISTOR_ERR_FS_NAME_TOO_LONG, none) :=
  ⟨⟨by decide, by decide, by decide, by decide⟩, by decide, fun _ _ _ => rfl, by decide⟩

/-- With the working directory at the root, where no segment remains,
`trn_fs_realpath(".")` returns OK with the empty string: the final
`(*resolved_path)[copy_offset-1] = 0` overwrites the only slash. -/
theorem realpath_root_empty :
    (trn_fs_realpath env_plain globals_root 0 ['.'] none).map (fun ret => (ret.r, ret.out))
      = some (RESULT_OK, some []) := by
  decide

theorem name_storage_fails_left (a b : List Event) (h : name_storage_fails a) :
    name_storage_fails (a ++ b) := by
  obtain ⟨pre, d, n, r, x, k, post, rfl⟩ := h
  exact ⟨pre, d, n, r, x, k, post ++ b, by simp⟩

theorem name_storage_fails_right (a b : List Event) (h : name_storage_fails b) :
    name_storage_fails (a ++ b) := by
  obtain ⟨pre, d, n, r, x, k, post, rfl⟩ := h
  exact ⟨a ++ pre, d, n, r, x, k, post, by simp⟩

theorem allocations_succeed_storage (trace : List Event) (h : allocations_succeed trace) :
    ¬ name_storage_fails trace := by
  rintro ⟨pre, d, n, r, x, k, post, rfl⟩
  have := h k false (by simp)
  cases this

/-- Handles held before the calls of a trace stay held through it. -/
theorem outstanding_frame (l : List Event) (A H o1 : Multiset trn_inode_t)
    (h : outstanding l A = some o1) : outstanding l (H + A) = some (H + o1) := by
  induction l generalizing A with
  | nil =>
    rw [outstanding_nil] at h ⊢
    cases h
    rfl
  | cons e l ih =>
    rw [outstanding_cons] at h ⊢
    cases e with
    | release i a =>
      simp only [account] at h ⊢
      by_cases hm : a ∈ A
      · rw [if_pos hm, Option.some_bind] at h
        rw [if_pos (Multiset.mem_add.2 (Or.inr hm)), Option.some_bind,
          Multiset.erase_add_right_pos _ hm]
        exact ih _ h
      · rw [if_neg hm] at h
        cases h
    | lookup d n r a =>
      simp only [account, Option.some_bind] at h ⊢
      by_cases hr : r = RESULT_OK
      · simp only [hr, if_true] at h ⊢
        rw [← Multiset.add_cons]
        exact ih _ h
      · simp only [hr, if_false] at h ⊢
        exact ih _ h
    | _ =>
      simp only [account, Option.some_bind] at h ⊢
      exact ih _ h

/-- The handles held at first and the ones returned are the ones still held and
the ones released. -/
theorem outstanding_balance (l : List Event) (H o : Multiset trn_inode_t)
    (h : outstanding l H = some o) :
    H + (returned_handles l : Multiset trn_inode_t)
      = o + (released_handles l : Multiset trn_inode_t) := by
  induction l generalizing H with
  | nil =>
    rw [outstanding_nil] at h
    cases h
    rfl
  | cons e l ih =>
    rw [outstanding_cons] at h
    cases e with
    | release i a =>
      simp only [account] at h
      by_cases hm : a ∈ H
      · rw [if_pos hm, Option.some_bind] at h
        have := ih _ h
        simp only [returned_handles, released_handles, List.filterMap_cons, Event.returned,
          Event.released] at this ⊢
        rw [← Multiset.cons_coe, Multiset.add_cons, ← this, ← Multiset.cons_add,
          Multiset.cons_erase hm]
      · rw [if_neg hm] at h
        cases h
    | lookup d n r a =>
      simp only [account, Option.some_bind] at h
      have := ih _ h
      by_cases hr : r = RESULT_OK
      · simp only [hr, if_true] at this
        simp only [returned_handles, released_handles, List.filterMap_cons, Event.returned,
          Event.released, hr, if_true] at this ⊢
        rw [← Multiset.cons_coe, Multiset.add_cons, ← Multiset.cons_add]
        exact this
      · simp only [hr, if_false] at this
        simp only [returned_handles, released_handles, List.filterMap_cons, Event.returned,
          Event.released, hr, if_false] at this ⊢
        exact this
    | _ =>
      simp only [account, Option.some_bind] at h
      have := ih _ h
      simp only [returned_handles, released_handles, List.filterMap_cons, Event.returned,
        Event.released] at this ⊢
      exact this

theorem owned_range_split (arr : Int → trn_traverse_t) (lo mid hi : Int) (h1 : lo ≤ mid)
    (h2 : mid ≤ hi) :
    owned_range arr lo hi = owned_range arr lo mid ++ owned_range arr mid hi := by
  unfold owned_range
  have e : (hi - lo).toNat = (mid - lo).toNat + (hi - mid).toNat := by omega
  rw [e, List.range_add, List.map_append, List.map_map]
  congr 1
  apply List.map_congr_left
  intro k _
  simp only [Function.comp]
  have : lo + 1 + (((mid - lo).toNat + k : Nat) : Int) = mid + 1 + (k : Int) := by
    push_cast
    omega
  rw [this]

theorem segment_Borrowed {σ : Type} (E : Env σ) (G : Globals) (seg : List Char) (n : Nat)
    (x : Rec σ) (h : Borrowed G x) : Borrowed G (trn_fs_traverse_segment E seg n x).record := by
  obtain ⟨h0, h1, h2, h3⟩ := h
  unfold trn_fs_traverse_segment
  simp only
  split_ifs <;> simp only [Step.record, Borrowed] <;>
    refine ⟨by omega, by omega, by omega, ?_⟩ <;> intro i hi0 hi1
  all_goals first
    | exact h3 i hi0 hi1
    | exact h3 i hi0 (by omega)
    | (rw [Function.update_noteq (by omega)]; exact h3 i hi0 hi1)

theorem traverse_Borrowed {σ : Type} (E : Env σ) (G : Globals) (w : σ) (path : List Char)
    (max_len : Nat) (o : Out σ) (h : trn_fs_traverse E G w path max_len = some o)
    (h0 : 0 ≤ G.cwd_recursion) : Borrowed G o.x := by
  unfold trn_fs_traverse at h
  cases hl : trn_fs_traverse_loop E (path.length + 1) (traverse_start G w path max_len) with
  | none => rw [hl] at h; cases h
  | some e =>
    rw [hl] at h
    simp only [Option.map_some', Option.some.injEq] at h
    subst h
    have hs : Borrowed G (traverse_start G w path max_len).x := by
      simp only [traverse_start, Borrowed]
      split_ifs
      · refine ⟨le_refl _, le_refl _, h0, fun i hi0 hi1 => ?_⟩
        rw [if_pos ⟨hi0, by omega⟩]
      · refine ⟨h0, le_refl _, le_refl _, fun i hi0 hi1 => ?_⟩
        rw [if_pos ⟨hi0, hi1⟩]
    have := loop_inv E (Borrowed G) (fun _ x => Borrowed G x)
      (fun seg n x x1 hx he => by have := segment_Borrowed E G seg n x hx; rwa [he] at this)
      (fun seg n x r x1 hx he => by have := segment_Borrowed E G seg n x hx; rwa [he] at this)
      _ _ e hs hl
    cases e with
    | cont x => exact this
    | fail r x => exact this

/-- The bookkeeping of a traversal in which the allocation of every name
succeeds: after success the handles held are the owned entries, after a
failure none is held. -/
theorem traverse_balanced {σ : Type} (E : Env σ) (G : Globals) (w : σ) (path : List Char)
    (max_len : Nat) (o : Out σ) (h : trn_fs_traverse E G w path max_len = some o)
    (hn : ¬ name_storage_fails o.x.run.trace) :
    (o.r = RESULT_OK → outstanding o.x.run.trace 0
      = some (owned_range o.x.traverse o.x.borrowed_recursion o.x.traverse_recursion
          : Multiset trn_inode_t)) ∧
    (o.r ≠ RESULT_OK → outstanding o.x.run.trace 0 = some 0) := by
  rcases traverse_spec E G w path max_len o h with ⟨hr, hbt, hout, _, _, hrl⟩ |
    ⟨x, ⟨hne, hx⟩, ht, hb, htr, htrace⟩
  · exact ⟨fun _ => hout, fun h0 => absurd hr h0⟩
  · refine ⟨fun h0 => absurd h0 hne, fun _ => ?_⟩
    rcases hx with ⟨hr, hbt, hout, hlk, hml, hrl⟩ |
      ⟨x0, name, rl, a, n, ok, ⟨hbt, hout, hlk, hml, hrl⟩, hb0, ht0, htrav, htr0, hcase⟩
    · rw [htrace, outstanding_append, hout, Option.some_bind]
      have := outstanding_release_events x.traverse x.borrowed_recursion x.traverse_recursion 0
      rw [add_zero] at this
      exact this
    · have hown : owned_range x.traverse x.borrowed_recursion x.traverse_recursion
          = owned x0 := by
        rw [hb0, ht0]
        exact owned_range_congr _ _ _ _ (fun i _ hi => htrav i hi)
      rcases hcase with ⟨hok, _⟩ | ⟨_, hne2, _⟩
      · exfalso
        apply hn
        rw [htrace, htr0, hok]
        exact ⟨x0.run.trace, (x0.traverse x0.traverse_recursion).inode, name, rl, a, n,
          release_events x.traverse x.borrowed_recursion x.traverse_recursion, by simp⟩
      · rw [htrace, htr0, outstanding_append, outstanding_append, hout, Option.some_bind,
          outstanding_lookup_malloc, Option.some_bind, ← hown, if_neg hne2]
        exact outstanding_release_events _ _ _ _

theorem outstanding_then_release (tr mid : List Event) (arr : Int → trn_traverse_t)
    (lo hi : Int)
    (h : outstanding tr 0 = some (owned_range arr lo hi : Multiset trn_inode_t))
    (hmid : ∀ H, outstanding mid H = some H) :
    outstanding (tr ++ mid ++ release_events arr lo hi) 0 = some 0 := by
  rw [outstanding_append, outstanding_append, h, Option.some_bind, hmid, Option.some_bind]
  have := outstanding_release_events arr lo hi 0
  rwa [add_zero] at this

theorem opendir_balanced {σ : Type} (E : Env σ) (G : Globals) (w : σ) (path : List Char) :
    ∃ ret, trn_fs_opendir E G w path = some ret ∧ ret.G = G ∧
      (¬ name_storage_fails ret.run.trace → outstanding ret.run.trace 0 = some 0) := by
  obtain ⟨o, ho⟩ := trn_fs_traverse_total E G w path SIZE_MAX
  unfold trn_fs_opendir
  rw [ho]
  by_cases hr : o.r = RESULT_OK
  · simp only [hr, ne_eq, not_true_eq_false, if_false]
    refine ⟨_, rfl, rfl, fun hn => ?_⟩
    simp only [release_range_trace] at hn ⊢
    have hb := (traverse_balanced E G w path SIZE_MAX o ho (fun h =>
      hn (name_storage_fails_left _ _ (name_storage_fails_left _ _ h)))).1 hr
    exact outstanding_then_release _ _ _ _ _ hb (fun H => by rw [outstanding_single]; rfl)
  · simp only [hr, ne_eq, not_false_eq_true, if_true]
    exact ⟨_, rfl, rfl, fun hn => (traverse_balanced E G w path SIZE_MAX o ho hn).2 hr⟩

theorem stat_balanced {σ : Type} (E : Env σ) (G : Globals) (w : σ) (path : List Char) :
    ∃ ret, trn_fs_stat E G w path = some ret ∧ ret.G = G ∧
      (¬ name_storage_fails ret.run.trace → outstanding ret.run.trace 0 = some 0) := by
  obtain ⟨o, ho⟩ := trn_fs_traverse_total E G w path SIZE_MAX
  unfold trn_fs_stat
  rw [ho]
  by_cases hr : o.r = RESULT_OK
  · simp only [hr, ne_eq, not_true_eq_false, if_false]
    refine ⟨_, rfl, rfl, fun hn => ?_⟩
    simp only [release_range_trace] at hn ⊢
    have hb := (traverse_balanced E G w path SIZE_MAX o ho (fun h =>
      hn (name_storage_fails_left _ _ (name_storage_fails_left _ _ h)))).1 hr
    exact outstanding_then_release _ _ _ _ _ hb (fun H => by rw [outstanding_single]; rfl)
  · simp only [hr, ne_eq, not_false_eq_true, if_true]
    exact ⟨_, rfl, rfl, fun hn => (traverse_balanced E G w path SIZE_MAX o ho hn).2 hr⟩

theorem realpath_balanced {σ : Type} (E : Env σ) (G : Globals) (w : σ) (path : List Char)
    (resolved_path : Option (List Char)) :
    ∃ ret, trn_fs_realpath E G w path resolved_path = some ret ∧ ret.G = G ∧
      (¬ name_storage_fails ret.run.trace → outstanding ret.run.trace 0 = some 0) := by
  obtain ⟨o, ho⟩ := trn_fs_traverse_total E G w path SIZE_MAX
  have plain : ¬ name_storage_fails (o.x.run.trace ++
        release_events o.x.traverse o.x.borrowed_recursion o.x.traverse_recursion) →
      o.r = RESULT_OK →
      outstanding (o.x.run.trace ++
        release_events o.x.traverse o.x.borrowed_recursion o.x.traverse_recursion) 0
        = some 0 := by
    intro hn hr
    have hb := (traverse_balanced E G w path SIZE_MAX o ho (fun h =>
      hn (name_storage_fails_left _ _ h))).1 hr
    have := outstanding_then_release _ [] _ _ _ hb (fun H => rfl)
    rwa [List.append_nil] at this
  have alloc : ∀ n ok, ¬ name_storage_fails (o.x.run.trace ++ [Event.malloc n ok] ++
        release_events o.x.traverse o.x.borrowed_recursion o.x.traverse_recursion) →
      o.r = RESULT_OK →
      outstanding (o.x.run.trace ++ [Event.malloc n ok] ++
        release_events o.x.traverse o.x.borrowed_recursion o.x.traverse_recursion) 0
        = some 0 := by
    intro n ok hn hr
    have hb := (traverse_balanced E G w path SIZE_MAX o ho (fun h =>
      hn (name_storage_fails_left _ _ (name_storage_fails_left _ _ h)))).1 hr
    exact outstanding_then_release _ _ _ _ _ hb (fun H => by rw [outstanding_single]; rfl)
  unfold trn_fs_realpath
  rw [ho]
  by_cases hr : o.r = RESULT_OK
  · simp only [hr, ne_eq, not_true_eq_false, if_false]
    cases resolved_path with
    | none =>
      simp only
      split_ifs with h1 h2
      · refine ⟨_, rfl, rfl, fun hn => ?_⟩
        simp only [release_range_trace] at hn ⊢
        exact plain hn hr
      · refine ⟨_, rfl, rfl, fun hn => ?_⟩
        simp only [release_range_trace] at hn ⊢
        exact alloc _ _ hn hr
      · refine ⟨_, rfl, rfl, fun hn => ?_⟩
        simp only [release_range_trace] at hn ⊢
        exact alloc _ _ hn hr
    | some buf =>
      simp only
      split_ifs with h1
      · refine ⟨_, rfl, rfl, fun hn => ?_⟩
        simp only [release_range_trace] at hn ⊢
        exact plain hn hr
      · refine ⟨_, rfl, rfl, fun hn => ?_⟩
        simp only [release_range_trace] at hn ⊢
        exact plain hn hr
  · simp only [hr, ne_eq, not_false_eq_true, if_true]
    exact ⟨_, rfl, rfl, fun hn => (traverse_balanced E G w path SIZE_MAX o ho hn).2 hr⟩

theorem open_resolve_balanced {σ : Type} (E : Env σ) (G : Globals) (run : Run σ)
    (path : List Char) (flags : Nat) :
    ∃ ret, trn_fs_open_resolve E G run path flags = some ret ∧ ret.G = G ∧
      ∃ ext, ret.run.trace = run.trace ++ ext ∧
        (¬ name_storage_fails ext → outstanding ext 0 = some 0) := by
  obtain ⟨o, ho⟩ := trn_fs_traverse_total E G run.w path SIZE_MAX
  unfold trn_fs_open_resolve traverse_from
  rw [ho]
  simp only [Option.map_some']
  by_cases hr : o.r = RESULT_OK
  · simp only [hr, ne_eq, not_true_eq_false, if_false]
    refine ⟨_, rfl, rfl, o.x.run.trace ++
      [Event.open_as_file (o.x.traverse o.x.traverse_recursion).inode flags
        (E.open_as_file o.x.run.w (o.x.traverse o.x.traverse_recursion).inode flags).2.1] ++
      release_events o.x.traverse o.x.borrowed_recursion o.x.traverse_recursion,
      by simp [release_range_trace], fun hn => ?_⟩
    have hb := (traverse_balanced E G run.w path SIZE_MAX o ho (fun h =>
      hn (name_storage_fails_left _ _ (name_storage_fails_left _ _ h)))).1 hr
    exact outstanding_then_release _ _ _ _ _ hb (fun H => by rw [outstanding_single]; rfl)
  · simp only [hr, ne_eq, not_false_eq_true, if_true]
    exact ⟨_, rfl, rfl, o.x.run.trace, rfl,
      fun hn => (traverse_balanced E G run.w path SIZE_MAX o ho hn).2 hr⟩

theorem open_balanced {σ : Type} (E : Env σ) (G : Globals) (w : σ) (path : List Char)
    (flags : Nat) :
    ∃ ret, trn_fs_open E G w path flags = some ret ∧ ret.G = G ∧
      (¬ name_storage_fails ret.run.trace → outstanding ret.run.trace 0 = some 0) := by
  have base : ∃ ret, trn_fs_open_resolve E G ⟨w, []⟩ path flags = some ret ∧ ret.G = G ∧
      (¬ name_storage_fails ret.run.trace → outstanding ret.run.trace 0 = some 0) := by
    obtain ⟨ret, h1, h2, ext, h3, h4⟩ := open_resolve_balanced E G ⟨w, []⟩ path flags
    refine ⟨ret, h1, h2, fun hn => ?_⟩
    simp only [List.nil_append] at h3
    rw [h3] at hn ⊢
    exact h4 hn
  unfold trn_fs_open
  split_ifs with hc
  · cases hs : strrchr path '/' with
    | none => exact base
    | some last =>
      simp only
      obtain ⟨o, ho⟩ := trn_fs_traverse_total E G w path last
      rw [ho]
      simp only
      by_cases hr : o.r = RESULT_OK
      · simp only [hr, ne_eq, not_true_eq_false, if_false]
        have first : ¬ name_storage_fails (o.x.run.trace ++
              [Event.create_file (o.x.traverse o.x.traverse_recursion).inode
                (path.drop (last + 1))
                (E.create_file o.x.run.w (o.x.traverse o.x.traverse_recursion).inode
                  (path.drop (last + 1))).2] ++
              release_events o.x.traverse o.x.borrowed_recursion o.x.traverse_recursion) →
            outstanding (o.x.run.trace ++
              [Event.create_file (o.x.traverse o.x.traverse_recursion).inode
                (path.drop (last + 1))
                (E.create_file o.x.run.w (o.x.traverse o.x.traverse_recursion).inode
                  (path.drop (last + 1))).2] ++
              release_events o.x.traverse o.x.borrowed_recursion o.x.traverse_recursion) 0
              = some 0 := by
          intro hn
          have hb := (traverse_balanced E G w path last o ho (fun h =>
            hn (name_storage_fails_left _ _ (name_storage_fails_left _ _ h)))).1 hr
          exact outstanding_then_release _ _ _ _ _ hb
            (fun H => by rw [outstanding_single]; rfl)
        split_ifs with hc2
        · obtain ⟨ret, h1, h2, ext, h3, h4⟩ := open_resolve_balanced E G
            (release_range E o.x.traverse o.x.borrowed_recursion o.x.traverse_recursion
              ⟨(E.create_file o.x.run.w (o.x.traverse o.x.traverse_recursion).inode
                  (path.drop (last + 1))).1,
                o.x.run.trace ++
                  [Event.create_file (o.x.traverse o.x.traverse_recursion).inode
                    (path.drop (last + 1))
                    (E.create_file o.x.run.w (o.x.traverse o.x.traverse_recursion).inode
                      (path.drop (last + 1))).2]⟩)
            path flags
          refine ⟨ret, h1, h2, fun hn => ?_⟩
          rw [h3] at hn ⊢
          simp only [release_range_trace] at hn ⊢
          rw [outstanding_append, first (fun h => hn (name_storage_fails_left _ _ h)),
            Option.some_bind]
          exact h4 (fun h => hn (name_storage_fails_right _ _ h))
        · refine ⟨_, rfl, rfl, fun hn => ?_⟩
          simp only [release_range_trace] at hn ⊢
          exact first hn
      · simp only [hr, ne_eq, not_false_eq_true, if_true]
        exact ⟨_, rfl, rfl, fun hn => (traverse_balanced E G w path last o ho hn).2 hr⟩
  · exact base

theorem mem_owned_range (arr : Int → trn_traverse_t) (lo hi : Int) (a : trn_inode_t) :
    a ∈ owned_range arr lo hi ↔ ∃ i, lo < i ∧ i ≤ hi ∧ (arr i).inode = a := by
  unfold owned_range
  simp only [List.mem_map, List.mem_range]
  constructor
  · rintro ⟨k, hk, rfl⟩
    exact ⟨lo + 1 + (k : Int), by omega, by omega, rfl⟩
  · rintro ⟨i, h1, h2, rfl⟩
    refine ⟨(i - lo - 1).toNat, by omega, ?_⟩
    congr 2
    omega

/-- What `trn_fs_chdir` does to the handles held: the entries of the old stack
above `borrowed_recursion` are released and the owned entries of the record
take their place. -/
theorem chdir_step {σ : Type} (E : Env σ) (G : Globals) (w : σ) (path : List Char) :
    ∃ ret, trn_fs_chdir E G w path = some ret ∧
      (0 ≤ G.cwd_recursion → ¬ name_storage_fails ret.run.trace →
        0 ≤ ret.G.cwd_recursion ∧ ret.G.cwd 0 = G.cwd 0 ∧
        outstanding ret.run.trace (owned_range G.cwd 0 G.cwd_recursion : Multiset trn_inode_t)
          = some (owned_range ret.G.cwd 0 ret.G.cwd_recursion : Multiset trn_inode_t)) := by
  obtain ⟨o, ho⟩ := trn_fs_traverse_total E G w path SIZE_MAX
  unfold trn_fs_chdir
  rw [ho]
  by_cases hr : o.r = RESULT_OK
  · simp only [hr, ne_eq, not_true_eq_false, if_false]
    refine ⟨_, rfl, fun h0 hn => ?_⟩
    obtain ⟨b0, b1, b2, b3⟩ := traverse_Borrowed E G w path SIZE_MAX o ho h0
    simp only [release_range_trace] at hn ⊢
    have hb := (traverse_balanced E G w path SIZE_MAX o ho (fun h =>
      hn (name_storage_fails_left _ _ h))).1 hr
    refine ⟨by omega, ?_, ?_⟩
    · rw [if_pos ⟨le_refl _, by omega⟩]
      exact b3 0 (le_refl _) b0
    · have hf := outstanding_frame _ 0
        (owned_range G.cwd 0 G.cwd_recursion : Multiset trn_inode_t) _ hb
      rw [add_zero] at hf
      rw [outstanding_append, hf, Option.some_bind]
      have e1 : owned_range G.cwd 0 G.cwd_recursion
          = owned_range G.cwd 0 o.x.borrowed_recursion
            ++ owned_range G.cwd o.x.borrowed_recursion G.cwd_recursion :=
        owned_range_split _ _ _ _ b0 b2
      have e2 : owned_range
            (fun i => if 0 ≤ i ∧ i ≤ o.x.traverse_recursion then o.x.traverse i else G.cwd i)
            0 o.x.traverse_recursion
          = owned_range G.cwd 0 o.x.borrowed_recursion
            ++ owned_range o.x.traverse o.x.borrowed_recursion o.x.traverse_recursion := by
        rw [owned_range_split _ 0 o.x.borrowed_recursion o.x.traverse_recursion b0 b1]
        congr 1
        · apply owned_range_congr
          intro i hi0 hi1
          rw [if_pos ⟨by omega, by omega⟩]
          exact b3 i (by omega) hi1
        · apply owned_range_congr
          intro i hi0 hi1
          rw [if_pos ⟨by omega, hi1⟩]
      rw [e1, e2, ← Multiset.coe_add, ← Multiset.coe_add]
      have := outstanding_release_events G.cwd o.x.borrowed_recursion G.cwd_recursion
        ((owned_range G.cwd 0 o.x.borrowed_recursion : Multiset trn_inode_t)
          + (owned_range o.x.traverse o.x.borrowed_recursion o.x.traverse_recursion
              : Multiset trn_inode_t))
      rw [add_comm (owned_range G.cwd 0 o.x.borrowed_recursion : Multiset trn_inode_t)
        (owned_range G.cwd o.x.borrowed_recursion G.cwd_recursion : Multiset trn_inode_t),
        add_assoc]
      exact this
  · simp only [hr, ne_eq, not_false_eq_true, if_true]
    refine ⟨_, rfl, fun h0 hn => ⟨h0, rfl, ?_⟩⟩
    have hf := outstanding_frame _ 0
      (owned_range G.cwd 0 G.cwd_recursion : Multiset trn_inode_t) _
      ((traverse_balanced E G w path SIZE_MAX o ho hn).2 hr)
    rwa [add_zero] at hf

/-- A call that leaves the globals alone and releases what it looked up keeps
the invariant. -/
theorem after_balanced {σ α : Type} (new_root : trn_inode_t) (s : Sys σ) (ret : Ret σ α)
    (hG : ret.G = s.G)
    (hbal : ¬ name_storage_fails ret.run.trace → outstanding ret.run.trace 0 = some 0)
    (hi : StackInv new_root s) (hn : ¬ name_storage_fails ret.run.trace) :
    StackInv new_root (s.after ret) := by
  obtain ⟨i0, i1, i2⟩ := hi
  simp only [StackInv, Sys.after]
  rw [hG]
  refine ⟨i0, i1, ?_⟩
  rw [outstanding_append, i2, Option.some_bind]
  have := outstanding_frame _ 0
    (owned_range s.G.cwd 0 s.G.cwd_recursion : Multiset trn_inode_t) _ (hbal hn)
  rwa [add_zero] at this

/-- Every call of the public interface returns and keeps the invariant when no
allocation of a name fails in it. -/
theorem call_step {σ : Type} (E : Env σ) (new_root : trn_inode_t) (s : Sys σ) (op : Op) :
    ∃ s1, op.call E s = some s1 ∧ ∃ ext, s1.run.trace = s.run.trace ++ ext ∧
      (StackInv new_root s → ¬ name_storage_fails ext → StackInv new_root s1) := by
  cases op with
  | chdir path =>
    obtain ⟨ret, h1, h2⟩ := chdir_step E s.G s.run.w path
    refine ⟨s.after ret, by simp only [Op.call, h1, Option.map_some'], ret.run.trace, rfl,
      fun hi hn => ?_⟩
    obtain ⟨i0, i1, i2⟩ := hi
    obtain ⟨c0, c1, c2⟩ := h2 i0 hn
    simp only [StackInv, Sys.after]
    refine ⟨c0, by rw [c1]; exact i1, ?_⟩
    rw [outstanding_append, i2, Option.some_bind]
    exact c2
  | open_file path flags =>
    obtain ⟨ret, h1, h2, h3⟩ := open_balanced E s.G s.run.w path flags
    exact ⟨s.after ret, by simp only [Op.call, h1, Option.map_some'], ret.run.trace, rfl,
      after_balanced new_root s ret h2 h3⟩
  | opendir path =>
    obtain ⟨ret, h1, h2, h3⟩ := opendir_balanced E s.G s.run.w path
    exact ⟨s.after ret, by simp only [Op.call, h1, Option.map_some'], ret.run.trace, rfl,
      after_balanced new_root s ret h2 h3⟩
  | stat path =>
    obtain ⟨ret, h1, h2, h3⟩ := stat_balanced E s.G s.run.w path
    exact ⟨s.after ret, by simp only [Op.call, h1, Option.map_some'], ret.run.trace, rfl,
      after_balanced new_root s ret h2 h3⟩
  | realpath path resolved_path =>
    obtain ⟨ret, h1, h2, h3⟩ := realpath_balanced E s.G s.run.w path resolved_path
    exact ⟨s.after ret, by simp only [Op.call, h1, Option.map_some'], ret.run.trace, rfl,
      after_balanced new_root s ret h2 h3⟩

theorem run_ops_step {σ : Type} (E : Env σ) (new_root : trn_inode_t) (ops : List Op) :
    ∀ s : Sys σ, ∃ s1, run_ops E ops s = some s1 ∧ ∃ ext, s1.run.trace = s.run.trace ++ ext ∧
      (StackInv new_root s → ¬ name_storage_fails ext → StackInv new_root s1) := by
  induction ops with
  | nil =>
    intro s
    exact ⟨s, rfl, [], by simp, fun h _ => h⟩
  | cons op rest ih =>
    intro s
    obtain ⟨s1, h1, ext1, e1, k1⟩ := call_step E new_root s op
    obtain ⟨s2, h2, ext2, e2, k2⟩ := ih s1
    refine ⟨s2, by simp only [run_ops, h1, Option.some_bind, h2], ext1 ++ ext2,
      by rw [e2, e1, List.append_assoc], fun hi hn => ?_⟩
    exact k2 (k1 hi (fun h => hn (name_storage_fails_left _ _ h)))
      (fun h => hn (name_storage_fails_right _ _ h))

/-- What the invariant gives when the handles returned by lookups are fresh. -/
theorem stack_inv_fresh {σ : Type} (new_root : trn_inode_t) (s : Sys σ)
    (hi : StackInv new_root s) (hnd : (returned_handles s.run.trace).Nodup)
    (hroot : new_root ∉ returned_handles s.run.trace) :
    (released_handles s.run.trace).Nodup ∧
    (∀ i, 0 ≤ i → i ≤ s.G.cwd_recursion →
      (s.G.cwd i).inode ∉ released_handles s.run.trace) ∧
    (∀ h ∈ returned_handles s.run.trace,
      (∃ i, 0 ≤ i ∧ i ≤ s.G.cwd_recursion ∧ (s.G.cwd i).inode = h) ∨
      (released_handles s.run.trace).count h = 1) := by
  obtain ⟨j0, j1, j2⟩ := hi
  have bal := outstanding_balance _ 0 _ j2
  rw [zero_add] at bal
  have nd : ((owned_range s.G.cwd 0 s.G.cwd_recursion : Multiset trn_inode_t)
      + (released_handles s.run.trace : Multiset trn_inode_t)).Nodup := by
    rw [← bal]
    exact Multiset.coe_nodup.2 hnd
  obtain ⟨nd1, nd2, disj⟩ := Multiset.nodup_add.1 nd
  have hmem : ∀ a, a ∈ returned_handles s.run.trace ↔
      a ∈ owned_range s.G.cwd 0 s.G.cwd_recursion ∨ a ∈ released_handles s.run.trace := by
    intro a
    rw [← Multiset.mem_coe, bal, Multiset.mem_add, Multiset.mem_coe, Multiset.mem_coe]
  refine ⟨Multiset.coe_nodup.1 nd2, ?_, ?_⟩
  · intro i hi0 hi1 hm
    by_cases hz : i = 0
    · subst hz
      rw [j1] at hm
      exact hroot ((hmem _).2 (Or.inr hm))
    · have ho : (s.G.cwd i).inode ∈ owned_range s.G.cwd 0 s.G.cwd_recursion :=
        (mem_owned_range _ _ _ _).2 ⟨i, by omega, hi1, rfl⟩
      exact Multiset.disjoint_left.1 disj (Multiset.mem_coe.2 ho) (Multiset.mem_coe.2 hm)
  · intro h hh
    rcases (hmem h).1 hh with hm | hm
    · obtain ⟨i, h1, h2, h3⟩ := (mem_owned_range _ _ _ _).1 hm
      exact Or.inl ⟨i, by omega, h2, h3⟩
    · exact Or.inr (List.count_eq_one_of_mem (Multiset.coe_nodup.1 nd2) hm)

/-- C20: from globals without a root, after one `trn_fs_set_root`, every finite
sequence of `trn_fs_chdir`, `trn_fs_open`, `trn_fs_opendir`, `trn_fs_stat` and
`trn_fs_realpath` calls with arbitrary arguments returns, and when the
handles returned by the lookups are fresh (pairwise distinct and distinct
from the root) and no allocation of a name fails, then in the state reached
no handle was released twice, no handle of the stack entries `0 .. depth` was
released, and every handle returned by a lookup is in the stack at an index
at most the depth or was released exactly once. -/
theorem C20_reachable_state_invariant {σ : Type} (E : Env σ) (G : Globals) (w : σ)
    (new_root : trn_inode_t) (ops : List Op) (hG : G.root = none) :
    ∃ s, run_ops E ops ⟨(trn_fs_set_root E G w new_root).G,
        (trn_fs_set_root E G w new_root).run⟩ = some s ∧
      ((returned_handles s.run.trace).Nodup → new_root ∉ returned_handles s.run.trace →
        ¬ name_storage_fails s.run.trace →
        (released_handles s.run.trace).Nodup ∧
        (∀ i, 0 ≤ i → i ≤ s.G.cwd_recursion →
          (s.G.cwd i).inode ∉ released_handles s.run.trace) ∧
        (∀ h ∈ returned_handles s.run.trace,
          (∃ i, 0 ≤ i ∧ i ≤ s.G.cwd_recursion ∧ (s.G.cwd i).inode = h) ∨
          (released_handles s.run.trace).count h = 1)) := by
  obtain ⟨s, h1, ext, e, k⟩ := run_ops_step E new_root ops
    ⟨(trn_fs_set_root E G w new_root).G, (trn_fs_set_root E G w new_root).run⟩
  have htr0 : (trn_fs_set_root E G w new_root).run.trace = [] := by
    simp [trn_fs_set_root, hG]
  refine ⟨s, h1, fun hnd hroot hn => ?_⟩
  simp only [htr0, List.nil_append] at e
  rw [e] at hn
  have h0 : StackInv new_root (⟨(trn_fs_set_root E G w new_root).G,
      (trn_fs_set_root E G w new_root).run⟩ : Sys σ) := by
    refine ⟨le_refl _, ?_, ?_⟩
    · simp [trn_fs_set_root]
    · simp only [htr0]
      rw [outstanding_nil]
      simp [trn_fs_set_root, owned_range_empty]
  exact stack_inv_fresh new_root s (k h0 hn) hnd hroot

theorem allocations_succeed_all (trace : List Event)
    (h : trace.all Event.not_failed_malloc = true) : allocations_succeed trace := by
  intro n ok hm
  exact List.all_eq_true.1 h _ hm

set_option maxRecDepth 100000 in
/-- Example for C20: over `env_plain`, after `trn_fs_set_root`, the calls
`chdir("a/b")`, `open("c")`, `chdir("..")`, `realpath(".")` and
`stat("/x/y")` return five handles; the one of `a` stays in the stack at
index 1 and the four others are released once each. -/
theorem C20_witness :
    ∃ s, run_ops env_plain
        [Op.chdir ['a', '/', 'b'], Op.open_file ['c'] 0, Op.chdir ['.', '.'],
          Op.realpath ['.'] none, Op.stat ['/', 'x', '/', 'y']]
        ⟨(trn_fs_set_root env_plain globals_initial 0 ⟨0, 0⟩).G,
          (trn_fs_set_root env_plain globals_initial 0 ⟨0, 0⟩).run⟩ = some s ∧
      s.G.cwd_recursion = 1 ∧ (s.G.cwd 1).inode = ⟨0, 100⟩ ∧
      returned_handles s.run.trace = [⟨0, 100⟩, ⟨0, 101⟩, ⟨0, 102⟩, ⟨0, 103⟩, ⟨0, 104⟩] ∧
      released_handles s.run.trace = [⟨0, 102⟩, ⟨0, 101⟩, ⟨0, 103⟩, ⟨0, 104⟩] ∧
      (released_handles s.run.trace).Nodup ∧
      (∀ i, 0 ≤ i → i ≤ s.G.cwd_recursion →
        (s.G.cwd i).inode ∉ released_handles s.run.trace) ∧
      (∀ h ∈ returned_handles s.run.trace,
        (∃ i, 0 ≤ i ∧ i ≤ s.G.cwd_recursion ∧ (s.G.cwd i).inode = h) ∨
        (released_handles s.run.trace).count h = 1) := by
  obtain ⟨s, hs, h⟩ := C20_reachable_state_invariant env_plain globals_initial 0 ⟨0, 0⟩
    [Op.chdir ['a', '/', 'b'], Op.open_file ['c'] 0, Op.chdir ['.', '.'],
      Op.realpath ['.'] none, Op.stat ['/', 'x', '/', 'y']] rfl
  have hv : (run_ops env_plain
      [Op.chdir ['a', '/', 'b'], Op.open_file ['c'] 0, Op.chdir ['.', '.'],
        Op.realpath ['.'] none, Op.stat ['/', 'x', '/', 'y']]
      ⟨(trn_fs_set_root env_plain globals_initial 0 ⟨0, 0⟩).G,
        (trn_fs_set_root env_plain globals_initial 0 ⟨0, 0⟩).run⟩).map
      (fun s => (s.G.cwd_recursion, (s.G.cwd 1).inode, returned_handles s.run.trace,
        released_handles s.run.trace, s.run.trace.all Event.not_failed_malloc))
      = some (1, ⟨0, 100⟩, [⟨0, 100⟩, ⟨0, 101⟩, ⟨0, 102⟩, ⟨0, 103⟩, ⟨0, 104⟩],
          [⟨0, 102⟩, ⟨0, 101⟩, ⟨0, 103⟩, ⟨0, 104⟩], true) := by decide
  rw [hs] at hv
  simp only [Option.map_some', Option.some.injEq, Prod.mk.injEq] at hv
  obtain ⟨v1, v2, v3, v4, v5⟩ := hv
  have := h (by rw [v3]; decide) (by rw [v3]; decide)
    (allocations_succeed_storage _ (allocations_succeed_all _ v5))
  exact ⟨s, hs, v1, v2, v3, v4, this⟩

end Fs
